import Mathlib

/-!
# inkdown/parser: a shallow embedding of `main.go`

The Go program converts a small markdown dialect to HTML.  This file embeds the
conversion engine (`MarkdownParser.Parse`, `processInlineFormatting`,
`estimateHTMLSize`, the builder pool, `countWords`, `ParseMarkdownBatch`) and
proves properties of it.

Modelling conventions.

* A Go `string` is a `Str = List Char`: the sequence of code points of a valid
  UTF-8 text.  Every needle the program searches for is ASCII, so the byte
  offsets of `strings.Index` and the character offsets used here cut a text at
  the same places.  Lengths that the program measures in bytes (`len`, buffer
  capacities) are measured with `utf8Len`.
* `strings.Index` returns `-1` or an offset; here it returns `Option Nat`.
* A run-time panic (slice bounds out of range, negative `Grow`, a request above the
  allocator limit, a nil pointer) and an exhausted iteration budget are results of type
  `Except Fault _`.
* The `for` loops of `processInlineFormatting` have no syntactic bound; they are
  modelled by `iterate`, which runs one loop body at a time under a budget.
* What the Go runtime decides (the capacity `append` or `Grow` really allocates, the
  allocator limit, the rounding of the `float64` product) is a field of `Runtime`.
* `Parse` has the only pointer to its builder from `getBuilder` to the deferred
  `returnBuilder`, so `getBuilder`, `returnBuilder` and `Parse` pass builders by value.
  The channel holds `*strings.Builder` pointers; for sequences of pool operations made by
  arbitrary callers the same two functions are embedded again in the namespace `ByRef`,
  over a heap of builders and a queue of pointers.  The two embeddings agree on every
  state in which no pointer is queued twice (`view_getBuilder`, `view_returnBuilder`).
* The input array of `ParseMarkdownBatch` is a list of optional texts, `none` for a nil
  `*C.char`; `arraySize` is its length.
-/

namespace Inkdown

/-- A Go string, as the list of its characters. -/
abbrev Str := List Char

/-- The ways a run of the embedded program can fail to return. -/
inductive Fault where
  | sliceBounds
  | growNegative
  | allocLimit
  | nilPointer
  | outOfFuel
deriving DecidableEq, Repr

instance instDecEqExcept {ε α : Type} [DecidableEq ε] [DecidableEq α] :
    DecidableEq (Except ε α)
  | .ok a, .ok b => if h : a = b then isTrue (by rw [h]) else isFalse (fun e => h (by injection e))
  | .error a, .error b =>
    if h : a = b then isTrue (by rw [h]) else isFalse (fun e => h (by injection e))
  | .ok _, .error _ => isFalse (fun e => by injection e)
  | .error _, .ok _ => isFalse (fun e => by injection e)

/-! ## The `strings` and `unicode` library functions used by the program -/

/-- Number of bytes of the UTF-8 encoding of a text: Go `len(s)`. -/
def utf8Len (s : Str) : Nat := (s.map Char.utf8Size).sum

/-- Go `unicode.IsSpace`. -/
def isSpace (c : Char) : Bool :=
  let r := c.toNat
  if r ≤ 0xFF then
    r == 0x09 || r == 0x0A || r == 0x0B || r == 0x0C || r == 0x0D || r == 0x20
      || r == 0x85 || r == 0xA0
  else
    r == 0x1680 || (0x2000 ≤ r && r ≤ 0x200A) || r == 0x2028 || r == 0x2029
      || r == 0x202F || r == 0x205F || r == 0x3000

/-- Go `strings.HasPrefix`. -/
def HasPrefix (s pre : Str) : Bool := pre.isPrefixOf s

/-- Go `strings.TrimPrefix`. -/
def TrimPrefix (s pre : Str) : Str :=
  if HasPrefix s pre then s.drop pre.length else s

/-- Go `strings.Index`: offset of the first occurrence of `substr`, `none` for `-1`. -/
def Index (s substr : Str) : Option Nat :=
  match s with
  | [] => if HasPrefix [] substr then some 0 else none
  | c :: t => if HasPrefix (c :: t) substr then some 0 else (Index t substr).map (· + 1)

/-- Go `strings.Contains`: `Index(s, substr) >= 0`. -/
def Contains (s substr : Str) : Bool := (Index s substr).isSome

/-- The counting loop of Go `strings.Count` for a needle of two or more bytes. -/
def countLoop (substr : Str) : Nat → Str → Nat → Nat
  | 0, _, n => n
  | fuel + 1, s, n =>
    match Index s substr with
    | none => n
    | some i => countLoop substr fuel (s.drop (i + substr.length)) (n + 1)

/-- Go `strings.Count`: number of non-overlapping occurrences of `substr`. -/
def Count (s substr : Str) : Nat :=
  match substr with
  | [] => s.length + 1
  | [c] => s.count c
  | _ => countLoop substr s.length s 0

/-- Go `strings.TrimRight`: drop the trailing characters that are in `cutset`. -/
def TrimRight (s cutset : Str) : Str := s.rdropWhile (fun c => cutset.contains c)

/-- Go `strings.TrimSpace`. -/
def TrimSpace (s : Str) : Str := (s.dropWhile isSpace).rdropWhile isSpace

/-- The loop of Go `strings.genSplit`, which runs at most `n` times. -/
def splitLoop (sep : Str) : Nat → Str → List Str
  | 0, s => [s]
  | n + 1, s =>
    match Index s sep with
    | none => [s]
    | some m => s.take m :: splitLoop sep n (s.drop (m + sep.length))

/-- Go `strings.Split`. -/
def Split (s sep : Str) : List Str :=
  match sep with
  | [] => s.map (fun c => [c])
  | _ => splitLoop sep (Count s sep) s

/-- The loop of Go `strings.FieldsFunc`: `cur` is the field being read, if any. -/
def fieldsLoop (f : Char → Bool) : Str → Option Str → List Str → List Str
  | [], none, acc => acc
  | [], some w, acc => acc ++ [w]
  | c :: cs, cur, acc =>
    if f c then
      match cur with
      | some w => fieldsLoop f cs none (acc ++ [w])
      | none => fieldsLoop f cs none acc
    else
      match cur with
      | some w => fieldsLoop f cs (some (w ++ [c])) acc
      | none => fieldsLoop f cs (some [c]) acc

/-- Go `strings.FieldsFunc`. -/
def FieldsFunc (s : Str) (f : Char → Bool) : List Str := fieldsLoop f s none []

/-- Go `strings.Fields`. -/
def Fields (s : Str) : List Str := FieldsFunc s isSpace

/-- Go `s[i:]`, which panics when `i` is out of range. -/
def sliceFrom (s : Str) (i : Nat) : Except Fault Str :=
  if i ≤ s.length then .ok (s.drop i) else .error .sliceBounds

/-- Go `s[:j]`. -/
def sliceTo (s : Str) (j : Nat) : Except Fault Str :=
  if j ≤ s.length then .ok (s.take j) else .error .sliceBounds

/-- Go `s[i:j]`. -/
def slice (s : Str) (i j : Nat) : Except Fault Str :=
  if i ≤ j ∧ j ≤ s.length then .ok ((s.take j).drop i) else .error .sliceBounds

/-! ## String constants of the program -/

def sFence : Str := "```".toList
def sBold : Str := "**".toList
def sStar : Str := "*".toList
def sLinkMid : Str := "](".toList
def sLinkOpen : Str := "[".toList
def sLinkClose : Str := ")".toList
def sTick : Str := [Char.ofNat 96]
def sNewline : Str := "\n".toList
def sHash : Str := "#".toList

/-- The characters that the reformatter looks for. -/
def inlineMarkers : Str := "*`[]()".toList

/-- A text with none of the characters `*`, backtick, `[`, `]`, `(`, `)`. -/
def Plain (t : Str) : Prop := ∀ c ∈ inlineMarkers, c ∉ t

instance instDecidablePlain : DecidablePred Plain := fun t => by
  unfold Plain; infer_instance

/-! ## Machine integers and the runtime -/

/-- A Go `int` (64 bits, two's complement): the representative of `x` in `[-2^63, 2^63)`. -/
def wrapInt (x : Int) : Int := (x + 2 ^ 63) % 2 ^ 64 - 2 ^ 63

/-- Decisions of the Go runtime that the program does not control. -/
structure Runtime where
  /-- Capacity of the array allocated by `Builder.grow` for a request of `n` bytes. -/
  allocCap : Nat → Nat
  /-- Capacity after `append` outgrows a buffer: old capacity, needed length. -/
  growslice : Nat → Nat → Nat
  /-- The value of `int(float64(e) * 1.2)`. -/
  mulFloat12 : Int → Int
  /-- The allocator limit `maxAlloc`: a request for more bytes panics. -/
  maxAlloc : Nat
  /-- The allocator limit is at least 1 MiB (in Go it is `2^48` on most 64-bit platforms
  and at least `2^31 - 1` on every platform). -/
  maxAlloc_ge : 1048576 ≤ maxAlloc

/-- A runtime that allocates exactly what is asked, up to `2^48` bytes, and scales in
exact arithmetic. -/
def Runtime.exact : Runtime where
  allocCap := fun n => n
  growslice := fun old needed => max (2 * old) needed
  mulFloat12 := fun e => Int.tdiv (e * 6) 5
  maxAlloc := 2 ^ 48
  maxAlloc_ge := by decide

/-! ## `strings.Builder` and the builder pool -/

/-- Go `strings.Builder`: the accumulated text and the capacity of its array. -/
structure Builder where
  buf : Str
  cap : Nat
deriving DecidableEq, Repr

namespace Builder

/-- Go `Builder.Reset`: the array is dropped. -/
def Reset (_b : Builder) : Builder := ⟨[], 0⟩

/-- Go `Builder.Cap`. -/
def Cap (b : Builder) : Nat := b.cap

/-- Go `Builder.Len`. -/
def Len (b : Builder) : Nat := utf8Len b.buf

/-- Go `Builder.String`. -/
def String (b : Builder) : Str := b.buf

/-- Go `Builder.grow`: a new array of `2*cap + n` bytes, which panics when that is more
than the allocator limit. -/
def grow (rt : Runtime) (b : Builder) (n : Nat) : Except Fault Builder :=
  if rt.maxAlloc < 2 * b.cap + n then .error .allocLimit
  else .ok ⟨b.buf, rt.allocCap (2 * b.cap + n)⟩

/-- Go `Builder.Grow`, which panics on a negative count. -/
def Grow (rt : Runtime) (b : Builder) (n : Int) : Except Fault Builder :=
  if n < 0 then .error .growNegative
  else if (b.cap : Int) - (b.Len : Int) < n then b.grow rt n.toNat
  else .ok b

/-- Go `Builder.WriteString`: `append` to the array. -/
def WriteString (rt : Runtime) (b : Builder) (s : Str) : Builder :=
  ⟨b.buf ++ s,
    if b.Len + utf8Len s ≤ b.cap then b.cap else rt.growslice b.cap (b.Len + utf8Len s)⟩

end Builder

/-- A buffered Go channel of builders: its capacity and its queue, oldest first. -/
structure Chan where
  capacity : Nat
  items : List Builder
deriving DecidableEq, Repr

/-- The parser: `type MarkdownParser struct`. -/
structure MarkdownParser where
  builderPool : Chan
deriving DecidableEq, Repr

/-- `NewMarkdownParser`: a channel of capacity 10 filled with 10 empty builders. -/
def NewMarkdownParser : MarkdownParser :=
  ⟨⟨10, List.replicate 10 ⟨[], 0⟩⟩⟩

/-- `MarkdownParser.getBuilder`: the builder handed out and the parser left behind. -/
def getBuilder (rt : Runtime) (mp : MarkdownParser) (estimatedSize : Int) :
    Except Fault (Builder × MarkdownParser) :=
  match mp.builderPool.items with
  | b :: rest =>
    let builder := b.Reset
    let mp1 : MarkdownParser := ⟨⟨mp.builderPool.capacity, rest⟩⟩
    if (builder.Cap : Int) < estimatedSize then
      match builder.Grow rt (estimatedSize - builder.Cap) with
      | .error e => .error e
      | .ok g => .ok (g, mp1)
    else .ok (builder, mp1)
  | [] =>
    let builder : Builder := ⟨[], 0⟩
    match builder.Grow rt estimatedSize with
    | .error e => .error e
    | .ok g => .ok (g, mp)

/-- `MarkdownParser.returnBuilder`. -/
def returnBuilder (mp : MarkdownParser) (builder : Builder) : MarkdownParser :=
  if builder.Cap < 64 * 1024 then
    if mp.builderPool.items.length < mp.builderPool.capacity then
      ⟨⟨mp.builderPool.capacity, mp.builderPool.items ++ [builder]⟩⟩
    else mp
  else mp

/-! ## The size estimator -/

/-- `MarkdownParser.estimateHTMLSize`. -/
def estimateHTMLSize (rt : Runtime) (markdown : Str) (inputSize : Int) : Int :=
  let estimate := wrapInt (inputSize * 2)
  let headingCount : Int := Count markdown sHash
  let linkCount : Int := Count markdown sLinkMid
  let boldCount : Int := Count markdown sBold
  let italicCount : Int := Count markdown sStar
  let codeBlockCount : Int := Count markdown sFence
  let estimate := wrapInt (estimate + wrapInt (headingCount * 10))
  let estimate := wrapInt (estimate + wrapInt (linkCount * 20))
  let estimate := wrapInt (estimate + wrapInt (boldCount * 15))
  let estimate := wrapInt (estimate + wrapInt (italicCount * 10))
  let estimate := wrapInt (estimate + wrapInt (codeBlockCount * 30))
  let estimate := rt.mulFloat12 estimate
  if estimate < 512 then 512
  else if estimate > 1024 * 1024 then 1024 * 1024
  else estimate

/-! ## The inline span reformatter -/

/-- Runs a loop whose body `step` either leaves the loop (`none`) or goes round again
with a new text; `outOfFuel` when the budget is used up. -/
def iterate (step : Str → Except Fault (Option Str)) : Nat → Str → Except Fault Str
  | 0, _ => .error .outOfFuel
  | n + 1, text =>
    match step text with
    | .error e => .error e
    | .ok none => .ok text
    | .ok (some text1) => iterate step n text1

/-- The common body of the bold, italic and inline-code loops, after the loop
condition: find `marker`, find the next `marker` after it, wrap what is between. -/
def spanStep (marker opn cls : Str) (text : Str) : Except Fault (Option Str) :=
  match Index text marker with
  | none => pure none
  | some start => do
    let rest ← sliceFrom text (start + marker.length)
    match Index rest marker with
    | none => pure none
    | some e => do
      let end_ := e + (start + marker.length)
      let inner ← slice text (start + marker.length) end_
      let replacement := opn ++ inner ++ cls
      let pre ← sliceTo text start
      let post ← sliceFrom text (end_ + marker.length)
      pure (some (pre ++ replacement ++ post))

/-- One turn of the loop `for strings.Contains(text, "**")`. -/
def boldStep (text : Str) : Except Fault (Option Str) :=
  if Contains text sBold then
    spanStep sBold "<strong>".toList "</strong>".toList text
  else pure none

/-- One turn of the loop `for strings.Contains(text, "*") && !strings.Contains(text, "**")`. -/
def italicStep (text : Str) : Except Fault (Option Str) :=
  if Contains text sStar && !Contains text sBold then
    spanStep sStar "<em>".toList "</em>".toList text
  else pure none

/-- One turn of the loop `for strings.Contains(text, "](")`. -/
def linkStep (text : Str) : Except Fault (Option Str) :=
  if Contains text sLinkMid then
    match Index text sLinkOpen with
    | none => pure none
    | some linkStart => do
      let rest ← sliceFrom text linkStart
      match Index rest sLinkMid with
      | none => pure none
      | some i => do
        let linkTextEnd := i + linkStart
        let rest2 ← sliceFrom text (linkTextEnd + 2)
        match Index rest2 sLinkClose with
        | none => pure none
        | some j => do
          let linkEnd := j + (linkTextEnd + 2)
          let linkText ← slice text (linkStart + 1) linkTextEnd
          let linkURL ← slice text (linkTextEnd + 2) linkEnd
          let replacement :=
            "<a href=\"".toList ++ linkURL ++ "\">".toList ++ linkText ++ "</a>".toList
          let pre ← sliceTo text linkStart
          let post ← sliceFrom text (linkEnd + 1)
          pure (some (pre ++ replacement ++ post))
  else pure none

/-- One turn of the loop for inline code. -/
def codeStep (text : Str) : Except Fault (Option Str) :=
  if Contains text sTick then
    spanStep sTick "<code>".toList "</code>".toList text
  else pure none

/-- `MarkdownParser.processInlineFormatting`: the four loops in order, each with a
budget of one turn per character of the text it starts from, plus one. -/
def processInlineFormatting (text : Str) : Except Fault Str := do
  let text ← iterate boldStep (text.length + 1) text
  let text ← iterate italicStep (text.length + 1) text
  let text ← iterate linkStep (text.length + 1) text
  let text ← iterate codeStep (text.length + 1) text
  pure text

/-! ## The block classifier -/

/-- The variables of the line loop of `Parse`. -/
structure LoopState where
  builder : Builder
  inCodeBlock : Bool
deriving DecidableEq, Repr

/-- The body of `for _, line := range lines` in `Parse`. -/
def processLine (rt : Runtime) (st : LoopState) (rawLine : Str) : Except Fault LoopState :=
  let line := TrimRight rawLine " \t".toList
  if HasPrefix line sFence then
    if st.inCodeBlock then
      pure ⟨st.builder.WriteString rt "</code></pre>\n".toList, false⟩
    else
      let lang := TrimPrefix line sFence
      if lang = [] then
        pure ⟨st.builder.WriteString rt "<pre><code>".toList, true⟩
      else
        pure ⟨st.builder.WriteString rt
          ("<pre><code class=\"language-".toList ++ lang ++ "\">".toList), true⟩
  else if st.inCodeBlock then
    pure ⟨(st.builder.WriteString rt line).WriteString rt "\n".toList, st.inCodeBlock⟩
  else if HasPrefix line "# ".toList then
    let text := TrimPrefix line "# ".toList
    pure ⟨st.builder.WriteString rt ("<h1>".toList ++ text ++ "</h1>\n".toList), st.inCodeBlock⟩
  else if HasPrefix line "## ".toList then
    let text := TrimPrefix line "## ".toList
    pure ⟨st.builder.WriteString rt ("<h2>".toList ++ text ++ "</h2>\n".toList), st.inCodeBlock⟩
  else if HasPrefix line "### ".toList then
    let text := TrimPrefix line "### ".toList
    pure ⟨st.builder.WriteString rt ("<h3>".toList ++ text ++ "</h3>\n".toList), st.inCodeBlock⟩
  else if HasPrefix line "#### ".toList then
    let text := TrimPrefix line "#### ".toList
    pure ⟨st.builder.WriteString rt ("<h4>".toList ++ text ++ "</h4>\n".toList), st.inCodeBlock⟩
  else if HasPrefix line "##### ".toList then
    let text := TrimPrefix line "##### ".toList
    pure ⟨st.builder.WriteString rt ("<h5>".toList ++ text ++ "</h5>\n".toList), st.inCodeBlock⟩
  else if HasPrefix line "###### ".toList then
    let text := TrimPrefix line "###### ".toList
    pure ⟨st.builder.WriteString rt ("<h6>".toList ++ text ++ "</h6>\n".toList), st.inCodeBlock⟩
  else if HasPrefix line "- ".toList || HasPrefix line "* ".toList then do
    let text ← sliceFrom line 2
    let html ← processInlineFormatting text
    pure ⟨st.builder.WriteString rt ("<li>".toList ++ html ++ "</li>\n".toList), st.inCodeBlock⟩
  else if HasPrefix line "> ".toList then
    let text := TrimPrefix line "> ".toList
    pure ⟨st.builder.WriteString rt
      ("<blockquote>".toList ++ text ++ "</blockquote>\n".toList), st.inCodeBlock⟩
  else if TrimSpace line = [] then
    pure st
  else if TrimSpace line ≠ [] then do
    let html ← processInlineFormatting line
    pure ⟨st.builder.WriteString rt ("<p>".toList ++ html ++ "</p>\n".toList), st.inCodeBlock⟩
  else pure st

/-- The line loop of `Parse`. -/
def parseLines (rt : Runtime) : List Str → LoopState → Except Fault LoopState
  | [], st => .ok st
  | line :: rest, st =>
    match processLine rt st line with
    | .error e => .error e
    | .ok st1 => parseLines rt rest st1

/-- `MarkdownParser.Parse`: the HTML returned and the parser after the deferred
`returnBuilder`. -/
def Parse (rt : Runtime) (mp : MarkdownParser) (markdown : Str) :
    Except Fault (Str × MarkdownParser) :=
  let inputSize : Int := utf8Len markdown
  let estimatedSize := estimateHTMLSize rt markdown inputSize
  match getBuilder rt mp estimatedSize with
  | .error e => .error e
  | .ok (builder, mp1) =>
    let lines := Split markdown sNewline
    match parseLines rt lines ⟨builder, false⟩ with
    | .error e => .error e
    | .ok st => .ok (st.builder.String, returnBuilder mp1 st.builder)

/-- Two runs of the loop body, one on the builder `b` and one on an empty builder,
that return, append the same text and leave the same flag. -/
def SameOutput (b : Builder) (x y : Except Fault LoopState) : Prop :=
  ∃ o f c c0, x = .ok ⟨⟨b.buf ++ o, c⟩, f⟩ ∧ y = .ok ⟨⟨o, c0⟩, f⟩

/-- What the loop body appends for a line and the flag it leaves, read off a run of
`processLine` on an empty builder. -/
def lineOutput (inCodeBlock : Bool) (line : Str) : Str × Bool :=
  match processLine Runtime.exact ⟨⟨[], 0⟩, inCodeBlock⟩ line with
  | .ok st => (st.builder.buf, st.inCodeBlock)
  | .error _ => ([], inCodeBlock)

/-- What the line loop appends for a list of lines and the flag it leaves. -/
def linesOutput : List Str → Bool → Str × Bool
  | [], f => ([], f)
  | line :: rest, f =>
    ((lineOutput f line).1 ++ (linesOutput rest (lineOutput f line).2).1,
      (linesOutput rest (lineOutput f line).2).2)

/-- A text that ends in a space or a tab. -/
def EndsInBlank (t : Str) : Prop := t.getLast? = some ' ' ∨ t.getLast? = some '\t'

instance instDecidableEndsInBlank : DecidablePred EndsInBlank := fun t => by
  unfold EndsInBlank; infer_instance

/-- A line that is no fence and no heading. -/
def NoHeading (l : Str) : Prop :=
  HasPrefix l sFence = false ∧ HasPrefix l "# ".toList = false
    ∧ HasPrefix l "## ".toList = false ∧ HasPrefix l "### ".toList = false
    ∧ HasPrefix l "#### ".toList = false ∧ HasPrefix l "##### ".toList = false
    ∧ HasPrefix l "###### ".toList = false

/-- The HTML of a conversion, without the parser it leaves behind. -/
def htmlOf (r : Except Fault (Str × MarkdownParser)) : Except Fault Str :=
  match r with
  | .error e => .error e
  | .ok (html, _) => .ok html

/-! ## Word count and the batch entry point -/

/-- `countWords`. -/
def countWords (text : Str) : Nat := (Fields text).length

/-- One element of the `results` slice of `ParseMarkdownBatch`, before it is
serialised: the keys present in the map and their values. -/
inductive BatchEntry where
  | success (html : Str) (word_count : Nat) (index : Nat)
  | failure (error : Str) (index : Nat)
deriving DecidableEq, Repr

/-- What `ParseMarkdownBatch` hands to the serialiser. -/
inductive BatchReply where
  | invalid (error : Str)
  | results (rs : List BatchEntry)
deriving DecidableEq, Repr

/-- The loop `for i, cStr := range inputs` of `ParseMarkdownBatch`, from index `i`,
with the one parser shared by the whole batch. -/
def batchLoop (rt : Runtime) :
    List (Option Str) → Nat → MarkdownParser → Except Fault (List BatchEntry)
  | [], _, _ => .ok []
  | none :: rest, i, parser =>
    match batchLoop rt rest (i + 1) parser with
    | .error e => .error e
    | .ok rs =>
      .ok (BatchEntry.failure ("null input at index ".toList ++ Nat.toDigits 10 i) i :: rs)
  | some markdown :: rest, i, parser =>
    match Parse rt parser markdown with
    | .error e => .error e
    | .ok (html, parser1) =>
      let wordCount := countWords markdown
      match batchLoop rt rest (i + 1) parser1 with
      | .error e => .error e
      | .ok rs => .ok (BatchEntry.success html wordCount i :: rs)

/-- Go `(*[1 << 28]*C.char)(unsafe.Pointer(inputArray))[:arraySize:arraySize]`: the
first `arraySize` entries behind the pointer, seen through an array type of `2^28`
entries; the slice is out of range when `arraySize` is more than `2^28`. -/
def arrayView (entries : List (Option Str)) (arraySize : Nat) :
    Except Fault (List (Option Str)) :=
  if arraySize ≤ 2 ^ 28 then .ok (entries.take arraySize) else .error .sliceBounds

/-- `ParseMarkdownBatch`: `inputArray` is `none` for a nil array, else the entries behind
the pointer, and `arraySize` is their number. -/
def ParseMarkdownBatch (rt : Runtime) (inputArray : Option (List (Option Str))) :
    Except Fault BatchReply :=
  match inputArray with
  | none => .ok (.invalid "invalid input array".toList)
  | some entries =>
    let arraySize := entries.length
    if arraySize ≤ 0 then .ok (.invalid "invalid input array".toList)
    else
      match arrayView entries arraySize with
      | .error e => .error e
      | .ok inputs =>
        let parser := NewMarkdownParser
        match batchLoop rt inputs 0 parser with
        | .error e => .error e
        | .ok rs => .ok (.results rs)

/-! ## Specification of the word count -/

/-- Position `i` of `text` starts a maximal run of non-whitespace characters: character
`i` is not whitespace and either `i = 0` or character `i - 1` is whitespace. -/
def isWordStart (text : Str) (i : Nat) : Bool :=
  match text[i]? with
  | none => false
  | some c =>
    !isSpace c && (i == 0 || (match text[i - 1]? with
      | some d => isSpace d
      | none => false))

/-- The number of maximal runs of non-whitespace characters of a text. -/
def wordStartCount (text : Str) : Nat := (List.range text.length).countP (isWordStart text)

/-- Word starts of `s` counted in one pass; `prev` tells whether what precedes `s` is
whitespace or the start of the text. -/
def startsFrom (f : Char → Bool) : Bool → Str → Nat
  | _, [] => 0
  | prev, c :: cs => (if !f c && prev then 1 else 0) + startsFrom f (f c) cs

/-- The test of `isWordStart` for a text that follows whitespace (`prev`) or not. -/
def isWordStartFrom (prev : Bool) (s : Str) (i : Nat) : Bool :=
  match s[i]? with
  | none => false
  | some c =>
    !isSpace c && (if i = 0 then prev else (match s[i - 1]? with
      | some d => isSpace d
      | none => false))

/-! ## The builder pool with builders held by pointer -/

namespace ByRef

/-- A `*strings.Builder`: the index of the builder in the heap.  An index outside the
heap stands for the nil pointer. -/
abbrev Ptr := Nat

/-- The buffered channel `chan *strings.Builder`: its capacity and the queued pointers,
oldest first. -/
structure Chan where
  capacity : Nat
  items : List Ptr
deriving DecidableEq, Repr

/-- The parser, `builderPool`, and the builders that pointers refer to, `heap`. -/
structure State where
  heap : List Builder
  builderPool : Chan
deriving DecidableEq, Repr

/-- The pool as the functions that pass builders by value see it: the builders behind
the queued pointers. -/
def State.view (st : State) : MarkdownParser :=
  ⟨⟨st.builderPool.capacity, st.builderPool.items.filterMap (fun p => st.heap[p]?)⟩⟩

/-- `NewMarkdownParser` in an empty heap: a channel of capacity 10 that holds the
pointers to ten new empty builders, in the order they are made. -/
def NewMarkdownParser : State :=
  ⟨List.replicate 10 ⟨[], 0⟩, ⟨10, List.range 10⟩⟩

/-- `MarkdownParser.getBuilder`: the pointer handed out and the state left behind.  A
builder received from the channel is reset and grown where it is. -/
def getBuilder (rt : Runtime) (st : State) (estimatedSize : Int) :
    Except Fault (Ptr × State) :=
  match st.builderPool.items with
  | builder :: rest =>
    match st.heap[builder]? with
    | none => .error .nilPointer
    | some b =>
      let b1 := b.Reset
      let pool : Chan := ⟨st.builderPool.capacity, rest⟩
      if (b1.Cap : Int) < estimatedSize then
        match b1.Grow rt (estimatedSize - b1.Cap) with
        | .error e => .error e
        | .ok g => .ok (builder, ⟨st.heap.set builder g, pool⟩)
      else .ok (builder, ⟨st.heap.set builder b1, pool⟩)
  | [] =>
    let b : Builder := ⟨[], 0⟩
    match b.Grow rt estimatedSize with
    | .error e => .error e
    | .ok g => .ok (st.heap.length, ⟨st.heap ++ [g], st.builderPool⟩)

/-- `MarkdownParser.returnBuilder`: reading the capacity through a nil pointer panics. -/
def returnBuilder (st : State) (builder : Ptr) : Except Fault State :=
  match st.heap[builder]? with
  | none => .error .nilPointer
  | some b =>
    if b.Cap < 64 * 1024 then
      if st.builderPool.items.length < st.builderPool.capacity then
        .ok ⟨st.heap, ⟨st.builderPool.capacity, st.builderPool.items ++ [builder]⟩⟩
      else .ok st
    else .ok st

/-- What a caller of the pool does: `getBuilder(hint)`; `returnBuilder(builder)`; making
a builder of its own, in state `b`; and calling methods of `strings.Builder` on a builder
that it has a pointer to, which leave that builder in state `b`. -/
inductive PoolOp where
  | get (hint : Int)
  | ret (builder : Ptr)
  | make (b : Builder)
  | use (builder : Ptr) (b : Builder)
deriving DecidableEq, Repr

/-- The state after one operation; the pointer handed out by `get` is dropped, the
caller names it by its index. -/
def applyOp (rt : Runtime) (st : State) : PoolOp → Except Fault State
  | .get hint =>
    match getBuilder rt st hint with
    | .error e => .error e
    | .ok (_, st1) => .ok st1
  | .ret builder => returnBuilder st builder
  | .make b => .ok ⟨st.heap ++ [b], st.builderPool⟩
  | .use builder b =>
    if builder < st.heap.length then .ok ⟨st.heap.set builder b, st.builderPool⟩
    else .error .nilPointer

/-- The state after a sequence of operations. -/
def applyOps (rt : Runtime) : List PoolOp → State → Except Fault State
  | [], st => .ok st
  | op :: ops, st =>
    match applyOp rt st op with
    | .error e => .error e
    | .ok st1 => applyOps rt ops st1

/-- The operation keeps to the discipline of `Parse`: a hint is at most the allocator
limit, and not negative when the pool is empty; a builder that is returned or used is one
that exists and that the pool does not hold at that moment. -/
def PoolOp.allowed (rt : Runtime) (st : State) : PoolOp → Bool
  | .get hint =>
    decide ((st.builderPool.items = [] → 0 ≤ hint) ∧ hint ≤ (rt.maxAlloc : Int))
  | .ret builder => decide (builder < st.heap.length ∧ builder ∉ st.builderPool.items)
  | .make _ => true
  | .use builder _ => decide (builder < st.heap.length ∧ builder ∉ st.builderPool.items)

/-- Every operation of the sequence is allowed in the state it is applied to, as far as
the sequence runs. -/
def Disciplined (rt : Runtime) : List PoolOp → State → Bool
  | [], _ => true
  | op :: ops, st =>
    op.allowed rt st &&
      match applyOp rt st op with
      | .error _ => true
      | .ok st1 => Disciplined rt ops st1

/-- The pool invariant: a channel of capacity 10 that holds at most 10 pointers, no
pointer twice, each to a builder of capacity below 64 KiB. -/
def PoolInv (st : State) : Prop :=
  st.builderPool.capacity = 10 ∧ st.builderPool.items.length ≤ 10
    ∧ st.builderPool.items.Nodup
    ∧ ∀ p ∈ st.builderPool.items, ∃ b, st.heap[p]? = some b ∧ b.Cap < 65536

end ByRef

/-- The builder that `getBuilder` hands out for a hint that it can serve: empty, and
grown to the hint if the hint is positive. -/
def handedOut (rt : Runtime) (hint : Int) : Builder :=
  if 0 < hint then ⟨[], rt.allocCap hint.toNat⟩ else ⟨[], 0⟩

/-! ## Scans that describe what the span loops look for -/

/-- The number of `**` that a scan from the left finds, each next one after the end of
the one before (the occurrences that `strings.Count` counts). -/
def boldCount : Str → Nat
  | [] => 0
  | [_] => 0
  | c :: d :: rest =>
    if c = '*' ∧ d = '*' then 1 + boldCount rest else boldCount (d :: rest)

/-- States of a scan for a link pattern: nothing found, `[` found, `[` found and the
last character is `]`, `](` found after the `[`, `)` found after that. -/
inductive LinkState where
  | start
  | opened
  | closing
  | url
  | done
deriving DecidableEq, Repr

/-- One character of the scan for a link pattern. -/
def linkNext : LinkState → Char → LinkState
  | .start, c => if c = '[' then .opened else .start
  | .opened, c => if c = ']' then .closing else .opened
  | .closing, c => if c = '(' then .url else if c = ']' then .closing else .opened
  | .url, c => if c = ')' then .done else .url
  | .done, _ => .done

/-- The scan for a link pattern over a text, from a state. -/
def linkRun (q : LinkState) (t : Str) : LinkState := t.foldl linkNext q

/-- A text without the four characters of a link pattern. -/
def NoBracket (w : Str) : Prop := ∀ c ∈ w, c ≠ '[' ∧ c ≠ ']' ∧ c ≠ '(' ∧ c ≠ ')'

instance instDecidableNoBracket : DecidablePred NoBracket := fun w => by
  unfold NoBracket; infer_instance

/-- After a character that is none of `[`, `]`, `(`, `)` the scan is where it was, but no
longer right after a `]`. -/
def relax : LinkState → LinkState
  | .closing => .opened
  | q => q

/-! ## Facts about the library functions -/

theorem HasPrefix_iff (s pre : Str) : HasPrefix s pre = true ↔ pre <+: s := by
  simp [HasPrefix, List.isPrefixOf_iff_prefix]

theorem HasPrefix_append (pre r : Str) : HasPrefix (pre ++ r) pre = true :=
  (HasPrefix_iff _ _).2 (List.prefix_append pre r)

theorem HasPrefix_length {s pre : Str} (h : HasPrefix s pre = true) : pre.length ≤ s.length :=
  ((HasPrefix_iff s pre).1 h).length_le

theorem HasPrefix_cons_ne {c d : Char} (h : d ≠ c) (t n : Str) :
    HasPrefix (d :: t) (c :: n) = false := by
  simp [HasPrefix, List.isPrefixOf, h.symm]

theorem Index_nil (sub : Str) : Index [] sub = if HasPrefix [] sub then some 0 else none := by
  simp [Index]

theorem Index_cons (c : Char) (t sub : Str) :
    Index (c :: t) sub = if HasPrefix (c :: t) sub then some 0 else (Index t sub).map (· + 1) := by
  simp [Index]

theorem Index_of_HasPrefix {s sub : Str} (h : HasPrefix s sub = true) : Index s sub = some 0 := by
  cases s <;> simp [Index, h]

theorem Index_append_self (sub r : Str) : Index (sub ++ r) sub = some 0 :=
  Index_of_HasPrefix (HasPrefix_append sub r)

/-- A needle is not found before the first occurrence of its first character. -/
theorem Index_skip (c : Char) (n : Str) :
    ∀ (p r : Str), c ∉ p → Index (p ++ r) (c :: n) = (Index r (c :: n)).map (· + p.length)
  | [], r, _ => by simp
  | d :: p, r, h => by
    have hd : d ≠ c := fun e => h (by simp [e])
    have hp : c ∉ p := fun e => h (by simp [e])
    rw [List.cons_append, Index_cons, HasPrefix_cons_ne hd, Index_skip c n p r hp]
    cases Index r (c :: n) <;> simp [Nat.add_assoc]

theorem Index_none_of_not_mem (c : Char) (n : Str) :
    ∀ s : Str, c ∉ s → Index s (c :: n) = none
  | [], _ => by simp [Index, HasPrefix, List.isPrefixOf]
  | d :: s, h => by
    have hd : d ≠ c := fun e => h (by simp [e])
    have hp : c ∉ s := fun e => h (by simp [e])
    rw [Index_cons, HasPrefix_cons_ne hd, Index_none_of_not_mem c n s hp]
    rfl

/-- Where `Index` finds the needle, the needle is. -/
theorem Index_some_at : ∀ (s sub : Str) (i : Nat), Index s sub = some i → sub <+: s.drop i
  | [], sub, i, h => by
    rw [Index_nil] at h
    split at h
    · rename_i hp
      simp at h; subst h
      simpa using (HasPrefix_iff _ _).1 hp
    · simp at h
  | c :: t, sub, i, h => by
    rw [Index_cons] at h
    split at h
    · rename_i hp
      simp at h; subst h
      simpa using (HasPrefix_iff _ _).1 hp
    · cases ht : Index t sub with
      | none => simp [ht] at h
      | some j =>
        simp [ht] at h; subst h
        simpa using Index_some_at t sub j ht

theorem Index_some_le : ∀ (s sub : Str) (i : Nat), Index s sub = some i → i + sub.length ≤ s.length
  | [], sub, i, h => by
    rw [Index_nil] at h
    split at h
    · rename_i hp
      simp at h; subst h
      simpa using HasPrefix_length hp
    · simp at h
  | c :: t, sub, i, h => by
    rw [Index_cons] at h
    split at h
    · rename_i hp
      simp at h; subst h
      simpa using HasPrefix_length hp
    · cases ht : Index t sub with
      | none => simp [ht] at h
      | some j =>
        simp [ht] at h; subst h
        have := Index_some_le t sub j ht
        simp; omega

/-- The text splits around the occurrence that `Index` finds. -/
theorem Index_some_split {s sub : Str} {i : Nat} (h : Index s sub = some i) :
    s = s.take i ++ sub ++ s.drop (i + sub.length) := by
  obtain ⟨r, hr⟩ := Index_some_at s sub i h
  have h1 : s.drop (i + sub.length) = r := by
    rw [← List.drop_drop, ← hr]; simp
  rw [h1, List.append_assoc, hr, List.take_append_drop]

theorem Index_none_not_sub : ∀ (s sub : Str), Index s sub = none → ¬ sub <:+: s
  | [], sub, h => by
    rw [Index_nil] at h
    split at h
    · simp at h
    · rename_i hp
      intro hi
      have : sub = [] := List.eq_nil_of_infix_nil hi
      subst this
      simp [HasPrefix] at hp
  | c :: t, sub, h => by
    rw [Index_cons] at h
    split at h
    · simp at h
    · rename_i hp
      have ht : Index t sub = none := by
        cases ht : Index t sub with
        | none => rfl
        | some j => simp [ht] at h
      intro hi
      rcases List.infix_cons_iff.1 hi with h1 | h1
      · exact hp ((HasPrefix_iff _ _).2 h1)
      · exact Index_none_not_sub t sub ht h1

theorem Index_isSome_of_sub {s sub : Str} (h : sub <:+: s) : (Index s sub).isSome = true := by
  cases hs : Index s sub with
  | none => exact absurd h (Index_none_not_sub s sub hs)
  | some i => rfl

theorem Index_none_iff (s sub : Str) : Index s sub = none ↔ ¬ sub <:+: s := by
  constructor
  · exact Index_none_not_sub s sub
  · intro h
    cases hs : Index s sub with
    | none => rfl
    | some i =>
      exfalso; apply h
      have := Index_some_split hs
      exact ⟨s.take i, s.drop (i + sub.length), this.symm⟩

theorem Contains_iff (s sub : Str) : Contains s sub = true ↔ sub <:+: s := by
  unfold Contains
  constructor
  · intro h
    by_contra hn
    rw [(Index_none_iff s sub).2 hn] at h
    simp at h
  · exact Index_isSome_of_sub

theorem Contains_false_iff (s sub : Str) : Contains s sub = false ↔ ¬ sub <:+: s := by
  rw [← Contains_iff]; simp

/-! ## One turn of a span loop -/

theorem sliceFrom_ok {s : Str} {i : Nat} (h : i ≤ s.length) : sliceFrom s i = .ok (s.drop i) := by
  simp [sliceFrom, h]

theorem sliceTo_ok {s : Str} {j : Nat} (h : j ≤ s.length) : sliceTo s j = .ok (s.take j) := by
  simp [sliceTo, h]

theorem slice_ok {s : Str} {i j : Nat} (h1 : i ≤ j) (h2 : j ≤ s.length) :
    slice s i j = .ok ((s.take j).drop i) := by
  simp [slice, h1, h2]

theorem spanStep_none (marker opn cls text : Str) (h : Index text marker = none) :
    spanStep marker opn cls text = .ok none := by
  simp [spanStep, h, pure, Except.pure]

theorem spanStep_unclosed (marker opn cls text : Str) (start : Nat)
    (h : Index text marker = some start)
    (h2 : Index (text.drop (start + marker.length)) marker = none) :
    spanStep marker opn cls text = .ok none := by
  have hle := Index_some_le _ _ _ h
  simp [spanStep, h, sliceFrom_ok hle, h2, pure, Except.pure, bind, Except.bind]

/-- The result of a turn that finds both markers. -/
theorem spanStep_closed (marker opn cls text : Str) (start e : Nat)
    (h : Index text marker = some start)
    (h2 : Index (text.drop (start + marker.length)) marker = some e) :
    spanStep marker opn cls text =
      .ok (some (text.take start ++ (opn ++ (text.drop (start + marker.length)).take e ++ cls)
        ++ (text.drop (start + marker.length)).drop (e + marker.length))) := by
  have hle := Index_some_le _ _ _ h
  have hle2 := Index_some_le _ _ _ h2
  simp only [List.length_drop] at hle2
  have a1 : start + marker.length ≤ e + (start + marker.length) := by omega
  have a2 : e + (start + marker.length) ≤ text.length := by omega
  have a3 : start ≤ text.length := by omega
  have a4 : e + (start + marker.length) + marker.length ≤ text.length := by omega
  have e1 : List.drop (start + marker.length) (List.take (e + (start + marker.length)) text)
      = List.take e (List.drop (start + marker.length) text) := by
    rw [List.drop_take]; congr 1; omega
  have e2 : List.drop (e + (start + marker.length) + marker.length) text
      = List.drop (e + marker.length) (List.drop (start + marker.length) text) := by
    rw [List.drop_drop]; congr 1; omega
  simp only [spanStep, h, sliceFrom_ok hle, h2, slice_ok a1 a2, sliceTo_ok a3, sliceFrom_ok a4,
    pure, Except.pure, bind, Except.bind, e1, e2]

/-- A turn of a span loop never panics: it leaves the loop, or it replaces one
pair of markers by the tags. -/
theorem spanStep_cases (marker opn cls text : Str) :
    spanStep marker opn cls text = .ok none ∨
    ∃ pre inner post, text = pre ++ marker ++ inner ++ marker ++ post ∧
      spanStep marker opn cls text = .ok (some (pre ++ (opn ++ inner ++ cls) ++ post)) := by
  cases h : Index text marker with
  | none => exact Or.inl (spanStep_none _ _ _ _ h)
  | some start =>
    cases h2 : Index (text.drop (start + marker.length)) marker with
    | none => exact Or.inl (spanStep_unclosed _ _ _ _ _ h h2)
    | some e =>
      refine Or.inr ⟨text.take start, (text.drop (start + marker.length)).take e,
        (text.drop (start + marker.length)).drop (e + marker.length), ?_,
        spanStep_closed _ _ _ _ _ _ h h2⟩
      have s1 := Index_some_split h
      have s2 := Index_some_split h2
      calc text = text.take start ++ marker ++ text.drop (start + marker.length) := s1
        _ = _ := by
          conv_lhs => rw [s2]
          simp only [List.append_assoc]

/-- Evaluation of a turn on a text whose first two markers are in plain view. -/
theorem spanStep_wrap (c : Char) (n opn cls a b r : Str) (ha : c ∉ a) (hb : c ∉ b) :
    spanStep (c :: n) opn cls (a ++ (c :: n) ++ b ++ (c :: n) ++ r)
      = .ok (some (a ++ (opn ++ b ++ cls) ++ r)) := by
  have h1 : Index (a ++ (c :: n) ++ b ++ (c :: n) ++ r) (c :: n) = some a.length := by
    rw [List.append_assoc, List.append_assoc, List.append_assoc, Index_skip c n a _ ha,
      Index_append_self]
    simp
  have d1 : (a ++ (c :: n) ++ b ++ (c :: n) ++ r).drop (a.length + (c :: n).length)
      = b ++ (c :: n) ++ r := by
    rw [← List.drop_drop]
    simp [List.append_assoc]
  have h2 : Index ((a ++ (c :: n) ++ b ++ (c :: n) ++ r).drop (a.length + (c :: n).length))
      (c :: n) = some b.length := by
    rw [d1, List.append_assoc, Index_skip c n b _ hb, Index_append_self]
    simp
  rw [spanStep_closed _ _ _ _ _ _ h1 h2, d1]
  have t1 : (a ++ (c :: n) ++ b ++ (c :: n) ++ r).take a.length = a := by
    simp [List.append_assoc]
  have t2 : (b ++ (c :: n) ++ r).take b.length = b := by simp [List.append_assoc]
  have t3 : (b ++ (c :: n) ++ r).drop (b.length + (c :: n).length) = r := by
    rw [← List.drop_drop]
    simp [List.append_assoc]
  rw [t1, t2, t3]

/-! ## One turn of the link loop -/

theorem linkStep_not_contains (text : Str) (h : Contains text sLinkMid = false) :
    linkStep text = .ok none := by
  simp [linkStep, h, pure, Except.pure]

/-- The offset of `](` in a text that starts with `[` is at least one. -/
theorem linkMid_pos {text : Str} {ls i : Nat} (h1 : Index text sLinkOpen = some ls)
    (h2 : Index (text.drop ls) sLinkMid = some i) : 1 ≤ i := by
  rcases Nat.eq_zero_or_pos i with h0 | h0
  · subst h0
    obtain ⟨r1, hr1⟩ := Index_some_at _ _ _ h1
    obtain ⟨r2, hr2⟩ := Index_some_at _ _ _ h2
    simp only [List.drop_zero] at hr2
    rw [← hr1] at hr2
    simp [sLinkMid, sLinkOpen] at hr2
  · exact h0

/-- The result of a turn of the link loop that finds `[`, `](` and `)`. -/
theorem linkStep_closed (text : Str) (ls i j : Nat) (h0 : Contains text sLinkMid = true)
    (h1 : Index text sLinkOpen = some ls)
    (h2 : Index (text.drop ls) sLinkMid = some i)
    (h3 : Index (text.drop (i + ls + 2)) sLinkClose = some j) :
    linkStep text = .ok (some (text.take ls
      ++ ("<a href=\"".toList ++ (text.drop (i + ls + 2)).take j ++ "\">".toList
          ++ ((text.drop (ls + 1)).take (i - 1)) ++ "</a>".toList)
      ++ (text.drop (i + ls + 2)).drop (j + 1))) := by
  have hi := linkMid_pos h1 h2
  have l1 := Index_some_le _ _ _ h1
  have l2 := Index_some_le _ _ _ h2
  have l3 := Index_some_le _ _ _ h3
  simp only [List.length_drop, sLinkOpen, sLinkMid, sLinkClose, String.toList, List.length_cons,
    List.length_nil] at l1 l2 l3
  have a0 : ls ≤ text.length := by omega
  have a1 : i + ls + 2 ≤ text.length := by omega
  have a2 : ls + 1 ≤ i + ls := by omega
  have a3 : i + ls ≤ text.length := by omega
  have a4 : i + ls + 2 ≤ j + (i + ls + 2) := by omega
  have a5 : j + (i + ls + 2) ≤ text.length := by omega
  have a6 : j + (i + ls + 2) + 1 ≤ text.length := by omega
  have e1 : List.drop (ls + 1) (List.take (i + ls) text) = List.take (i - 1) (List.drop (ls + 1) text) := by
    rw [List.drop_take]; congr 1; omega
  have e2 : List.drop (i + ls + 2) (List.take (j + (i + ls + 2)) text)
      = List.take j (List.drop (i + ls + 2) text) := by
    rw [List.drop_take]; congr 1; omega
  have e3 : List.drop (j + (i + ls + 2) + 1) text = List.drop (j + 1) (List.drop (i + ls + 2) text) := by
    rw [List.drop_drop]; congr 1; omega
  simp only [linkStep, h0, if_true, h1, sliceFrom_ok a0, h2, sliceFrom_ok a1, h3, slice_ok a2 a3,
    slice_ok a4 a5, sliceTo_ok a0, sliceFrom_ok a6, pure, Except.pure, bind, Except.bind, e1, e2, e3]

/-- A turn of the link loop never panics: it leaves the loop, or it replaces one
link pattern by an anchor. -/
theorem linkStep_cases (text : Str) :
    linkStep text = .ok none ∨
    ∃ pre t u post, text = pre ++ sLinkOpen ++ t ++ sLinkMid ++ u ++ sLinkClose ++ post ∧
      linkStep text = .ok (some (pre
        ++ ("<a href=\"".toList ++ u ++ "\">".toList ++ t ++ "</a>".toList) ++ post)) := by
  cases h0 : Contains text sLinkMid with
  | false => exact Or.inl (linkStep_not_contains _ h0)
  | true =>
    cases h1 : Index text sLinkOpen with
    | none => left; simp [linkStep, h0, h1, pure, Except.pure]
    | some ls =>
      have l1 := Index_some_le _ _ _ h1
      have a0 : ls ≤ text.length := by omega
      cases h2 : Index (text.drop ls) sLinkMid with
      | none => left; simp [linkStep, h0, h1, sliceFrom_ok a0, h2, pure, Except.pure, bind, Except.bind]
      | some i =>
        have l2 := Index_some_le _ _ _ h2
        simp only [List.length_drop, sLinkMid, String.toList, List.length_cons,
          List.length_nil] at l2
        have a1 : i + ls + 2 ≤ text.length := by omega
        cases h3 : Index (text.drop (i + ls + 2)) sLinkClose with
        | none =>
          left
          simp [linkStep, h0, h1, sliceFrom_ok a0, h2, sliceFrom_ok a1, h3, pure, Except.pure,
            bind, Except.bind]
        | some j =>
          refine Or.inr ⟨text.take ls, (text.drop (ls + 1)).take (i - 1),
            (text.drop (i + ls + 2)).take j, (text.drop (i + ls + 2)).drop (j + 1), ?_,
            linkStep_closed text ls i j h0 h1 h2 h3⟩
          have hi := linkMid_pos h1 h2
          have s1 := Index_some_split h1
          have s2 := Index_some_split h2
          have s3 := Index_some_split h3
          have k1 : (sLinkOpen : Str).length = 1 := rfl
          have k2 : (sLinkMid : Str).length = 2 := rfl
          have k3 : (sLinkClose : Str).length = 1 := rfl
          rw [k1] at s1
          rw [k2] at s2
          rw [k3] at s3
          have t1 : List.take i (List.drop ls text) = sLinkOpen ++ (text.drop (ls + 1)).take (i - 1) := by
            have hd : List.drop ls text = sLinkOpen ++ List.drop (ls + 1) text := by
              obtain ⟨r, hr⟩ := Index_some_at _ _ _ h1
              rw [← hr, ← List.drop_drop, ← hr]; rfl
            rw [hd]
            obtain ⟨k, rfl⟩ : ∃ k, i = k + 1 := ⟨i - 1, by omega⟩
            simp [sLinkOpen]
          have t2 : List.drop (i + 2) (List.drop ls text) = List.drop (i + ls + 2) text := by
            rw [List.drop_drop]; congr 1; omega
          rw [t1, t2] at s2
          calc text = text.take ls ++ text.drop ls := (List.take_append_drop ls text).symm
            _ = _ := by
              conv_lhs => rw [s2, s3]
              simp only [List.append_assoc]

/-! ## The loops of the reformatter run to their end -/

/-- A budget that was enough stays enough when it is raised. -/
theorem iterate_mono (step : Str → Except Fault (Option Str)) :
    ∀ (n m : Nat) (t r : Str), iterate step n t = .ok r → n ≤ m → iterate step m t = .ok r
  | 0, _, _, _, h, _ => by simp [iterate] at h
  | n + 1, 0, _, _, _, hm => by omega
  | n + 1, m + 1, t, r, h, hm => by
    simp only [iterate] at h ⊢
    cases hs : step t with
    | error e => simp [hs] at h
    | ok o =>
      cases o with
      | none => simpa [hs] using h
      | some t1 =>
        simp only [hs] at h ⊢
        exact iterate_mono step n m t1 r h (by omega)

/-- A loop whose turns never panic and lower a measure ends within the budget. -/
theorem iterate_total (step : Str → Except Fault (Option Str)) (mu : Str → Nat)
    (hstep : ∀ t, step t = .ok none ∨ ∃ t1, step t = .ok (some t1) ∧ mu t1 < mu t) :
    ∀ (n : Nat) (t : Str), mu t < n → ∃ r, iterate step n t = .ok r ∧ step r = .ok none
  | 0, _, h => by omega
  | n + 1, t, h => by
    rcases hstep t with h0 | ⟨t1, h1, hlt⟩
    · exact ⟨t, by simp [iterate, h0], h0⟩
    · obtain ⟨r, hr, hr2⟩ := iterate_total step mu hstep n t1 (by omega)
      exact ⟨r, by simp [iterate, h1, hr], hr2⟩

theorem iterate_done (step : Str → Except Fault (Option Str)) (n : Nat) (t : Str)
    (h : step t = .ok none) : iterate step (n + 1) t = .ok t := by
  simp [iterate, h]

theorem iterate_next (step : Str → Except Fault (Option Str)) (n : Nat) (t t1 : Str)
    (h : step t = .ok (some t1)) : iterate step (n + 1) t = iterate step n t1 := by
  simp [iterate, h]

/-- Replacing a pair of markers by tags without the character `c` lowers the number
of `c` in the text. -/
theorem count_wrap_lt (c : Char) (marker opn cls pre inner post : Str)
    (hm : c ∈ marker) (ho : c ∉ opn) (hc : c ∉ cls) :
    (pre ++ (opn ++ inner ++ cls) ++ post).count c
      < (pre ++ marker ++ inner ++ marker ++ post).count c := by
  have h1 : 0 < marker.count c := List.count_pos_iff.2 hm
  simp only [List.count_append, List.count_eq_zero_of_not_mem ho,
    List.count_eq_zero_of_not_mem hc]
  omega

theorem boldStep_decreases (t : Str) :
    boldStep t = .ok none ∨
      ∃ t1, boldStep t = .ok (some t1) ∧ t1.count (Char.ofNat 42) < t.count (Char.ofNat 42) := by
  unfold boldStep
  split
  · rcases spanStep_cases sBold "<strong>".toList "</strong>".toList t with h | ⟨p, i, q, ht, h⟩
    · exact Or.inl h
    · refine Or.inr ⟨_, h, ?_⟩
      conv_rhs => rw [ht]
      exact count_wrap_lt _ _ _ _ _ _ _ (by decide) (by decide) (by decide)
  · exact Or.inl rfl

theorem italicStep_decreases (t : Str) :
    italicStep t = .ok none ∨
      ∃ t1, italicStep t = .ok (some t1) ∧ t1.count (Char.ofNat 42) < t.count (Char.ofNat 42) := by
  unfold italicStep
  split
  · rcases spanStep_cases sStar "<em>".toList "</em>".toList t with h | ⟨p, i, q, ht, h⟩
    · exact Or.inl h
    · refine Or.inr ⟨_, h, ?_⟩
      conv_rhs => rw [ht]
      exact count_wrap_lt _ _ _ _ _ _ _ (by decide) (by decide) (by decide)
  · exact Or.inl rfl

theorem codeStep_decreases (t : Str) :
    codeStep t = .ok none ∨
      ∃ t1, codeStep t = .ok (some t1) ∧ t1.count (Char.ofNat 96) < t.count (Char.ofNat 96) := by
  unfold codeStep
  split
  · rcases spanStep_cases sTick "<code>".toList "</code>".toList t with h | ⟨p, i, q, ht, h⟩
    · exact Or.inl h
    · refine Or.inr ⟨_, h, ?_⟩
      conv_rhs => rw [ht]
      exact count_wrap_lt _ _ _ _ _ _ _ (by decide) (by decide) (by decide)
  · exact Or.inl rfl

theorem linkStep_decreases (t : Str) :
    linkStep t = .ok none ∨
      ∃ t1, linkStep t = .ok (some t1) ∧ t1.count (Char.ofNat 41) < t.count (Char.ofNat 41) := by
  rcases linkStep_cases t with h | ⟨p, a, u, q, ht, h⟩
  · exact Or.inl h
  · refine Or.inr ⟨_, h, ?_⟩
    conv_rhs => rw [ht]
    have c1 : List.count (Char.ofNat 41) "<a href=\"".toList = 0 := by decide
    have c2 : List.count (Char.ofNat 41) "\">".toList = 0 := by decide
    have c3 : List.count (Char.ofNat 41) "</a>".toList = 0 := by decide
    have c4 : List.count (Char.ofNat 41) sLinkOpen = 0 := by decide
    have c5 : List.count (Char.ofNat 41) sLinkMid = 0 := by decide
    have c6 : List.count (Char.ofNat 41) sLinkClose = 1 := by decide
    simp only [List.count_append, c1, c2, c3, c4, c5, c6]
    omega

/-- Each loop of the reformatter ends: with the text it returns, its next turn
would leave the loop. -/
theorem loop_total (step : Str → Except Fault (Option Str)) (c : Char)
    (hstep : ∀ t, step t = .ok none ∨ ∃ t1, step t = .ok (some t1) ∧ t1.count c < t.count c)
    (t : Str) : ∃ r, iterate step (t.length + 1) t = .ok r ∧ step r = .ok none :=
  iterate_total step (fun s => s.count c) hstep (t.length + 1) t
    (Nat.lt_succ_of_le (List.count_le_length c t))

/-- The reformatter returns a text on every input. -/
theorem processInlineFormatting_total (text : Str) :
    ∃ r, processInlineFormatting text = .ok r := by
  obtain ⟨t1, h1, _⟩ := loop_total boldStep _ boldStep_decreases text
  obtain ⟨t2, h2, _⟩ := loop_total italicStep _ italicStep_decreases t1
  obtain ⟨t3, h3, _⟩ := loop_total linkStep _ linkStep_decreases t2
  obtain ⟨t4, h4, _⟩ := loop_total codeStep _ codeStep_decreases t3
  exact ⟨t4, by simp [processInlineFormatting, h1, h2, h3, h4, bind, Except.bind, pure, Except.pure]⟩

/-- The reformatter computed loop by loop, under any budgets that are enough. -/
theorem processInlineFormatting_eq (text t1 t2 t3 t4 : Str) (n1 n2 n3 n4 : Nat)
    (h1 : iterate boldStep n1 text = .ok t1) (h2 : iterate italicStep n2 t1 = .ok t2)
    (h3 : iterate linkStep n3 t2 = .ok t3) (h4 : iterate codeStep n4 t3 = .ok t4) :
    processInlineFormatting text = .ok t4 := by
  obtain ⟨r1, e1, _⟩ := loop_total boldStep _ boldStep_decreases text
  obtain ⟨r2, e2, _⟩ := loop_total italicStep _ italicStep_decreases r1
  obtain ⟨r3, e3, _⟩ := loop_total linkStep _ linkStep_decreases r2
  obtain ⟨r4, e4, _⟩ := loop_total codeStep _ codeStep_decreases r3
  have m1 := iterate_mono _ _ (max n1 (text.length + 1)) _ _ h1 (le_max_left _ _)
  have m1b := iterate_mono _ _ (max n1 (text.length + 1)) _ _ e1 (le_max_right _ _)
  have x1 : r1 = t1 := by rw [m1] at m1b; injection m1b with h; exact h.symm
  subst x1
  have m2 := iterate_mono _ _ (max n2 (r1.length + 1)) _ _ h2 (le_max_left _ _)
  have m2b := iterate_mono _ _ (max n2 (r1.length + 1)) _ _ e2 (le_max_right _ _)
  have x2 : r2 = t2 := by rw [m2] at m2b; injection m2b with h; exact h.symm
  subst x2
  have m3 := iterate_mono _ _ (max n3 (r2.length + 1)) _ _ h3 (le_max_left _ _)
  have m3b := iterate_mono _ _ (max n3 (r2.length + 1)) _ _ e3 (le_max_right _ _)
  have x3 : r3 = t3 := by rw [m3] at m3b; injection m3b with h; exact h.symm
  subst x3
  have m4 := iterate_mono _ _ (max n4 (r3.length + 1)) _ _ h4 (le_max_left _ _)
  have m4b := iterate_mono _ _ (max n4 (r3.length + 1)) _ _ e4 (le_max_right _ _)
  have x4 : r4 = t4 := by rw [m4] at m4b; injection m4b with h; exact h.symm
  subst x4
  simp [processInlineFormatting, e1, e2, e3, e4, bind, Except.bind, pure, Except.pure]

/-! ## Evaluating the reformatter on texts of a known shape -/

theorem drop_append_add (a r : Str) (k : Nat) : (a ++ r).drop (a.length + k) = r.drop k := by
  rw [← List.drop_drop]; simp

theorem drop_append_add' (a r : Str) (k : Nat) : (a ++ r).drop (k + a.length) = r.drop k := by
  rw [Nat.add_comm, drop_append_add]

/-- An occurrence of a needle in `a ++ c :: b`, where the needle has no `c`, lies in
`a` or in `b`. -/
theorem infix_append_cons_of_not_mem {c : Char} {sub : Str} (hc : c ∉ sub) (b : Str) :
    ∀ a : Str, sub <:+: a ++ c :: b → sub <:+: a ∨ sub <:+: b := by
  have key : ∀ a : Str, sub <+: a ++ c :: b → sub <+: a := by
    intro a h
    rw [List.prefix_iff_eq_take] at h
    by_cases hl : sub.length ≤ a.length
    · rw [List.take_append_of_le_length hl] at h
      rw [h]; exact List.take_prefix _ _
    · exfalso
      have hl2 : a.length < sub.length := by omega
      apply hc
      rw [h]
      have e : List.take sub.length (a ++ c :: b)
          = a ++ c :: List.take (sub.length - a.length - 1) b := by
        obtain ⟨k, hk⟩ : ∃ k, sub.length = a.length + (k + 1) := ⟨sub.length - a.length - 1, by omega⟩
        rw [hk, List.take_append]
        simp
      rw [e]; simp
  intro a
  induction a with
  | nil =>
    intro h
    rcases List.infix_cons_iff.1 h with h1 | h1
    · exact Or.inl (key [] h1).isInfix
    · exact Or.inr h1
  | cons d a ih =>
    intro h
    rcases List.infix_cons_iff.1 h with h1 | h1
    · exact Or.inl (key (d :: a) h1).isInfix
    · rcases ih h1 with h2 | h2
      · exact Or.inl (List.infix_cons h2)
      · exact Or.inr h2

/-- A text with no `c` has no occurrence of a needle that has a `c`. -/
theorem not_infix_of_not_mem {c : Char} {sub t : Str} (hc : c ∈ sub) (ht : c ∉ t) :
    ¬ sub <:+: t := fun h => ht (h.subset hc)

theorem Contains_false_of_not_mem {c : Char} {sub t : Str} (hc : c ∈ sub) (ht : c ∉ t) :
    Contains t sub = false :=
  (Contains_false_iff t sub).2 (not_infix_of_not_mem hc ht)

/-- A lone `*` between two texts without `**` does not make a `**`. -/
theorem not_bold_single (a b : Str) (ha : Char.ofNat 42 ∉ a) (hb : b.head? ≠ some (Char.ofNat 42))
    (hb2 : ¬ sBold <:+: b) : ¬ sBold <:+: a ++ Char.ofNat 42 :: b := by
  rw [← Index_none_iff]
  have hs : sBold = Char.ofNat 42 :: [Char.ofNat 42] := by decide
  rw [hs, Index_skip _ _ a _ ha, Index_cons]
  have hp : HasPrefix (Char.ofNat 42 :: b) [Char.ofNat 42, Char.ofNat 42] = false := by
    cases b with
    | nil => decide
    | cons d b =>
      have : d ≠ Char.ofNat 42 := fun e => hb (by simp [e])
      simp [HasPrefix, List.isPrefixOf, this.symm]
  rw [← hs] at hp ⊢
  rw [hp, (Index_none_iff b sBold).2 hb2]
  rfl

/-- Evaluation of a turn of the link loop on a text whose first link is in plain view. -/
theorem linkStep_wrap (p t u s : Str) (hp : Char.ofNat 91 ∉ p) (ht : Char.ofNat 93 ∉ t)
    (hu : Char.ofNat 41 ∉ u) :
    linkStep (p ++ sLinkOpen ++ t ++ sLinkMid ++ u ++ sLinkClose ++ s)
      = .ok (some (p ++ ("<a href=\"".toList ++ u ++ "\">".toList ++ t ++ "</a>".toList) ++ s)) := by
  have hshape : p ++ sLinkOpen ++ t ++ sLinkMid ++ u ++ sLinkClose ++ s
      = p ++ (sLinkOpen ++ (t ++ (sLinkMid ++ (u ++ (sLinkClose ++ s))))) := by
    simp only [List.append_assoc]
  rw [hshape]
  have h0 : Contains (p ++ (sLinkOpen ++ (t ++ (sLinkMid ++ (u ++ (sLinkClose ++ s)))))) sLinkMid
      = true := by
    rw [Contains_iff]
    exact ⟨p ++ sLinkOpen ++ t, u ++ (sLinkClose ++ s), by simp only [List.append_assoc]⟩
  have h1 : Index (p ++ (sLinkOpen ++ (t ++ (sLinkMid ++ (u ++ (sLinkClose ++ s)))))) sLinkOpen
      = some p.length := by
    have : sLinkOpen = Char.ofNat 91 :: [] := by decide
    rw [this, Index_skip _ _ p _ hp, Index_append_self]; simp
  have d1 : (p ++ (sLinkOpen ++ (t ++ (sLinkMid ++ (u ++ (sLinkClose ++ s)))))).drop p.length
      = (sLinkOpen ++ t) ++ (sLinkMid ++ (u ++ (sLinkClose ++ s))) := by simp
  have h2 : Index ((p ++ (sLinkOpen ++ (t ++ (sLinkMid ++ (u ++ (sLinkClose ++ s)))))).drop
      p.length) sLinkMid = some (t.length + 1) := by
    rw [d1]
    have e : sLinkMid = Char.ofNat 93 :: [Char.ofNat 40] := by decide
    have hn : Char.ofNat 93 ∉ sLinkOpen ++ t := by
      simp only [List.mem_append, not_or]; exact ⟨by decide, ht⟩
    rw [e, Index_skip _ _ _ _ hn, Index_append_self]
    simp [sLinkOpen]
  have d3 : (p ++ (sLinkOpen ++ (t ++ (sLinkMid ++ (u ++ (sLinkClose ++ s)))))).drop
      (t.length + 1 + p.length + 2) = u ++ (sLinkClose ++ s) := by
    have : t.length + 1 + p.length + 2 = p.length + (1 + (t.length + 2)) := by omega
    rw [this, drop_append_add]
    have : (sLinkOpen ++ (t ++ (sLinkMid ++ (u ++ (sLinkClose ++ s))))).drop (1 + (t.length + 2))
        = (t ++ (sLinkMid ++ (u ++ (sLinkClose ++ s)))).drop (t.length + 2) :=
      drop_append_add sLinkOpen _ _
    rw [this, drop_append_add]; rfl
  have h3 : Index ((p ++ (sLinkOpen ++ (t ++ (sLinkMid ++ (u ++ (sLinkClose ++ s)))))).drop
      (t.length + 1 + p.length + 2)) sLinkClose = some u.length := by
    rw [d3]
    have e : sLinkClose = Char.ofNat 41 :: [] := by decide
    rw [e, Index_skip _ _ u _ hu, Index_append_self]; simp
  rw [linkStep_closed _ _ _ _ h0 h1 h2 h3, d3]
  have t1 : (p ++ (sLinkOpen ++ (t ++ (sLinkMid ++ (u ++ (sLinkClose ++ s)))))).take p.length
      = p := by simp
  have t2 : (u ++ (sLinkClose ++ s)).take u.length = u := by simp
  have t3 : (u ++ (sLinkClose ++ s)).drop (u.length + 1) = s := by
    rw [drop_append_add]; rfl
  have t4 : ((p ++ (sLinkOpen ++ (t ++ (sLinkMid ++ (u ++ (sLinkClose ++ s)))))).drop
      (p.length + 1)).take (t.length + 1 - 1) = t := by
    rw [drop_append_add]
    have : (sLinkOpen ++ (t ++ (sLinkMid ++ (u ++ (sLinkClose ++ s))))).drop 1
        = t ++ (sLinkMid ++ (u ++ (sLinkClose ++ s))) := rfl
    rw [this]; simp
  rw [t1, t2, t3, t4]

/-! ## Splitting a text into lines -/

theorem splitLoop_eq_splitOn (c : Char) :
    ∀ s : Str, splitLoop [c] (s.count c) s = s.splitOn c
  | [] => by simp [splitLoop, List.splitOn]
  | d :: s => by
    have ih := splitLoop_eq_splitOn c s
    rw [List.splitOn, List.splitOnP_cons]
    by_cases hd : d = c
    · subst hd
      have hi : Index (d :: s) [d] = some 0 := Index_of_HasPrefix (by simp [HasPrefix, List.isPrefixOf])
      simp only [List.count_cons_self, splitLoop, hi, beq_self_eq_true, if_true]
      simp only [List.take_zero, List.length_singleton, Nat.zero_add, List.drop_succ_cons,
        List.drop_zero, ih, List.splitOn]
    · have hne : (d == c) = false := by simpa using hd
      have hcnt : (d :: s).count c = s.count c := by
        rw [List.count_cons]; simp [hd]
      have hi : Index (d :: s) [c] = (Index s [c]).map (· + 1) := by
        rw [Index_cons, HasPrefix_cons_ne hd]; rfl
      rw [hcnt]
      simp only [hne, Bool.false_eq_true, if_false]
      rw [← List.splitOn, ← ih]
      cases hn : s.count c with
      | zero => simp [splitLoop]
      | succ n =>
        simp only [splitLoop, hi]
        cases hs : Index s [c] with
        | none => simp
        | some m => simp

theorem Split_newline (s : Str) : Split s sNewline = s.splitOn (Char.ofNat 10) := by
  have : sNewline = [Char.ofNat 10] := by decide
  rw [this]
  simp only [Split, Count]
  exact splitLoop_eq_splitOn _ s

theorem splitOn_append_cons (x : Char) (b : Str) :
    ∀ a : Str, (a ++ x :: b).splitOn x = a.splitOn x ++ b.splitOn x
  | [] => by
    simp only [List.nil_append, List.splitOn, List.splitOnP_cons, List.splitOnP_nil]
    simp
  | d :: a => by
    have ih := splitOn_append_cons x b a
    simp only [List.splitOn] at ih ⊢
    rw [List.cons_append, List.splitOnP_cons, List.splitOnP_cons, ih]
    by_cases hd : (d == x) = true
    · simp [hd]
    · simp only [hd, if_false]
      cases h : List.splitOnP (fun y => y == x) a with
      | nil => exact absurd h (List.splitOnP_ne_nil _ _)
      | cons l ls => simp

/-- The lines of `a`, a newline, `b` are the lines of `a` followed by the lines of `b`. -/
theorem Split_append (a b : Str) :
    Split (a ++ sNewline ++ b) sNewline = Split a sNewline ++ Split b sNewline := by
  rw [Split_newline, Split_newline, Split_newline]
  have : a ++ sNewline ++ b = a ++ Char.ofNat 10 :: b := by simp [sNewline]
  rw [this]
  exact splitOn_append_cons _ b a

/-- A text without newline is one line. -/
theorem Split_single (s : Str) (h : Char.ofNat 10 ∉ s) : Split s sNewline = [s] := by
  rw [Split_newline, List.splitOn]
  refine List.splitOnP_eq_single _ _ ?_
  intro x hx hx2
  simp only [beq_iff_eq] at hx2
  exact h (hx2 ▸ hx)

/-- Lines joined by newlines split back into the lines. -/
theorem Split_intercalate (ls : List Str) (h : ∀ l ∈ ls, Char.ofNat 10 ∉ l) (hls : ls ≠ []) :
    Split (sNewline.intercalate ls) sNewline = ls := by
  rw [Split_newline]
  have e : sNewline = [Char.ofNat 10] := by decide
  rw [e]
  exact List.splitOn_intercalate _ _ h hls

/-! ## The size estimate and the builder handed out -/

theorem estimateHTMLSize_bounds (rt : Runtime) (markdown : Str) (inputSize : Int) :
    512 ≤ estimateHTMLSize rt markdown inputSize
      ∧ estimateHTMLSize rt markdown inputSize ≤ 1048576 := by
  simp only [estimateHTMLSize]
  split
  · omega
  · split <;> omega

/-- The builder that `Parse` works with is empty, whatever the pool holds. -/
theorem getBuilder_ok (rt : Runtime) (mp : MarkdownParser) (markdown : Str) (inputSize : Int) :
    ∃ c mp1, getBuilder rt mp (estimateHTMLSize rt markdown inputSize) = .ok (⟨[], c⟩, mp1) := by
  have hb := estimateHTMLSize_bounds rt markdown inputSize
  have hm := rt.maxAlloc_ge
  generalize estimateHTMLSize rt markdown inputSize = e at hb
  have h0 : ¬ e < 0 := by omega
  have h1 : (0 : Int) < e := by omega
  have h2 : ¬ rt.maxAlloc < e.toNat := by omega
  unfold getBuilder
  cases mp.builderPool.items with
  | nil =>
    simp [Builder.Grow, Builder.Len, utf8Len, Builder.grow, h0, h1, h2]
  | cons b rest =>
    simp [Builder.Reset, Builder.Cap, Builder.Grow, Builder.Len, utf8Len, Builder.grow, h0, h1,
      h2]

/-! ## The line loop writes the same text into any builder -/

theorem sliceFrom_two_of_item {l : Str}
    (h : (HasPrefix l "- ".toList || HasPrefix l "* ".toList) = true) :
    sliceFrom l 2 = .ok (l.drop 2) := by
  apply sliceFrom_ok
  rw [Bool.or_eq_true] at h
  rcases h with h | h
  · exact HasPrefix_length h
  · exact HasPrefix_length h

theorem SameOutput.ite {b : Builder} {c : Prop} [Decidable c] {x1 x2 y1 y2 : Except Fault LoopState}
    (h1 : c → SameOutput b x1 y1) (h2 : ¬ c → SameOutput b x2 y2) :
    SameOutput b (if c then x1 else x2) (if c then y1 else y2) := by
  by_cases h : c
  · simpa [h] using h1 h
  · simpa [h] using h2 h

theorem SameOutput.write (rt : Runtime) (b : Builder) (s : Str) (f : Bool) :
    SameOutput b (pure ⟨b.WriteString rt s, f⟩)
      (pure ⟨Builder.WriteString Runtime.exact ⟨[], 0⟩ s, f⟩) :=
  ⟨s, f, _, _, rfl, rfl⟩

theorem SameOutput.write2 (rt : Runtime) (b : Builder) (s1 s2 : Str) (f : Bool) :
    SameOutput b (pure ⟨(b.WriteString rt s1).WriteString rt s2, f⟩)
      (pure ⟨(Builder.WriteString Runtime.exact ⟨[], 0⟩ s1).WriteString Runtime.exact s2, f⟩) :=
  ⟨s1 ++ s2, f, _, _, by simp only [Builder.WriteString, List.append_assoc]; rfl, rfl⟩

theorem SameOutput.skip (b : Builder) (c : Nat) (f : Bool) :
    SameOutput b (pure ⟨b, f⟩) (pure ⟨⟨[], c⟩, f⟩) :=
  ⟨[], f, b.cap, c, by simp [pure, Except.pure], rfl⟩

/-- The loop body never panics; what it appends and the flag it leaves do not depend
on the builder or on the runtime. -/
theorem processLine_sameOutput (rt : Runtime) (b : Builder) (f : Bool) (line : Str) :
    SameOutput b (processLine rt ⟨b, f⟩ line) (processLine Runtime.exact ⟨⟨[], 0⟩, f⟩ line) := by
  obtain ⟨r1, hr1⟩ := processInlineFormatting_total ((TrimRight line " \t".toList).drop 2)
  obtain ⟨r2, hr2⟩ := processInlineFormatting_total (TrimRight line " \t".toList)
  have hs := @sliceFrom_two_of_item (TrimRight line " \t".toList)
  simp only [processLine]
  refine SameOutput.ite (fun _ => SameOutput.ite (fun _ => SameOutput.write _ _ _ _)
    (fun _ => SameOutput.ite (fun _ => SameOutput.write _ _ _ _)
      (fun _ => SameOutput.write _ _ _ _))) (fun _ => ?_)
  refine SameOutput.ite (fun _ => SameOutput.write2 _ _ _ _ _) (fun _ => ?_)
  refine SameOutput.ite (fun _ => SameOutput.write _ _ _ _) (fun _ => ?_)
  refine SameOutput.ite (fun _ => SameOutput.write _ _ _ _) (fun _ => ?_)
  refine SameOutput.ite (fun _ => SameOutput.write _ _ _ _) (fun _ => ?_)
  refine SameOutput.ite (fun _ => SameOutput.write _ _ _ _) (fun _ => ?_)
  refine SameOutput.ite (fun _ => SameOutput.write _ _ _ _) (fun _ => ?_)
  refine SameOutput.ite (fun _ => SameOutput.write _ _ _ _) (fun _ => ?_)
  refine SameOutput.ite (fun h => ?_) (fun _ => ?_)
  · simp only [hs h, hr1, bind, Except.bind]
    exact SameOutput.write _ _ _ _
  refine SameOutput.ite (fun _ => SameOutput.write _ _ _ _) (fun _ => ?_)
  refine SameOutput.ite (fun _ => SameOutput.skip _ _ _) (fun _ => ?_)
  refine SameOutput.ite (fun _ => ?_) (fun _ => SameOutput.skip _ _ _)
  simp only [hr2, bind, Except.bind]
  exact SameOutput.write _ _ _ _

theorem processLine_eq (rt : Runtime) (b : Builder) (f : Bool) (line : Str) :
    ∃ c, processLine rt ⟨b, f⟩ line
      = .ok ⟨⟨b.buf ++ (lineOutput f line).1, c⟩, (lineOutput f line).2⟩ := by
  obtain ⟨o, g, c, c0, h1, h2⟩ := processLine_sameOutput rt b f line
  exact ⟨c, by rw [h1, lineOutput, h2]⟩

/-- The line loop never panics; what it appends and the flag it leaves do not depend
on the builder or on the runtime. -/
theorem parseLines_eq (rt : Runtime) :
    ∀ (lines : List Str) (b : Builder) (f : Bool), ∃ c, parseLines rt lines ⟨b, f⟩
      = .ok ⟨⟨b.buf ++ (linesOutput lines f).1, c⟩, (linesOutput lines f).2⟩
  | [], b, f => ⟨b.cap, by simp [parseLines, linesOutput]⟩
  | line :: rest, b, f => by
    obtain ⟨c, hc⟩ := processLine_eq rt b f line
    obtain ⟨c2, hc2⟩ := parseLines_eq rt rest ⟨b.buf ++ (lineOutput f line).1, c⟩
      (lineOutput f line).2
    exact ⟨c2, by simp only [parseLines, hc, hc2, linesOutput, List.append_assoc]⟩

/-- The HTML that `Parse` returns is what the line loop appends for the lines of the
text, starting outside a code block; it does not depend on the parser or the runtime. -/
theorem Parse_html (rt : Runtime) (mp : MarkdownParser) (markdown : Str) :
    htmlOf (Parse rt mp markdown) = .ok (linesOutput (Split markdown sNewline) false).1 := by
  obtain ⟨c, mp1, hg⟩ := getBuilder_ok rt mp markdown (utf8Len markdown : Int)
  obtain ⟨c2, hp⟩ := parseLines_eq rt (Split markdown sNewline) ⟨[], c⟩ false
  simp only [Parse, hg, hp, htmlOf, Builder.String, List.nil_append]

theorem linesOutput_append :
    ∀ (l1 l2 : List Str) (f : Bool), linesOutput (l1 ++ l2) f
      = ((linesOutput l1 f).1 ++ (linesOutput l2 (linesOutput l1 f).2).1,
          (linesOutput l2 (linesOutput l1 f).2).2)
  | [], l2, f => by simp [linesOutput]
  | a :: l1, l2, f => by
    rw [List.cons_append, linesOutput, linesOutput, linesOutput_append l1 l2]
    simp only [List.append_assoc]

theorem linesOutput_single (line : Str) (f : Bool) :
    linesOutput [line] f = lineOutput f line := by
  simp [linesOutput]

/-! ## Trimming -/

theorem TrimRight_eq_self {l : Str} (h : ¬ EndsInBlank l) : TrimRight l " \t".toList = l := by
  rw [TrimRight, List.rdropWhile_eq_self_iff]
  intro hl hp
  apply h
  have hg : l.getLast? = some (l.getLast hl) := List.getLast?_eq_getLast l hl
  simp only [EndsInBlank, hg, Option.some.injEq]
  have : (l.getLast hl) = ' ' ∨ (l.getLast hl) = '\t' := by
    simpa using hp
  exact this

theorem EndsInBlank_append {a t : Str} (ht : t ≠ []) : EndsInBlank (a ++ t) ↔ EndsInBlank t := by
  have : (a ++ t).getLast? = t.getLast? := by
    cases t with
    | nil => exact absurd rfl ht
    | cons d t =>
      rw [List.getLast?_append, List.getLast?_eq_getLast (d :: t) (by simp)]
      rfl
  simp only [EndsInBlank, this]

theorem TrimRight_append {a t : Str} (ht : t ≠ []) (h : ¬ EndsInBlank t) :
    TrimRight (a ++ t) " \t".toList = a ++ t :=
  TrimRight_eq_self (fun e => h ((EndsInBlank_append ht).1 e))

theorem TrimRight_nil : TrimRight [] " \t".toList = [] := by decide

/-! ## What the loop body appends, case by case -/

theorem lineOutput_fence_close (line : Str)
    (h : HasPrefix (TrimRight line " \t".toList) sFence = true) :
    lineOutput true line = ("</code></pre>\n".toList, false) := by
  simp only [lineOutput, processLine, h, if_true, pure, Except.pure, Builder.WriteString,
    List.nil_append]

theorem lineOutput_fence_open (line : Str)
    (h : HasPrefix (TrimRight line " \t".toList) sFence = true) :
    lineOutput false line =
      (if TrimPrefix (TrimRight line " \t".toList) sFence = [] then "<pre><code>".toList
        else "<pre><code class=\"language-".toList
          ++ TrimPrefix (TrimRight line " \t".toList) sFence ++ "\">".toList, true) := by
  by_cases hl : TrimPrefix (TrimRight line " \t".toList) sFence = []
  · simp only [lineOutput, processLine, h, hl, if_true, Bool.false_eq_true, if_false, pure,
      Except.pure, Builder.WriteString, List.nil_append]
  · simp only [lineOutput, processLine, h, hl, if_true, Bool.false_eq_true, if_false, pure,
      Except.pure, Builder.WriteString, List.nil_append]

theorem lineOutput_code (line : Str)
    (h : HasPrefix (TrimRight line " \t".toList) sFence = false) :
    lineOutput true line = (TrimRight line " \t".toList ++ "\n".toList, true) := by
  simp only [lineOutput, processLine, h, if_true, Bool.false_eq_true, if_false, pure, Except.pure,
    Builder.WriteString, List.nil_append]

theorem lineOutput_h1 (line : Str)
    (h : HasPrefix (TrimRight line " \t".toList) sFence = false)
    (h1 : HasPrefix (TrimRight line " \t".toList) "# ".toList = true) :
    lineOutput false line
      = ("<h1>".toList ++ TrimPrefix (TrimRight line " \t".toList) "# ".toList
          ++ "</h1>\n".toList, false) := by
  simp only [lineOutput, processLine, h, h1, if_true, Bool.false_eq_true, if_false, pure,
    Except.pure, Builder.WriteString, List.nil_append]

theorem lineOutput_h2 (line : Str)
    (h : HasPrefix (TrimRight line " \t".toList) sFence = false)
    (h1 : HasPrefix (TrimRight line " \t".toList) "# ".toList = false)
    (h2 : HasPrefix (TrimRight line " \t".toList) "## ".toList = true) :
    lineOutput false line
      = ("<h2>".toList ++ TrimPrefix (TrimRight line " \t".toList) "## ".toList
          ++ "</h2>\n".toList, false) := by
  simp only [lineOutput, processLine, h, h1, h2, if_true, Bool.false_eq_true, if_false, pure,
    Except.pure, Builder.WriteString, List.nil_append]

theorem lineOutput_h3 (line : Str)
    (h : HasPrefix (TrimRight line " \t".toList) sFence = false)
    (h1 : HasPrefix (TrimRight line " \t".toList) "# ".toList = false)
    (h2 : HasPrefix (TrimRight line " \t".toList) "## ".toList = false)
    (h3 : HasPrefix (TrimRight line " \t".toList) "### ".toList = true) :
    lineOutput false line
      = ("<h3>".toList ++ TrimPrefix (TrimRight line " \t".toList) "### ".toList
          ++ "</h3>\n".toList, false) := by
  simp only [lineOutput, processLine, h, h1, h2, h3, if_true, Bool.false_eq_true, if_false, pure,
    Except.pure, Builder.WriteString, List.nil_append]

theorem lineOutput_h4 (line : Str)
    (h : HasPrefix (TrimRight line " \t".toList) sFence = false)
    (h1 : HasPrefix (TrimRight line " \t".toList) "# ".toList = false)
    (h2 : HasPrefix (TrimRight line " \t".toList) "## ".toList = false)
    (h3 : HasPrefix (TrimRight line " \t".toList) "### ".toList = false)
    (h4 : HasPrefix (TrimRight line " \t".toList) "#### ".toList = true) :
    lineOutput false line
      = ("<h4>".toList ++ TrimPrefix (TrimRight line " \t".toList) "#### ".toList
          ++ "</h4>\n".toList, false) := by
  simp only [lineOutput, processLine, h, h1, h2, h3, h4, if_true, Bool.false_eq_true, if_false,
    pure, Except.pure, Builder.WriteString, List.nil_append]

theorem lineOutput_h5 (line : Str)
    (h : HasPrefix (TrimRight line " \t".toList) sFence = false)
    (h1 : HasPrefix (TrimRight line " \t".toList) "# ".toList = false)
    (h2 : HasPrefix (TrimRight line " \t".toList) "## ".toList = false)
    (h3 : HasPrefix (TrimRight line " \t".toList) "### ".toList = false)
    (h4 : HasPrefix (TrimRight line " \t".toList) "#### ".toList = false)
    (h5 : HasPrefix (TrimRight line " \t".toList) "##### ".toList = true) :
    lineOutput false line
      = ("<h5>".toList ++ TrimPrefix (TrimRight line " \t".toList) "##### ".toList
          ++ "</h5>\n".toList, false) := by
  simp only [lineOutput, processLine, h, h1, h2, h3, h4, h5, if_true, Bool.false_eq_true,
    if_false, pure, Except.pure, Builder.WriteString, List.nil_append]

theorem lineOutput_h6 (line : Str)
    (h : HasPrefix (TrimRight line " \t".toList) sFence = false)
    (h1 : HasPrefix (TrimRight line " \t".toList) "# ".toList = false)
    (h2 : HasPrefix (TrimRight line " \t".toList) "## ".toList = false)
    (h3 : HasPrefix (TrimRight line " \t".toList) "### ".toList = false)
    (h4 : HasPrefix (TrimRight line " \t".toList) "#### ".toList = false)
    (h5 : HasPrefix (TrimRight line " \t".toList) "##### ".toList = false)
    (h6 : HasPrefix (TrimRight line " \t".toList) "###### ".toList = true) :
    lineOutput false line
      = ("<h6>".toList ++ TrimPrefix (TrimRight line " \t".toList) "###### ".toList
          ++ "</h6>\n".toList, false) := by
  simp only [lineOutput, processLine, h, h1, h2, h3, h4, h5, h6, if_true, Bool.false_eq_true,
    if_false, pure, Except.pure, Builder.WriteString, List.nil_append]

theorem lineOutput_item (line r : Str) (h : NoHeading (TrimRight line " \t".toList))
    (hi : (HasPrefix (TrimRight line " \t".toList) "- ".toList
      || HasPrefix (TrimRight line " \t".toList) "* ".toList) = true)
    (hr : processInlineFormatting ((TrimRight line " \t".toList).drop 2) = .ok r) :
    lineOutput false line = ("<li>".toList ++ r ++ "</li>\n".toList, false) := by
  obtain ⟨h0, h1, h2, h3, h4, h5, h6⟩ := h
  simp only [lineOutput, processLine, h0, h1, h2, h3, h4, h5, h6, hi, sliceFrom_two_of_item hi, hr,
    if_true, Bool.false_eq_true, if_false, pure, Except.pure, Builder.WriteString,
    List.nil_append, bind, Except.bind]

theorem lineOutput_quote (line : Str) (h : NoHeading (TrimRight line " \t".toList))
    (hi : (HasPrefix (TrimRight line " \t".toList) "- ".toList
      || HasPrefix (TrimRight line " \t".toList) "* ".toList) = false)
    (hq : HasPrefix (TrimRight line " \t".toList) "> ".toList = true) :
    lineOutput false line
      = ("<blockquote>".toList ++ TrimPrefix (TrimRight line " \t".toList) "> ".toList
          ++ "</blockquote>\n".toList, false) := by
  obtain ⟨h0, h1, h2, h3, h4, h5, h6⟩ := h
  simp only [lineOutput, processLine, h0, h1, h2, h3, h4, h5, h6, hi, hq,
    if_true, Bool.false_eq_true, if_false, pure, Except.pure, Builder.WriteString,
    List.nil_append]

theorem lineOutput_blank (line : Str) (h : NoHeading (TrimRight line " \t".toList))
    (hi : (HasPrefix (TrimRight line " \t".toList) "- ".toList
      || HasPrefix (TrimRight line " \t".toList) "* ".toList) = false)
    (hq : HasPrefix (TrimRight line " \t".toList) "> ".toList = false)
    (hb : TrimSpace (TrimRight line " \t".toList) = []) :
    lineOutput false line = ([], false) := by
  obtain ⟨h0, h1, h2, h3, h4, h5, h6⟩ := h
  simp only [lineOutput, processLine, h0, h1, h2, h3, h4, h5, h6, hi, hq, hb,
    if_true, Bool.false_eq_true, if_false, pure, Except.pure]

theorem lineOutput_paragraph (line r : Str) (h : NoHeading (TrimRight line " \t".toList))
    (hi : (HasPrefix (TrimRight line " \t".toList) "- ".toList
      || HasPrefix (TrimRight line " \t".toList) "* ".toList) = false)
    (hq : HasPrefix (TrimRight line " \t".toList) "> ".toList = false)
    (hb : TrimSpace (TrimRight line " \t".toList) ≠ [])
    (hr : processInlineFormatting (TrimRight line " \t".toList) = .ok r) :
    lineOutput false line = ("<p>".toList ++ r ++ "</p>\n".toList, false) := by
  obtain ⟨h0, h1, h2, h3, h4, h5, h6⟩ := h
  simp only [lineOutput, processLine, h0, h1, h2, h3, h4, h5, h6, hi, hq, hb, hr,
    if_true, Bool.false_eq_true, if_false, pure, Except.pure, Builder.WriteString,
    List.nil_append, bind, Except.bind, ne_eq, not_false_eq_true]

/-! ## Further facts used by the claims -/

theorem Plain.star {t : Str} (h : Plain t) : Char.ofNat 42 ∉ t := h _ (by decide)
theorem Plain.tick {t : Str} (h : Plain t) : Char.ofNat 96 ∉ t := h _ (by decide)
theorem Plain.lbracket {t : Str} (h : Plain t) : Char.ofNat 91 ∉ t := h _ (by decide)
theorem Plain.rbracket {t : Str} (h : Plain t) : Char.ofNat 93 ∉ t := h _ (by decide)
theorem Plain.lparen {t : Str} (h : Plain t) : Char.ofNat 40 ∉ t := h _ (by decide)
theorem Plain.rparen {t : Str} (h : Plain t) : Char.ofNat 41 ∉ t := h _ (by decide)

theorem boldStep_of_not_contains {t : Str} (h : Contains t sBold = false) :
    boldStep t = .ok none := by simp [boldStep, h, pure, Except.pure]

theorem italicStep_of_no_star {t : Str} (h : Contains t sStar = false) :
    italicStep t = .ok none := by simp [italicStep, h, pure, Except.pure]

theorem italicStep_of_bold {t : Str} (h : Contains t sBold = true) :
    italicStep t = .ok none := by simp [italicStep, h, pure, Except.pure]

theorem codeStep_of_not_contains {t : Str} (h : Contains t sTick = false) :
    codeStep t = .ok none := by simp [codeStep, h, pure, Except.pure]

theorem TrimPrefix_append (pre r : Str) : TrimPrefix (pre ++ r) pre = r := by
  simp [TrimPrefix, HasPrefix_append]

/-- A text without newline makes `Parse` run the loop body once. -/
theorem Parse_single_line (rt : Runtime) (mp : MarkdownParser) (line : Str)
    (h : '\n' ∉ line) : htmlOf (Parse rt mp line) = .ok (lineOutput false line).1 := by
  rw [Parse_html, Split_single line h, linesOutput_single]

theorem HasPrefix_false_iff (s pre : Str) : HasPrefix s pre = false ↔ ¬ pre <+: s := by
  rw [← HasPrefix_iff]; simp

/-- Lines, each followed by a newline, and a last line split back into the lines. -/
theorem Split_lines (c : Str) (hc : '\n' ∉ c) :
    ∀ ls : List Str, (∀ l ∈ ls, '\n' ∉ l) →
      Split ((ls.map (· ++ "\n".toList)).flatten ++ c) sNewline = ls ++ [c]
  | [], _ => by simpa using Split_single c hc
  | l :: ls, h => by
    have hl : '\n' ∉ l := h l (by simp)
    have ih := Split_lines c hc ls (fun x hx => h x (by simp [hx]))
    have e : ((l :: ls).map (· ++ "\n".toList)).flatten ++ c
        = l ++ sNewline ++ ((ls.map (· ++ "\n".toList)).flatten ++ c) := by
      simp [sNewline]
    rw [e, Split_append, Split_single l hl, ih]
    rfl

/-- Inside a code block, lines that are no fence are appended as they are. -/
theorem linesOutput_code_lines (rest : List Str) :
    ∀ ls : List Str, (∀ l ∈ ls, ¬ EndsInBlank l ∧ ¬ "```".toList <+: l) →
      linesOutput (ls ++ rest) true
        = ((ls.map (· ++ "\n".toList)).flatten ++ (linesOutput rest true).1,
            (linesOutput rest true).2)
  | [], _ => by simp
  | l :: ls, h => by
    obtain ⟨h1, h2⟩ := h l (by simp)
    have ih := linesOutput_code_lines rest ls (fun x hx => h x (by simp [hx]))
    have hT : TrimRight l " \t".toList = l := TrimRight_eq_self h1
    have hc := lineOutput_code l (by rw [hT]; exact (HasPrefix_false_iff _ _).2 h2)
    rw [hT] at hc
    rw [List.cons_append, linesOutput, hc, ih]
    simp

theorem TrimSpace_ne_nil_of_head {c : Char} {t : Str} (h : isSpace c = false) (ht : ¬ EndsInBlank (c :: t)) :
    TrimSpace (TrimRight (c :: t) " \t".toList) ≠ [] := by
  rw [TrimRight_eq_self ht, TrimSpace, List.dropWhile_cons_of_neg (by simp [h])]
  intro e
  rw [List.rdropWhile_eq_nil_iff] at e
  have := e c (by simp)
  rw [h] at this
  exact absurd this (by decide)

theorem fieldsLoop_length (f : Char → Bool) :
    ∀ (s : Str) (cur : Option Str) (acc : List Str),
      (fieldsLoop f s cur acc).length
        = acc.length + (if cur.isSome then 1 else 0) + startsFrom f cur.isNone s
  | [], none, acc => by simp [fieldsLoop, startsFrom]
  | [], some w, acc => by simp [fieldsLoop, startsFrom]
  | c :: cs, none, acc => by
    by_cases h : f c = true
    · simp [fieldsLoop, startsFrom, h, fieldsLoop_length f cs]
    · simp [fieldsLoop, startsFrom, h, fieldsLoop_length f cs]; omega
  | c :: cs, some w, acc => by
    by_cases h : f c = true
    · simp [fieldsLoop, startsFrom, h, fieldsLoop_length f cs]
    · simp [fieldsLoop, startsFrom, h, fieldsLoop_length f cs]

theorem isWordStartFrom_succ (prev : Bool) (c : Char) (cs : Str) (i : Nat) :
    isWordStartFrom prev (c :: cs) (i + 1) = isWordStartFrom (isSpace c) cs i := by
  cases i with
  | zero => simp [isWordStartFrom]
  | succ i => simp [isWordStartFrom]

theorem countP_isWordStartFrom :
    ∀ (s : Str) (prev : Bool),
      (List.range s.length).countP (isWordStartFrom prev s) = startsFrom isSpace prev s
  | [], _ => by simp [startsFrom]
  | c :: cs, prev => by
    have ih := countP_isWordStartFrom cs (isSpace c)
    rw [List.length_cons, List.range_succ_eq_map, List.countP_cons, List.countP_map]
    have hf : (isWordStartFrom prev (c :: cs) ∘ Nat.succ) = isWordStartFrom (isSpace c) cs := by
      funext i
      exact isWordStartFrom_succ prev c cs i
    rw [hf, ih, startsFrom, Nat.add_comm]
    congr 1
    simp [isWordStartFrom]

theorem isWordStart_eq : isWordStart = isWordStartFrom true := by
  funext s i
  simp only [isWordStart, isWordStartFrom]
  cases s[i]? with
  | none => rfl
  | some c =>
    by_cases h : i = 0
    · simp [h]
    · have hb : (i == 0) = false := by simpa using h
      simp [h, hb]

/-- Trimming the end of a line does not reach into a beginning that ends in a
character that is kept. -/
theorem rdropWhile_append_keep (p : Char → Bool) (a : Str) (ha : ∀ h : a ≠ [], p (a.getLast h) = false) :
    ∀ r : Str, (a ++ r).rdropWhile p = a ++ r.rdropWhile p := by
  intro r
  induction r using List.reverseRecOn with
  | nil =>
    simp only [List.append_nil, List.rdropWhile_nil]
    rw [List.rdropWhile_eq_self_iff]
    intro hl
    simp [ha hl]
  | append_singleton r x ih =>
    rw [← List.append_assoc, List.rdropWhile_concat, List.rdropWhile_concat]
    by_cases hx : p x = true
    · simp [hx, ih]
    · simp [hx]

/-- Whether a line begins with the fence marker is not changed by trimming its end. -/
theorem HasPrefix_TrimRight_fence (line : Str) :
    HasPrefix (TrimRight line " \t".toList) sFence = HasPrefix line sFence := by
  cases h : HasPrefix line sFence with
  | true =>
    obtain ⟨r, hr⟩ := (HasPrefix_iff _ _).1 h
    have hk : ∀ h : sFence ≠ [], (" \t".toList.contains (sFence.getLast h)) = false :=
      fun _ => rfl
    rw [← hr, TrimRight, rdropWhile_append_keep _ sFence hk]
    exact HasPrefix_append _ _
  | false =>
    rw [HasPrefix_false_iff] at h ⊢
    intro hp
    exact h (hp.trans (List.rdropWhile_prefix _ _))

/-- The loop body flips the flag on a line that begins with the fence marker and on
no other line. -/
theorem lineOutput_flag (f : Bool) (line : Str) :
    (lineOutput f line).2 = if HasPrefix line sFence = true then !f else f := by
  rw [← HasPrefix_TrimRight_fence]
  by_cases h0 : HasPrefix (TrimRight line " \t".toList) sFence = true
  · rw [if_pos h0]
    cases f
    · rw [lineOutput_fence_open line h0]; rfl
    · rw [lineOutput_fence_close line h0]; rfl
  · have h0f : HasPrefix (TrimRight line " \t".toList) sFence = false := by simpa using h0
    rw [if_neg h0]
    cases f
    · by_cases h1 : HasPrefix (TrimRight line " \t".toList) "# ".toList = true
      · rw [lineOutput_h1 line h0f h1]
      have h1f : HasPrefix (TrimRight line " \t".toList) "# ".toList = false := by simpa using h1
      by_cases h2 : HasPrefix (TrimRight line " \t".toList) "## ".toList = true
      · rw [lineOutput_h2 line h0f h1f h2]
      have h2f : HasPrefix (TrimRight line " \t".toList) "## ".toList = false := by simpa using h2
      by_cases h3 : HasPrefix (TrimRight line " \t".toList) "### ".toList = true
      · rw [lineOutput_h3 line h0f h1f h2f h3]
      have h3f : HasPrefix (TrimRight line " \t".toList) "### ".toList = false := by
        simpa using h3
      by_cases h4 : HasPrefix (TrimRight line " \t".toList) "#### ".toList = true
      · rw [lineOutput_h4 line h0f h1f h2f h3f h4]
      have h4f : HasPrefix (TrimRight line " \t".toList) "#### ".toList = false := by
        simpa using h4
      by_cases h5 : HasPrefix (TrimRight line " \t".toList) "##### ".toList = true
      · rw [lineOutput_h5 line h0f h1f h2f h3f h4f h5]
      have h5f : HasPrefix (TrimRight line " \t".toList) "##### ".toList = false := by
        simpa using h5
      by_cases h6 : HasPrefix (TrimRight line " \t".toList) "###### ".toList = true
      · rw [lineOutput_h6 line h0f h1f h2f h3f h4f h5f h6]
      have h6f : HasPrefix (TrimRight line " \t".toList) "###### ".toList = false := by
        simpa using h6
      have hn : NoHeading (TrimRight line " \t".toList) := ⟨h0f, h1f, h2f, h3f, h4f, h5f, h6f⟩
      by_cases hi : (HasPrefix (TrimRight line " \t".toList) "- ".toList
          || HasPrefix (TrimRight line " \t".toList) "* ".toList) = true
      · obtain ⟨r, hr⟩ := processInlineFormatting_total ((TrimRight line " \t".toList).drop 2)
        rw [lineOutput_item line r hn hi hr]
      have hif : (HasPrefix (TrimRight line " \t".toList) "- ".toList
          || HasPrefix (TrimRight line " \t".toList) "* ".toList) = false := by simpa using hi
      by_cases hq : HasPrefix (TrimRight line " \t".toList) "> ".toList = true
      · rw [lineOutput_quote line hn hif hq]
      have hqf : HasPrefix (TrimRight line " \t".toList) "> ".toList = false := by simpa using hq
      by_cases hb : TrimSpace (TrimRight line " \t".toList) = []
      · rw [lineOutput_blank line hn hif hqf hb]
      · obtain ⟨r, hr⟩ := processInlineFormatting_total (TrimRight line " \t".toList)
        rw [lineOutput_paragraph line r hn hif hqf hb hr]
    · rw [lineOutput_code line h0f]

/-- After a list of lines the flag is flipped once for each line that begins with the
fence marker. -/
theorem linesOutput_flag :
    ∀ (lines : List Str) (f : Bool), (linesOutput lines f).2
      = xor f (decide (Odd (lines.countP (fun l => decide (sFence <+: l)))))
  | [], f => by simp [linesOutput]
  | l :: ls, f => by
    rw [linesOutput, linesOutput_flag ls, lineOutput_flag, List.countP_cons]
    by_cases h : sFence <+: l
    · have hp : HasPrefix l sFence = true := (HasPrefix_iff _ _).2 h
      simp only [hp, if_true, h, decide_True, Nat.odd_add_one, decide_not]
      cases f <;> cases decide (Odd (List.countP (fun l => decide (sFence <+: l)) ls)) <;> rfl
    · have hp : ¬ HasPrefix l sFence = true := fun e => h ((HasPrefix_iff _ _).1 e)
      simp only [hp, if_false, h, decide_False, Bool.false_eq_true, Nat.add_zero]

/-- `Parse` returns, with the HTML that the line loop appends for the lines of the text. -/
theorem Parse_ok (rt : Runtime) (mp : MarkdownParser) (markdown : Str) :
    ∃ mp1, Parse rt mp markdown = .ok ((linesOutput (Split markdown sNewline) false).1, mp1) := by
  obtain ⟨c, mp1, hg⟩ := getBuilder_ok rt mp markdown (utf8Len markdown : Int)
  obtain ⟨c2, hp⟩ := parseLines_eq rt (Split markdown sNewline) ⟨[], c⟩ false
  exact ⟨returnBuilder mp1 ⟨(linesOutput (Split markdown sNewline) false).1, c2⟩,
    by simp only [Parse, hg, hp, Builder.String, List.nil_append]⟩

/-- The slice of the input array is the whole array when it has at most `2^28` entries,
and is out of range otherwise. -/
theorem arrayView_length (entries : List (Option Str)) :
    arrayView entries entries.length
      = if entries.length ≤ 2 ^ 28 then .ok entries else .error .sliceBounds := by
  simp only [arrayView, List.take_length]

/-- The batch loop returns one entry for each input; the entry at an offset depends
only on the input at that offset and on its index. -/
theorem batchLoop_spec (rt : Runtime) :
    ∀ (inputs : List (Option Str)) (i : Nat) (parser : MarkdownParser),
      ∃ rs, batchLoop rt inputs i parser = .ok rs ∧ rs.length = inputs.length
        ∧ ∀ k, (inputs[k]? = some none →
              rs[k]? = some (BatchEntry.failure
                ("null input at index ".toList ++ Nat.toDigits 10 (i + k)) (i + k)))
          ∧ (∀ md, inputs[k]? = some (some md) →
              rs[k]? = some (BatchEntry.success (linesOutput (Split md sNewline) false).1
                (countWords md) (i + k)))
  | [], i, parser => ⟨[], by simp [batchLoop]⟩
  | none :: rest, i, parser => by
    obtain ⟨rs, h1, h2, h3⟩ := batchLoop_spec rt rest (i + 1) parser
    refine ⟨BatchEntry.failure ("null input at index ".toList ++ Nat.toDigits 10 i) i :: rs,
      by simp only [batchLoop, h1], by simp [h2], ?_⟩
    intro k
    cases k with
    | zero => simp
    | succ k =>
      have := h3 k
      simp only [List.getElem?_cons_succ]
      rw [show i + (k + 1) = i + 1 + k by omega]
      exact this
  | some markdown :: rest, i, parser => by
    obtain ⟨mp1, hp⟩ := Parse_ok rt parser markdown
    obtain ⟨rs, h1, h2, h3⟩ := batchLoop_spec rt rest (i + 1) mp1
    refine ⟨BatchEntry.success (linesOutput (Split markdown sNewline) false).1
      (countWords markdown) i :: rs, by simp only [batchLoop, hp, h1], by simp [h2], ?_⟩
    intro k
    cases k with
    | zero => simp
    | succ k =>
      have := h3 k
      simp only [List.getElem?_cons_succ]
      rw [show i + (k + 1) = i + 1 + k by omega]
      exact this

/-! ## Facts used by the claims on the pool, on trimming and on a second pass -/

/-- What `Grow` does to a builder that was just made or reset. -/
theorem Grow_empty (rt : Runtime) (n : Int) :
    Builder.Grow rt ⟨[], 0⟩ n
      = if n < 0 then .error .growNegative
        else if 0 < n then
          (if rt.maxAlloc < n.toNat then .error .allocLimit
            else .ok ⟨[], rt.allocCap n.toNat⟩)
        else .ok ⟨[], 0⟩ := by
  simp [Builder.Grow, Builder.grow, Builder.Len, utf8Len]

theorem handedOut_buf (rt : Runtime) (hint : Int) : (handedOut rt hint).buf = [] := by
  unfold handedOut; split <;> rfl

theorem handedOut_cap (rt : Runtime) (hint : Int) (hrt : ∀ n, n ≤ rt.allocCap n) :
    hint ≤ ((handedOut rt hint).Cap : Int) := by
  unfold handedOut
  split
  · have := hrt hint.toNat
    simp only [Builder.Cap]
    omega
  · simp only [Builder.Cap]
    omega

/-- On the empty pool `getBuilder` makes a new builder. -/
theorem getBuilder_empty (rt : Runtime) (st : ByRef.State) (hint : Int)
    (he : st.builderPool.items = []) :
    ByRef.getBuilder rt st hint
      = if hint < 0 then .error .growNegative
        else if (rt.maxAlloc : Int) < hint then .error .allocLimit
        else .ok (st.heap.length, ⟨st.heap ++ [handedOut rt hint], st.builderPool⟩) := by
  unfold ByRef.getBuilder
  rw [he]
  simp only [Grow_empty, handedOut]
  by_cases h0 : hint < 0
  · simp only [h0, if_true]
  · simp only [h0, if_false]
    by_cases h1 : 0 < hint
    · simp only [h1, if_true]
      by_cases h2 : (rt.maxAlloc : Int) < hint
      · have : rt.maxAlloc < hint.toNat := by omega
        simp only [h2, this, if_true]
      · have : ¬ rt.maxAlloc < hint.toNat := by omega
        simp only [h2, this, if_false]
    · have h2 : ¬ (rt.maxAlloc : Int) < hint := by omega
      simp only [h1, h2, if_false]

/-- On a pool that holds a pointer `getBuilder` resets and grows the builder behind the
oldest one. -/
theorem getBuilder_queued (rt : Runtime) (st : ByRef.State) (hint : Int) (p : ByRef.Ptr)
    (rest : List ByRef.Ptr) (b : Builder)
    (he : st.builderPool.items = p :: rest) (hb : st.heap[p]? = some b) :
    ByRef.getBuilder rt st hint
      = if (rt.maxAlloc : Int) < hint then .error .allocLimit
        else .ok (p, ⟨st.heap.set p (handedOut rt hint), ⟨st.builderPool.capacity, rest⟩⟩) := by
  unfold ByRef.getBuilder
  rw [he]
  simp only [hb, Builder.Reset, Builder.Cap, Grow_empty, handedOut, Nat.cast_zero, sub_zero]
  by_cases h1 : 0 < hint
  · have h0 : ¬ hint < 0 := by omega
    simp only [h1, h0, if_true, if_false]
    by_cases h2 : (rt.maxAlloc : Int) < hint
    · have : rt.maxAlloc < hint.toNat := by omega
      simp only [h2, this, if_true]
    · have : ¬ rt.maxAlloc < hint.toNat := by omega
      simp only [h2, this, if_false]
  · have h2 : ¬ (rt.maxAlloc : Int) < hint := by omega
    simp only [h1, h2, if_false]

theorem poolInv_new : ByRef.PoolInv ByRef.NewMarkdownParser := by
  refine ⟨rfl, by decide, by decide, ?_⟩
  intro p hp
  have hp : p < 10 := List.mem_range.1 hp
  refine ⟨⟨[], 0⟩, ?_, by decide⟩
  simp only [ByRef.NewMarkdownParser]
  rw [List.getElem?_replicate]
  simp [hp]

/-- A served `getBuilder` keeps the invariant, and the pool does not hold the pointer
that it hands out. -/
theorem poolInv_getBuilder {rt : Runtime} {st st1 : ByRef.State} {hint : Int} {p : ByRef.Ptr}
    (h : ByRef.PoolInv st) (hg : ByRef.getBuilder rt st hint = .ok (p, st1)) :
    ByRef.PoolInv st1 ∧ p ∉ st1.builderPool.items
      ∧ st1.heap[p]? = some (handedOut rt hint) := by
  obtain ⟨h1, h2, h3, h4⟩ := h
  cases hi : st.builderPool.items with
  | nil =>
    rw [getBuilder_empty rt st hint hi] at hg
    split at hg
    · cases hg
    · split at hg
      · cases hg
      · injection hg with hg
        injection hg with hp hs
        subst hp hs
        refine ⟨⟨h1, h2, h3, ?_⟩, ?_, ?_⟩
        · intro q hq
          rw [hi] at hq
          cases hq
        · simp only [hi]
          exact List.not_mem_nil _
        · simp
  | cons q rest =>
    obtain ⟨b, hb, _⟩ := h4 q (by rw [hi]; exact List.mem_cons_self _ _)
    rw [getBuilder_queued rt st hint q rest b hi hb] at hg
    split at hg
    · cases hg
    · injection hg with hg
      injection hg with hp hs
      subst hp hs
      rw [hi] at h2 h3 h4
      have hq : q ∉ rest := (List.nodup_cons.1 h3).1
      have hlt : q < st.heap.length := by
        rcases List.getElem?_eq_some.1 hb with ⟨hl, _⟩
        exact hl
      refine ⟨⟨h1, ?_, (List.nodup_cons.1 h3).2, ?_⟩, hq, ?_⟩
      · simp only [List.length_cons] at h2
        simp only
        omega
      · intro r hr
        have hne : q ≠ r := fun e => hq (e ▸ hr)
        simp only [List.getElem?_set_ne hne]
        exact h4 r (List.mem_cons_of_mem _ hr)
      · simp only [List.getElem?_set_self hlt]

/-- An allowed operation runs and keeps the invariant. -/
theorem poolInv_applyOp {rt : Runtime} {st : ByRef.State} (op : ByRef.PoolOp)
    (h : ByRef.PoolInv st) (ha : op.allowed rt st = true) :
    ∃ st1, ByRef.applyOp rt st op = .ok st1 ∧ ByRef.PoolInv st1 := by
  cases op with
  | get hint =>
    have ha : (st.builderPool.items = [] → 0 ≤ hint) ∧ hint ≤ (rt.maxAlloc : Int) :=
      of_decide_eq_true ha
    have hm : ¬ (rt.maxAlloc : Int) < hint := by omega
    cases hi : st.builderPool.items with
    | nil =>
      have h0 : ¬ hint < 0 := by have := ha.1 hi; omega
      have hg := getBuilder_empty rt st hint hi
      simp only [h0, hm, if_false] at hg
      exact ⟨_, by simp only [ByRef.applyOp, hg], (poolInv_getBuilder h hg).1⟩
    | cons q rest =>
      obtain ⟨b, hb, _⟩ := h.2.2.2 q (by rw [hi]; exact List.mem_cons_self _ _)
      have hg := getBuilder_queued rt st hint q rest b hi hb
      simp only [hm, if_false] at hg
      exact ⟨_, by simp only [ByRef.applyOp, hg], (poolInv_getBuilder h hg).1⟩
  | ret p =>
    have ha : p < st.heap.length ∧ p ∉ st.builderPool.items := of_decide_eq_true ha
    obtain ⟨h1, h2, h3, h4⟩ := h
    have hb : st.heap[p]? = some (st.heap.get ⟨p, ha.1⟩) := List.getElem?_eq_getElem ha.1
    simp only [ByRef.applyOp, ByRef.returnBuilder, hb]
    split
    · rename_i hc
      split
      · rename_i hl
        refine ⟨_, rfl, h1, ?_, ?_, ?_⟩
        · simp only [List.length_append, List.length_singleton]
          rw [h1] at hl
          omega
        · exact List.Nodup.append h3 (List.nodup_singleton p)
            (List.disjoint_singleton.2 ha.2)
        · intro q hq
          rcases List.mem_append.1 hq with hq | hq
          · exact h4 q hq
          · rw [List.mem_singleton.1 hq]
            exact ⟨_, hb, hc⟩
      · exact ⟨_, rfl, h1, h2, h3, h4⟩
    · exact ⟨_, rfl, h1, h2, h3, h4⟩
  | make b =>
    obtain ⟨h1, h2, h3, h4⟩ := h
    refine ⟨_, rfl, h1, h2, h3, ?_⟩
    intro q hq
    obtain ⟨c, hc, hcap⟩ := h4 q hq
    refine ⟨c, ?_, hcap⟩
    have hlt : q < st.heap.length := (List.getElem?_eq_some.1 hc).1
    simp only [List.getElem?_append_left hlt]
    exact hc
  | use p b =>
    have ha : p < st.heap.length ∧ p ∉ st.builderPool.items := of_decide_eq_true ha
    obtain ⟨h1, h2, h3, h4⟩ := h
    refine ⟨⟨st.heap.set p b, st.builderPool⟩, by simp only [ByRef.applyOp, ha.1, if_true],
      h1, h2, h3, ?_⟩
    intro q hq
    have hne : p ≠ q := fun e => ha.2 (e ▸ hq)
    simp only [List.getElem?_set_ne hne]
    exact h4 q hq

/-- A disciplined sequence runs to its end and keeps the invariant. -/
theorem poolInv_applyOps (rt : Runtime) :
    ∀ (ops : List ByRef.PoolOp) (st : ByRef.State), ByRef.PoolInv st →
      ByRef.Disciplined rt ops st = true →
      ∃ st1, ByRef.applyOps rt ops st = .ok st1 ∧ ByRef.PoolInv st1
  | [], st, h, _ => ⟨st, rfl, h⟩
  | op :: ops, st, h, hd => by
    simp only [ByRef.Disciplined, Bool.and_eq_true] at hd
    obtain ⟨st1, h1, hinv⟩ := poolInv_applyOp op h hd.1
    have hd2 := hd.2
    rw [h1] at hd2
    obtain ⟨st2, h2, hinv2⟩ := poolInv_applyOps rt ops st1 hinv hd2
    exact ⟨st2, by simp only [ByRef.applyOps, h1, h2], hinv2⟩

/-- No operation fills the channel beyond its capacity. -/
theorem poolBound_applyOp {rt : Runtime} {st st1 : ByRef.State} (op : ByRef.PoolOp)
    (h : st.builderPool.capacity = 10 ∧ st.builderPool.items.length ≤ 10)
    (e : ByRef.applyOp rt st op = .ok st1) :
    st1.builderPool.capacity = 10 ∧ st1.builderPool.items.length ≤ 10 := by
  obtain ⟨h1, h2⟩ := h
  cases op with
  | get hint =>
    simp only [ByRef.applyOp] at e
    cases hg : ByRef.getBuilder rt st hint with
    | error x => rw [hg] at e; cases e
    | ok r =>
      obtain ⟨p, st2⟩ := r
      rw [hg] at e
      injection e with e
      subst e
      unfold ByRef.getBuilder at hg
      cases hi : st.builderPool.items with
      | nil =>
        rw [hi] at hg
        simp only at hg
        split at hg
        · cases hg
        · injection hg with hg
          injection hg with _ hg
          rw [← hg]
          exact ⟨h1, h2⟩
      | cons q rest =>
        rw [hi] at hg h2
        simp only [List.length_cons] at h2
        have hr : rest.length ≤ 10 := by omega
        simp only at hg
        split at hg
        · cases hg
        · split at hg
          · split at hg
            · cases hg
            · injection hg with hg
              injection hg with _ hg
              rw [← hg]
              exact ⟨h1, hr⟩
          · injection hg with hg
            injection hg with _ hg
            rw [← hg]
            exact ⟨h1, hr⟩
  | ret p =>
    simp only [ByRef.applyOp, ByRef.returnBuilder] at e
    split at e
    · cases e
    · split at e
      · split at e
        · rename_i hl
          injection e with e
          subst e
          refine ⟨h1, ?_⟩
          simp only [List.length_append, List.length_singleton]
          rw [h1] at hl
          omega
        · injection e with e
          subst e
          exact ⟨h1, h2⟩
      · injection e with e
        subst e
        exact ⟨h1, h2⟩
  | make b =>
    simp only [ByRef.applyOp] at e
    injection e with e
    subst e
    exact ⟨h1, h2⟩
  | use p b =>
    simp only [ByRef.applyOp] at e
    split at e
    · injection e with e
      subst e
      exact ⟨h1, h2⟩
    · cases e

/-- The channel holds at most 10 pointers after any sequence that runs to its end. -/
theorem poolBound_applyOps (rt : Runtime) :
    ∀ (ops : List ByRef.PoolOp) (st st1 : ByRef.State),
      st.builderPool.capacity = 10 ∧ st.builderPool.items.length ≤ 10 →
      ByRef.applyOps rt ops st = .ok st1 →
      st1.builderPool.capacity = 10 ∧ st1.builderPool.items.length ≤ 10
  | [], st, st1, h, e => by
    simp only [ByRef.applyOps] at e
    injection e with e
    rw [← e]
    exact h
  | op :: ops, st, st1, h, e => by
    simp only [ByRef.applyOps] at e
    cases ho : ByRef.applyOp rt st op with
    | error x => rw [ho] at e; cases e
    | ok st2 =>
      rw [ho] at e
      exact poolBound_applyOps rt ops st2 st1 (poolBound_applyOp op h ho) e

/-- By value, on the empty pool `getBuilder` makes a new builder. -/
theorem getBuilder_value_empty (rt : Runtime) (mp : MarkdownParser) (hint : Int)
    (he : mp.builderPool.items = []) :
    getBuilder rt mp hint
      = if hint < 0 then .error .growNegative
        else if (rt.maxAlloc : Int) < hint then .error .allocLimit
        else .ok (handedOut rt hint, mp) := by
  unfold getBuilder
  rw [he]
  simp only [Grow_empty, handedOut]
  by_cases h0 : hint < 0
  · simp only [h0, if_true]
  · simp only [h0, if_false]
    by_cases h1 : 0 < hint
    · simp only [h1, if_true]
      by_cases h2 : (rt.maxAlloc : Int) < hint
      · have : rt.maxAlloc < hint.toNat := by omega
        simp only [h2, this, if_true]
      · have : ¬ rt.maxAlloc < hint.toNat := by omega
        simp only [h2, this, if_false]
    · have h2 : ¬ (rt.maxAlloc : Int) < hint := by omega
      simp only [h1, h2, if_false]

/-- By value, on a pool that holds a builder `getBuilder` resets and grows the oldest
one. -/
theorem getBuilder_value_queued (rt : Runtime) (mp : MarkdownParser) (hint : Int) (b : Builder)
    (rest : List Builder) (he : mp.builderPool.items = b :: rest) :
    getBuilder rt mp hint
      = if (rt.maxAlloc : Int) < hint then .error .allocLimit
        else .ok (handedOut rt hint, ⟨⟨mp.builderPool.capacity, rest⟩⟩) := by
  unfold getBuilder
  rw [he]
  simp only [Builder.Reset, Builder.Cap, Grow_empty, handedOut, Nat.cast_zero, sub_zero]
  by_cases h1 : 0 < hint
  · have h0 : ¬ hint < 0 := by omega
    simp only [h1, h0, if_true, if_false]
    by_cases h2 : (rt.maxAlloc : Int) < hint
    · have : rt.maxAlloc < hint.toNat := by omega
      simp only [h2, this, if_true]
    · have : ¬ rt.maxAlloc < hint.toNat := by omega
      simp only [h2, this, if_false]
  · have h2 : ¬ (rt.maxAlloc : Int) < hint := by omega
    simp only [h1, h2, if_false]

theorem view_length (heap : List Builder) :
    ∀ l : List ByRef.Ptr, (∀ p ∈ l, ∃ b, heap[p]? = some b ∧ b.Cap < 65536) →
      (l.filterMap (fun p => heap[p]?)).length = l.length
  | [], _ => rfl
  | q :: l, h => by
    obtain ⟨b, hb, _⟩ := h q (List.mem_cons_self _ _)
    rw [List.filterMap_cons_some hb, List.length_cons, List.length_cons,
      view_length heap l (fun p hp => h p (List.mem_cons_of_mem _ hp))]

/-- In a state with the invariant, `getBuilder` by pointer and `getBuilder` by value
hand out the same builder and leave the same pool. -/
theorem view_getBuilder (rt : Runtime) (st : ByRef.State) (hint : Int)
    (h : ByRef.PoolInv st) :
    (∀ e, ByRef.getBuilder rt st hint = .error e → getBuilder rt st.view hint = .error e)
      ∧ ∀ p st1, ByRef.getBuilder rt st hint = .ok (p, st1) →
          ∃ b, st1.heap[p]? = some b ∧ getBuilder rt st.view hint = .ok (b, st1.view) := by
  cases hi : st.builderPool.items with
  | nil =>
    have hv : st.view.builderPool.items = [] := by
      simp only [ByRef.State.view, hi, List.filterMap_nil]
    rw [getBuilder_empty rt st hint hi, getBuilder_value_empty rt st.view hint hv]
    by_cases h0 : hint < 0
    · simp only [h0, if_true]
      exact ⟨fun e he => by injection he with he; rw [he], fun p st1 he => by cases he⟩
    · by_cases h1 : (rt.maxAlloc : Int) < hint
      · simp only [h0, h1, if_true, if_false]
        exact ⟨fun e he => by injection he with he; rw [he], fun p st1 he => by cases he⟩
      · simp only [h0, h1, if_false]
        refine ⟨fun e he => (by cases he), ?_⟩
        intro p st1 he
        injection he with he
        injection he with hp hs
        subst hp hs
        refine ⟨handedOut rt hint, by simp, ?_⟩
        simp only [ByRef.State.view, hi, List.filterMap_nil]
  | cons q rest =>
    obtain ⟨b, hb, _⟩ := h.2.2.2 q (by rw [hi]; exact List.mem_cons_self _ _)
    have hq : q ∉ rest := by
      have := h.2.2.1
      rw [hi] at this
      exact (List.nodup_cons.1 this).1
    have hlt : q < st.heap.length := (List.getElem?_eq_some.1 hb).1
    have hv : st.view.builderPool.items = b :: rest.filterMap (fun p => st.heap[p]?) := by
      simp only [ByRef.State.view, hi, List.filterMap_cons_some hb]
    rw [getBuilder_queued rt st hint q rest b hi hb,
      getBuilder_value_queued rt st.view hint b _ hv]
    by_cases h1 : (rt.maxAlloc : Int) < hint
    · simp only [h1, if_true]
      exact ⟨fun e he => by injection he with he; rw [he], fun p st1 he => by cases he⟩
    · simp only [h1, if_false]
      refine ⟨fun e he => (by cases he), ?_⟩
      intro p st1 he
      injection he with he
      injection he with hp hs
      subst hp hs
      refine ⟨handedOut rt hint, by simp only [List.getElem?_set_self hlt], ?_⟩
      have : rest.filterMap (fun p => (st.heap.set q (handedOut rt hint))[p]?)
          = rest.filterMap (fun p => st.heap[p]?) := by
        apply List.filterMap_congr
        intro r hr
        have hne : q ≠ r := fun e => hq (e ▸ hr)
        simp only [List.getElem?_set_ne hne]
      simp only [ByRef.State.view, this]

/-- In a state with the invariant, `returnBuilder` by pointer and `returnBuilder` by
value leave the same pool. -/
theorem view_returnBuilder (st : ByRef.State) (p : ByRef.Ptr) (b : Builder)
    (h : ByRef.PoolInv st) (hb : st.heap[p]? = some b) :
    ∃ st1, ByRef.returnBuilder st p = .ok st1 ∧ st1.view = returnBuilder st.view b := by
  have hl := view_length st.heap st.builderPool.items h.2.2.2
  simp only [ByRef.returnBuilder, hb, returnBuilder, ByRef.State.view, hl]
  split
  · split
    · refine ⟨_, rfl, ?_⟩
      simp only [List.filterMap_append, List.filterMap_cons_some hb, List.filterMap_nil]
    · exact ⟨_, rfl, rfl⟩
  · exact ⟨_, rfl, rfl⟩

/-- Past a lone `*`, `**` is found where it is found in the rest. -/
theorem Index_bold_single (a b : Str) (ha : '*' ∉ a) (hb : b.head? ≠ some '*') :
    Index (a ++ '*' :: b) sBold = (Index b sBold).map (· + (a.length + 1)) := by
  have hs : sBold = '*' :: ['*'] := by decide
  rw [hs, Index_skip _ _ a _ ha, Index_cons]
  have hp : HasPrefix ('*' :: b) ['*', '*'] = false := by
    cases b with
    | nil => decide
    | cons d b =>
      have : d ≠ '*' := fun e => hb (by simp [e])
      simp [HasPrefix, List.isPrefixOf, this.symm]
  rw [hp]
  cases Index b ['*', '*'] <;> simp [Nat.add_comm, Nat.add_left_comm]

/-- Evaluation of a turn of a span loop from the places of its first two markers. -/
theorem spanStep_at (marker opn cls a b r : Str)
    (h1 : Index (a ++ marker ++ b ++ marker ++ r) marker = some a.length)
    (h2 : Index (b ++ marker ++ r) marker = some b.length) :
    spanStep marker opn cls (a ++ marker ++ b ++ marker ++ r)
      = .ok (some (a ++ (opn ++ b ++ cls) ++ r)) := by
  have d1 : (a ++ marker ++ b ++ marker ++ r).drop (a.length + marker.length)
      = b ++ marker ++ r := by
    have : a ++ marker ++ b ++ marker ++ r = (a ++ marker) ++ (b ++ marker ++ r) := by
      simp only [List.append_assoc]
    rw [this, ← List.length_append, List.drop_left]
  have h2' : Index ((a ++ marker ++ b ++ marker ++ r).drop (a.length + marker.length)) marker
      = some b.length := by rw [d1]; exact h2
  rw [spanStep_closed _ _ _ _ _ _ h1 h2', d1]
  have t1 : (a ++ marker ++ b ++ marker ++ r).take a.length = a := by
    simp [List.append_assoc]
  have t2 : (b ++ marker ++ r).take b.length = b := by simp [List.append_assoc]
  have t3 : (b ++ marker ++ r).drop (b.length + marker.length) = r := by
    rw [← List.length_append, List.drop_left]
  rw [t1, t2, t3]

/-- Trailing spaces and tabs are trimmed with the rest of the end of the line. -/
theorem TrimRight_append_blanks (l : Str) :
    ∀ w : Str, (∀ c ∈ w, c = ' ' ∨ c = '\t') →
      TrimRight (l ++ w) " \t".toList = TrimRight l " \t".toList := by
  intro w
  induction w using List.reverseRecOn with
  | nil => intro _; simp
  | append_singleton w x ih =>
    intro h
    have hx : (" \t".toList.contains x) = true := by
      rcases h x (by simp) with e | e <;> rw [e] <;> decide
    have hw : ∀ c ∈ w, c = ' ' ∨ c = '\t' := fun c hc => h c (by simp [hc])
    rw [← List.append_assoc, TrimRight, List.rdropWhile_concat, if_pos hx]
    exact ih hw

theorem TrimRight_idem (l : Str) :
    TrimRight (TrimRight l " \t".toList) " \t".toList = TrimRight l " \t".toList := by
  simp only [TrimRight, List.rdropWhile_idempotent]

/-- The loop body reads a line only through its trimmed form. -/
theorem lineOutput_congr (f : Bool) (l1 l2 : Str)
    (h : TrimRight l1 " \t".toList = TrimRight l2 " \t".toList) :
    lineOutput f l1 = lineOutput f l2 := by
  simp only [lineOutput, processLine, h]

theorem linesOutput_trailing_blanks :
    ∀ (lws : List (Str × Str)) (f : Bool), (∀ p ∈ lws, ∀ c ∈ p.2, c = ' ' ∨ c = '\t') →
      linesOutput (lws.map (fun p => p.1 ++ p.2)) f
        = linesOutput (lws.map (fun p => TrimRight p.1 " \t".toList)) f
  | [], _, _ => rfl
  | p :: lws, f, h => by
    have hp : lineOutput f (p.1 ++ p.2) = lineOutput f (TrimRight p.1 " \t".toList) :=
      lineOutput_congr f _ _ (by
        rw [TrimRight_append_blanks p.1 p.2 (h p (by simp)), TrimRight_idem])
    simp only [List.map_cons, linesOutput, hp]
    rw [linesOutput_trailing_blanks lws _ (fun q hq => h q (by simp [hq]))]

theorem boldCount_pair (rest : Str) : boldCount ('*' :: '*' :: rest) = 1 + boldCount rest := by
  simp [boldCount]

theorem boldCount_cons_of_ne {c : Char} (h : c ≠ '*') (t : Str) :
    boldCount (c :: t) = boldCount t := by
  cases t with
  | nil => simp [boldCount]
  | cons d rest => simp [boldCount, h]

theorem boldCount_cons_of_not_pair {c : Char} {t : Str} (h : HasPrefix (c :: t) sBold = false) :
    boldCount (c :: t) = boldCount t := by
  cases t with
  | nil => simp [boldCount]
  | cons d rest =>
    have : ¬ (c = '*' ∧ d = '*') := by
      rintro ⟨rfl, rfl⟩
      simp [HasPrefix, sBold, List.isPrefixOf] at h
    simp [boldCount, this]

theorem boldCount_of_Index_none :
    ∀ t : Str, Index t sBold = none → boldCount t = 0
  | [], _ => rfl
  | c :: t, h => by
    rw [Index_cons] at h
    split at h
    · cases h
    · rename_i hp
      have hp' : HasPrefix (c :: t) sBold = false := by simpa using hp
      have ht : Index t sBold = none := by
        cases ht : Index t sBold with
        | none => rfl
        | some j => simp [ht] at h
      rw [boldCount_cons_of_not_pair hp', boldCount_of_Index_none t ht]

theorem boldCount_of_Index_some :
    ∀ (t : Str) (s : Nat), Index t sBold = some s → boldCount t = 1 + boldCount (t.drop (s + 2))
  | [], s, h => by
    simp [Index_nil, HasPrefix, sBold, List.isPrefixOf] at h
  | c :: t, s, h => by
    rw [Index_cons] at h
    split at h
    · rename_i hp
      injection h with h
      subst h
      obtain ⟨r, hr⟩ := (HasPrefix_iff _ _).1 hp
      have : c :: t = '*' :: '*' :: r := by rw [← hr]; rfl
      rw [this, boldCount_pair]
      rfl
    · rename_i hp
      have hp' : HasPrefix (c :: t) sBold = false := by simpa using hp
      cases ht : Index t sBold with
      | none => simp [ht] at h
      | some j =>
        simp only [ht, Option.map_some', Option.some.injEq] at h
        subst h
        rw [boldCount_cons_of_not_pair hp', boldCount_of_Index_some t j ht]
        rfl

/-- The bold loop leaves exactly when the text has at most one `**` to pair. -/
theorem boldStep_none_iff (t : Str) : boldStep t = .ok none ↔ boldCount t ≤ 1 := by
  cases h : Index t sBold with
  | none =>
    have hc : Contains t sBold = false := by simp [Contains, h]
    rw [boldCount_of_Index_none t h]
    simp [boldStep_of_not_contains hc]
  | some s =>
    have hc : Contains t sBold = true := by simp [Contains, h]
    rw [boldCount_of_Index_some t s h]
    cases h2 : Index (t.drop (s + sBold.length)) sBold with
    | none =>
      have e : boldStep t = .ok none := by
        rw [boldStep, if_pos hc]; exact spanStep_unclosed _ _ _ _ _ h h2
      have : s + sBold.length = s + 2 := rfl
      rw [this] at h2
      rw [boldCount_of_Index_none _ h2]
      simp [e]
    | some e =>
      have e1 : ∃ t1, boldStep t = .ok (some t1) :=
        ⟨_, by rw [boldStep, if_pos hc]; exact spanStep_closed _ _ _ _ _ _ h h2⟩
      obtain ⟨t1, e1⟩ := e1
      have : s + sBold.length = s + 2 := rfl
      rw [this] at h2
      rw [boldCount_of_Index_some _ e h2, e1]
      simp

theorem boldCount_pos_iff (t : Str) : 1 ≤ boldCount t ↔ Contains t sBold = true := by
  cases h : Index t sBold with
  | none => simp [Contains, h, boldCount_of_Index_none t h]
  | some s => simp [Contains, h, boldCount_of_Index_some t s h]

theorem boldCount_starfree_append (b : Str) :
    ∀ w : Str, '*' ∉ w → boldCount (w ++ b) = boldCount b
  | [], _ => rfl
  | c :: w, h => by
    have hc : c ≠ '*' := fun e => h (by simp [e])
    rw [List.cons_append, boldCount_cons_of_ne hc,
      boldCount_starfree_append b w (fun e => h (by simp [e]))]

/-- A character that is no `*` cuts the scan for `**` in two. -/
theorem boldCount_append_sep {c : Char} (hc : c ≠ '*') (b : Str) :
    ∀ a : Str, boldCount (a ++ c :: b) = boldCount a + boldCount b
  | [] => by simp [boldCount_cons_of_ne hc, boldCount]
  | [x] => by
    have h1 : boldCount ([x] ++ c :: b) = boldCount (c :: b) := by
      simp [boldCount, hc]
    rw [h1, boldCount_cons_of_ne hc]
    simp [boldCount]
  | x :: y :: rest => by
    by_cases h : x = '*' ∧ y = '*'
    · obtain ⟨rfl, rfl⟩ := h
      rw [List.cons_append, List.cons_append, boldCount_pair, boldCount_pair,
        boldCount_append_sep hc b rest]
      omega
    · have h1 : boldCount (x :: y :: rest ++ c :: b) = boldCount (y :: rest ++ c :: b) := by
        simp [boldCount, h]
      have h2 : boldCount (x :: y :: rest) = boldCount (y :: rest) := by
        simp [boldCount, h]
      rw [h1, h2, boldCount_append_sep hc b (y :: rest)]

/-- A non-empty text without `*` cuts the scan for `**` in two. -/
theorem boldCount_sep (a b : Str) :
    ∀ w : Str, w ≠ [] → '*' ∉ w → boldCount (a ++ w ++ b) = boldCount a + boldCount b
  | [], h, _ => absurd rfl h
  | c :: w, _, h => by
    have hc : c ≠ '*' := fun e => h (by simp [e])
    rw [List.append_assoc, List.cons_append, boldCount_append_sep hc,
      boldCount_starfree_append b w (fun e => h (by simp [e]))]

theorem Index_single_none_iff (c : Char) : ∀ t : Str, Index t [c] = none ↔ c ∉ t
  | [] => by simp [Index_nil, HasPrefix, List.isPrefixOf]
  | d :: t => by
    rw [Index_cons]
    by_cases h : d = c
    · subst h
      simp [HasPrefix, List.isPrefixOf]
    · have hp : HasPrefix (d :: t) [c] = false := HasPrefix_cons_ne h t []
      have hcd : ¬ c = d := fun e => h e.symm
      simp [hp, Index_single_none_iff c t, hcd]

theorem count_of_Index_single (c : Char) :
    ∀ (t : Str) (s : Nat), Index t [c] = some s → t.count c = 1 + (t.drop (s + 1)).count c
  | [], s, h => by simp [Index_nil, HasPrefix, List.isPrefixOf] at h
  | d :: t, s, h => by
    rw [Index_cons] at h
    by_cases hd : d = c
    · subst hd
      have hp : HasPrefix (d :: t) [d] = true := by simp [HasPrefix, List.isPrefixOf]
      rw [if_pos hp] at h
      injection h with h
      subst h
      simp [Nat.add_comm]
    · have hp : HasPrefix (d :: t) [c] = false := HasPrefix_cons_ne hd t []
      simp only [hp, Bool.false_eq_true, if_false] at h
      cases ht : Index t [c] with
      | none => simp [ht] at h
      | some j =>
        simp only [ht, Option.map_some', Option.some.injEq] at h
        subst h
        rw [List.count_cons_of_ne (fun e => hd e.symm), count_of_Index_single c t j ht]
        rfl

/-- The italic loop leaves exactly when the text has a `**` or at most one `*`. -/
theorem italicStep_none_iff (t : Str) :
    italicStep t = .ok none ↔ (1 ≤ boldCount t ∨ t.count '*' ≤ 1) := by
  cases hb : Contains t sBold with
  | true =>
    have := (boldCount_pos_iff t).2 hb
    simp [italicStep_of_bold hb, this]
  | false =>
    have hb0 : ¬ 1 ≤ boldCount t := fun h => by
      rw [boldCount_pos_iff, hb] at h; cases h
    have hs : sStar = ['*'] := rfl
    cases h : Index t sStar with
    | none =>
      have hc : Contains t sStar = false := by simp [Contains, h]
      have hm : '*' ∉ t := (Index_single_none_iff '*' t).1 (by rw [← hs]; exact h)
      simp [italicStep_of_no_star hc, List.count_eq_zero_of_not_mem hm]
    | some s =>
      have hc : Contains t sStar = true := by simp [Contains, h]
      have hcnt := count_of_Index_single '*' t s (by rw [← hs]; exact h)
      have hi : italicStep t = spanStep sStar "<em>".toList "</em>".toList t := by
        simp [italicStep, hc, hb]
      cases h2 : Index (t.drop (s + sStar.length)) sStar with
      | none =>
        have e : italicStep t = .ok none := by
          rw [hi]; exact spanStep_unclosed _ _ _ _ _ h h2
        have hm : '*' ∉ t.drop (s + 1) :=
          (Index_single_none_iff '*' _).1 (by rw [← hs]; exact h2)
        rw [List.count_eq_zero_of_not_mem hm] at hcnt
        simp [e, hcnt]
      | some e =>
        obtain ⟨t1, e1⟩ : ∃ t1, italicStep t = .ok (some t1) :=
          ⟨_, by rw [hi]; exact spanStep_closed _ _ _ _ _ _ h h2⟩
        have hcnt2 := count_of_Index_single '*' _ e (by rw [← hs]; exact h2)
        have : s + sStar.length = s + 1 := rfl
        rw [this] at hcnt2
        rw [e1]
        constructor
        · intro h3
          injection h3 with h3
          cases h3
        · intro h3
          exfalso
          rcases h3 with h3 | h3
          · exact hb0 h3
          · omega

/-! ## The link pattern as a scan from the left -/

/-- Once done, the scan stays done. -/
theorem linkRun_done (t : Str) : linkRun .done t = .done := by
  induction t with
  | nil => rfl
  | cons c t ih => simpa [linkRun, linkNext] using ih

theorem linkRun_cons (q : LinkState) (c : Char) (t : Str) :
    linkRun q (c :: t) = linkRun (linkNext q c) t := rfl

theorem linkRun_append (q : LinkState) (a b : Str) :
    linkRun q (a ++ b) = linkRun (linkRun q a) b := by
  simp [linkRun, List.foldl_append]

theorem linkRun_url_iff : ∀ s : Str, linkRun .url s = .done ↔ ')' ∈ s
  | [] => by simp [linkRun]
  | c :: s => by
    rw [linkRun_cons]
    by_cases h : c = ')'
    · subst h; simp [linkNext, linkRun_done]
    · have hc : ¬ ')' = c := fun e => h e.symm
      simp [linkNext, h, hc, linkRun_url_iff s]

theorem linkRun_url_of_not_done {s : Str} (h : linkRun .url s ≠ .done) : linkRun .url s = .url := by
  induction s with
  | nil => rfl
  | cons c s ih =>
    rw [linkRun_cons] at h ⊢
    by_cases hc : c = ')'
    · subst hc; simp [linkNext, linkRun_done] at h
    · simp only [linkNext, hc, if_false] at h ⊢
      exact ih h

theorem linkNext_closing_eq {d : Char} (h : d ≠ '(') :
    linkNext .closing d = linkNext .opened d := by
  simp [linkNext, h]

theorem linkRun_opened_iff :
    ∀ (n : Nat) (rest : Str), rest.length ≤ n →
      (linkRun .opened rest = .done ↔
        ∃ i, Index rest sLinkMid = some i ∧ ')' ∈ rest.drop (i + 2))
  | 0, rest, h => by
    have : rest = [] := List.length_eq_zero.1 (by omega)
    subst this
    simp [linkRun, Index_nil, HasPrefix, sLinkMid, List.isPrefixOf]
  | n + 1, [], _ => by simp [linkRun, Index_nil, HasPrefix, sLinkMid, List.isPrefixOf]
  | n + 1, c :: rest, h => by
    have hlen : rest.length ≤ n := by simp at h; omega
    have ih := linkRun_opened_iff n rest hlen
    rw [linkRun_cons, Index_cons]
    by_cases hp : HasPrefix (c :: rest) sLinkMid = true
    · obtain ⟨r, hr⟩ := (HasPrefix_iff _ _).1 hp
      have e : c :: rest = ']' :: '(' :: r := by rw [← hr]; rfl
      injection e with e1 e2
      subst e1 e2
      simp [hp, linkNext, linkRun_cons, linkRun_url_iff]
    · have hpf : HasPrefix (c :: rest) sLinkMid = false := by simpa using hp
      have key : linkRun (linkNext .opened c) rest = .done ↔ linkRun .opened rest = .done := by
        by_cases hc : c = ']'
        · subst hc
          cases rest with
          | nil => simp [linkNext, linkRun]
          | cons d r =>
            have hd : d ≠ '(' := by
              rintro rfl
              simp [HasPrefix, sLinkMid, List.isPrefixOf] at hpf
            have : linkNext .opened ']' = .closing := by simp [linkNext]
            rw [this, linkRun_cons, linkRun_cons, linkNext_closing_eq hd]
        · simp [linkNext, hc]
      rw [key, ih]
      simp only [hpf, Bool.false_eq_true, if_false]
      constructor
      · rintro ⟨i, hi, hm⟩
        exact ⟨i + 1, by simp [hi], by simpa using hm⟩
      · rintro ⟨i, hi, hm⟩
        cases hr : Index rest sLinkMid with
        | none => simp [hr] at hi
        | some j =>
          simp only [hr, Option.map_some', Option.some.injEq] at hi
          subst hi
          exact ⟨j, rfl, by simpa using hm⟩

theorem linkRun_start_iff :
    ∀ t : Str, linkRun .start t = .done ↔
      ∃ ls, Index t sLinkOpen = some ls ∧ linkRun .opened (t.drop (ls + 1)) = .done
  | [] => by simp [linkRun, Index_nil, HasPrefix, sLinkOpen, List.isPrefixOf]
  | c :: t => by
    rw [linkRun_cons, Index_cons]
    by_cases hc : c = '['
    · subst hc
      have hp : HasPrefix ('[' :: t) sLinkOpen = true := by
        simp [HasPrefix, sLinkOpen, List.isPrefixOf]
      simp [hp, linkNext]
    · have hp : HasPrefix (c :: t) sLinkOpen = false := HasPrefix_cons_ne hc t []
      simp only [linkNext, hc, if_false, hp, Bool.false_eq_true]
      rw [linkRun_start_iff t]
      constructor
      · rintro ⟨ls, h1, h2⟩
        exact ⟨ls + 1, by simp [h1], by simpa using h2⟩
      · rintro ⟨ls, h1, h2⟩
        cases hr : Index t sLinkOpen with
        | none => simp [hr] at h1
        | some j =>
          simp only [hr, Option.map_some', Option.some.injEq] at h1
          subst h1
          exact ⟨j, rfl, by simpa using h2⟩

theorem linkStep_no_open {t : Str} (h1 : Index t sLinkOpen = none) : linkStep t = .ok none := by
  cases h0 : Contains t sLinkMid with
  | false => exact linkStep_not_contains _ h0
  | true => simp [linkStep, h0, h1, pure, Except.pure]

theorem linkStep_no_mid {t : Str} {ls : Nat} (h1 : Index t sLinkOpen = some ls)
    (h2 : Index (t.drop ls) sLinkMid = none) : linkStep t = .ok none := by
  have a0 : ls ≤ t.length := by have := Index_some_le _ _ _ h1; omega
  cases h0 : Contains t sLinkMid with
  | false => exact linkStep_not_contains _ h0
  | true => simp [linkStep, h0, h1, sliceFrom_ok a0, h2, pure, Except.pure, bind, Except.bind]

theorem linkStep_no_close {t : Str} {ls i : Nat} (h1 : Index t sLinkOpen = some ls)
    (h2 : Index (t.drop ls) sLinkMid = some i)
    (h3 : Index (t.drop (i + ls + 2)) sLinkClose = none) : linkStep t = .ok none := by
  have a0 : ls ≤ t.length := by have := Index_some_le _ _ _ h1; omega
  have l2 := Index_some_le _ _ _ h2
  simp only [List.length_drop, sLinkMid, String.toList, List.length_cons,
    List.length_nil] at l2
  have a1 : i + ls + 2 ≤ t.length := by omega
  cases h0 : Contains t sLinkMid with
  | false => exact linkStep_not_contains _ h0
  | true =>
    simp [linkStep, h0, h1, sliceFrom_ok a0, h2, sliceFrom_ok a1, h3, pure, Except.pure,
      bind, Except.bind]

/-- The link loop leaves exactly when the scan for a link pattern is not done. -/
theorem linkStep_none_iff (t : Str) : linkStep t = .ok none ↔ linkRun .start t ≠ .done := by
  rw [Ne, linkRun_start_iff]
  cases h1 : Index t sLinkOpen with
  | none => simp [linkStep_no_open h1]
  | some ls =>
    have hd : t.drop ls = '[' :: t.drop (ls + 1) := by
      obtain ⟨r, hr⟩ := Index_some_at _ _ _ h1
      rw [← hr, ← List.drop_drop, ← hr]; rfl
    have hidx : Index (t.drop ls) sLinkMid = (Index (t.drop (ls + 1)) sLinkMid).map (· + 1) := by
      rw [hd, Index_cons]
      have : HasPrefix ('[' :: t.drop (ls + 1)) sLinkMid = false := by
        simp [HasPrefix, sLinkMid, List.isPrefixOf]
      rw [this]; rfl
    rw [show (∃ ls_1, some ls = some ls_1 ∧ linkRun .opened (t.drop (ls_1 + 1)) = .done)
        ↔ linkRun .opened (t.drop (ls + 1)) = .done from
      ⟨fun ⟨k, hk, h⟩ => by injection hk with hk; subst hk; exact h, fun h => ⟨ls, rfl, h⟩⟩,
      linkRun_opened_iff _ _ (Nat.le_refl _)]
    cases hr : Index (t.drop (ls + 1)) sLinkMid with
    | none =>
      rw [hr] at hidx
      simp [linkStep_no_mid h1 hidx]
    | some i =>
      rw [hr] at hidx
      have hidx' : Index (t.drop ls) sLinkMid = some (i + 1) := hidx
      have hdd : t.drop (i + 1 + ls + 2) = (t.drop (ls + 1)).drop (i + 2) := by
        rw [List.drop_drop]; congr 1; omega
      cases h3 : Index (t.drop (i + 1 + ls + 2)) sLinkClose with
      | none =>
        have hm : ')' ∉ (t.drop (ls + 1)).drop (i + 2) := by
          rw [← hdd]; exact (Index_single_none_iff ')' _).1 h3
        rw [linkStep_no_close h1 hidx' h3]
        simp only [true_iff]
        rintro ⟨k, hk, hmem⟩
        injection hk with hk
        subst hk
        exact hm hmem
      | some j =>
        have hm : ')' ∈ (t.drop (ls + 1)).drop (i + 2) := by
          rw [← hdd]
          by_contra hn
          rw [← Index_single_none_iff] at hn
          have e : sLinkClose = [')'] := rfl
          rw [e, hn] at h3
          cases h3
        have h0 : Contains t sLinkMid = true := by
          rw [Contains_iff]
          have h5 : sLinkMid <:+: t.drop ls := by
            rw [← Contains_iff]; simp [Contains, hidx']
          exact h5.trans (List.drop_suffix _ _).isInfix
        rw [linkStep_closed t ls (i + 1) j h0 h1 hidx' h3]
        constructor
        · intro h; injection h with h; cases h
        · intro h; exact absurd ⟨i, rfl, hm⟩ h

/-! ## What a substitution leaves unchanged -/

theorem linkRun_noBracket (q : LinkState) :
    ∀ w : Str, w ≠ [] → NoBracket w → linkRun q w = relax q
  | [], h, _ => absurd rfl h
  | [c], _, h => by
    obtain ⟨h1, h2, h3, h4⟩ := h c (by simp)
    cases q <;> simp [linkRun, linkNext, relax, h1, h2, h3, h4]
  | c :: d :: w, _, h => by
    obtain ⟨h1, h2, h3, h4⟩ := h c (by simp)
    have ih := linkRun_noBracket (linkNext q c) (d :: w) (by simp)
      (fun x hx => h x (by simp [hx]))
    rw [linkRun_cons, ih]
    cases q <;> simp [linkNext, relax, h1, h2, h3, h4]

/-- Two texts that differ by non-empty pieces without `[`, `]`, `(`, `)` at the same two
places are scanned alike. -/
theorem linkRun_replace (q : LinkState) (a b c w1 w2 v1 v2 : Str)
    (hw1 : w1 ≠ []) (hw2 : w2 ≠ []) (hv1 : v1 ≠ []) (hv2 : v2 ≠ [])
    (nw1 : NoBracket w1) (nw2 : NoBracket w2) (nv1 : NoBracket v1) (nv2 : NoBracket v2) :
    linkRun q (a ++ w1 ++ b ++ w2 ++ c) = linkRun q (a ++ v1 ++ b ++ v2 ++ c) := by
  simp only [linkRun_append, linkRun_noBracket _ w1 hw1 nw1, linkRun_noBracket _ w2 hw2 nw2,
    linkRun_noBracket _ v1 hv1 nv1, linkRun_noBracket _ v2 hv2 nv2]

/-! ## The reformatter leaves nothing for a second pass -/

/-- What holds of the text before a loop and is kept by every turn holds after it. -/
theorem iterate_invariant (step : Str → Except Fault (Option Str)) (Inv : Str → Prop)
    (hpres : ∀ t t1, Inv t → step t = .ok (some t1) → Inv t1) :
    ∀ (n : Nat) (t r : Str), Inv t → iterate step n t = .ok r → Inv r
  | 0, _, _, _, h => by simp [iterate] at h
  | n + 1, t, r, hi, h => by
    simp only [iterate] at h
    cases hs : step t with
    | error e => simp [hs] at h
    | ok o =>
      cases o with
      | none =>
        simp only [hs] at h
        injection h with h
        rw [← h]; exact hi
      | some t1 =>
        simp only [hs] at h
        exact iterate_invariant step Inv hpres n t1 r (hpres t t1 hi hs) h

theorem boldCount_eq_zero_of_sub {x t : Str} (hx : x <:+: t) (ht : Contains t sBold = false) :
    boldCount x = 0 := by
  have h1 : ¬ sBold <:+: x := fun h => (Contains_false_iff _ _).1 ht (h.trans hx)
  have h2 : ¬ 1 ≤ boldCount x := by
    rw [boldCount_pos_iff, Contains_iff]; exact h1
  omega

/-- A turn of the italic loop leaves a text without `**`. -/
theorem boldCount_italicStep {t t1 : Str} (h : italicStep t = .ok (some t1)) :
    boldCount t1 = 0 := by
  unfold italicStep at h
  split at h
  · rename_i hc
    have hb : Contains t sBold = false := by
      simp only [Bool.and_eq_true, Bool.not_eq_true'] at hc
      exact hc.2
    rcases spanStep_cases sStar "<em>".toList "</em>".toList t with h0 | ⟨p, i, q, ht, h1⟩
    · rw [h0] at h; injection h with h; cases h
    · rw [h1] at h
      injection h with h
      injection h with h
      have e : t1 = p ++ "<em>".toList ++ i ++ "</em>".toList ++ q := by
        rw [← h]; simp only [List.append_assoc]
      have hp : p <:+: t := ⟨[], sStar ++ i ++ sStar ++ q, by rw [ht]; simp only [List.nil_append, List.append_assoc]⟩
      have hi : i <:+: t := ⟨p ++ sStar, sStar ++ q, by rw [ht]; simp only [List.append_assoc]⟩
      have hq : q <:+: t := ⟨p ++ sStar ++ i ++ sStar, [], by rw [ht]; simp only [List.append_nil]⟩
      rw [e, boldCount_sep _ _ _ (by decide) (by decide),
        boldCount_sep _ _ _ (by decide) (by decide), boldCount_eq_zero_of_sub hp hb,
        boldCount_eq_zero_of_sub hi hb, boldCount_eq_zero_of_sub hq hb]
  · injection h with h; cases h

/-- A turn of the link loop moves no `*` next to another and removes none. -/
theorem stars_linkStep {t t1 : Str} (h : linkStep t = .ok (some t1)) :
    boldCount t1 = boldCount t ∧ t1.count '*' = t.count '*' := by
  rcases linkStep_cases t with h0 | ⟨p, x, u, q, ht, h1⟩
  · rw [h0] at h; injection h with h; cases h
  · rw [h1] at h
    injection h with h
    injection h with h
    have e : t1 = p ++ "<a href=\"".toList ++ u ++ "\">".toList ++ x ++ "</a>".toList ++ q := by
      rw [← h]; simp only [List.append_assoc]
    constructor
    · rw [e, ht, boldCount_sep _ _ _ (by decide) (by decide),
        boldCount_sep _ _ _ (by decide) (by decide), boldCount_sep _ _ _ (by decide) (by decide),
        boldCount_sep _ _ _ (by decide) (by decide), boldCount_sep _ _ _ (by decide) (by decide),
        boldCount_sep _ _ _ (by decide) (by decide)]
      omega
    · have c1 : List.count '*' "<a href=\"".toList = 0 := by decide
      have c2 : List.count '*' "\">".toList = 0 := by decide
      have c3 : List.count '*' "</a>".toList = 0 := by decide
      have c4 : List.count '*' sLinkOpen = 0 := by decide
      have c5 : List.count '*' sLinkMid = 0 := by decide
      have c6 : List.count '*' sLinkClose = 0 := by decide
      rw [e, ht]
      simp only [List.count_append, c1, c2, c3, c4, c5, c6]
      omega

/-- A turn of the inline-code loop moves no `*` next to another, removes none, and does
not change the scan for a link pattern. -/
theorem stars_codeStep {t t1 : Str} (h : codeStep t = .ok (some t1)) :
    boldCount t1 = boldCount t ∧ t1.count '*' = t.count '*'
      ∧ linkRun .start t1 = linkRun .start t := by
  unfold codeStep at h
  split at h
  · rcases spanStep_cases sTick "<code>".toList "</code>".toList t with h0 | ⟨p, i, q, ht, h1⟩
    · rw [h0] at h; injection h with h; cases h
    · rw [h1] at h
      injection h with h
      injection h with h
      have e : t1 = p ++ "<code>".toList ++ i ++ "</code>".toList ++ q := by
        rw [← h]; simp only [List.append_assoc]
      refine ⟨?_, ?_, ?_⟩
      · rw [e, ht, boldCount_sep _ _ _ (by decide) (by decide),
          boldCount_sep _ _ _ (by decide) (by decide),
          boldCount_sep _ _ _ (by decide) (by decide),
          boldCount_sep _ _ _ (by decide) (by decide)]
      · have c1 : List.count '*' "<code>".toList = 0 := by decide
        have c2 : List.count '*' "</code>".toList = 0 := by decide
        have c3 : List.count '*' sTick = 0 := by decide
        rw [e, ht]
        simp only [List.count_append, c1, c2, c3]
      · rw [e, ht]
        exact linkRun_replace _ p i q _ _ _ _ (by decide) (by decide) (by decide) (by decide)
          (by decide) (by decide) (by decide) (by decide)
  · injection h with h; cases h

/-! # The claims -/

/-- C1: for `n` from 1 to 6 and a non-empty text `t` without newline that does not end in
a space or tab, `Parse` of `n` hashes, a space and `t` is `<hn>`, `t` as it is (no inline
reformatting), `</hn>` and a newline. -/
theorem Parse_heading (rt : Runtime) (mp : MarkdownParser) (n : Nat) (t : Str)
    (hn1 : 1 ≤ n) (hn6 : n ≤ 6) (ht : t ≠ []) (hnl : '\n' ∉ t) (hb : ¬ EndsInBlank t) :
    htmlOf (Parse rt mp (List.replicate n '#' ++ " ".toList ++ t))
      = .ok ("<h".toList ++ [Nat.digitChar n] ++ ">".toList ++ t
          ++ "</h".toList ++ [Nat.digitChar n] ++ ">\n".toList) := by
  have hline : '\n' ∉ List.replicate n '#' ++ " ".toList ++ t := by
    simp only [List.mem_append, not_or]
    refine ⟨⟨?_, by decide⟩, hnl⟩
    intro h
    exact absurd (List.eq_of_mem_replicate h) (by decide)
  rw [Parse_single_line rt mp _ hline]
  have hT : TrimRight (List.replicate n '#' ++ " ".toList ++ t) " \t".toList
      = List.replicate n '#' ++ " ".toList ++ t := TrimRight_append ht hb
  interval_cases n
  · have e : List.replicate 1 '#' ++ " ".toList = "# ".toList := by decide
    rw [e] at hT ⊢
    rw [lineOutput_h1 _ (by rw [hT]; rfl) (by rw [hT]; exact HasPrefix_append _ _), hT,
      TrimPrefix_append]
    simp
    decide
  · have e : List.replicate 2 '#' ++ " ".toList = "## ".toList := by decide
    rw [e] at hT ⊢
    rw [lineOutput_h2 _ (by rw [hT]; rfl) (by rw [hT]; rfl)
      (by rw [hT]; exact HasPrefix_append _ _), hT, TrimPrefix_append]
    simp
    decide
  · have e : List.replicate 3 '#' ++ " ".toList = "### ".toList := by decide
    rw [e] at hT ⊢
    rw [lineOutput_h3 _ (by rw [hT]; rfl) (by rw [hT]; rfl) (by rw [hT]; rfl)
      (by rw [hT]; exact HasPrefix_append _ _), hT, TrimPrefix_append]
    simp
    decide
  · have e : List.replicate 4 '#' ++ " ".toList = "#### ".toList := by decide
    rw [e] at hT ⊢
    rw [lineOutput_h4 _ (by rw [hT]; rfl) (by rw [hT]; rfl) (by rw [hT]; rfl) (by rw [hT]; rfl)
      (by rw [hT]; exact HasPrefix_append _ _), hT, TrimPrefix_append]
    simp
    decide
  · have e : List.replicate 5 '#' ++ " ".toList = "##### ".toList := by decide
    rw [e] at hT ⊢
    rw [lineOutput_h5 _ (by rw [hT]; rfl) (by rw [hT]; rfl) (by rw [hT]; rfl) (by rw [hT]; rfl)
      (by rw [hT]; rfl) (by rw [hT]; exact HasPrefix_append _ _), hT, TrimPrefix_append]
    simp
    decide
  · have e : List.replicate 6 '#' ++ " ".toList = "###### ".toList := by decide
    rw [e] at hT ⊢
    rw [lineOutput_h6 _ (by rw [hT]; rfl) (by rw [hT]; rfl) (by rw [hT]; rfl) (by rw [hT]; rfl)
      (by rw [hT]; rfl) (by rw [hT]; rfl) (by rw [hT]; exact HasPrefix_append _ _), hT,
      TrimPrefix_append]
    simp
    decide

theorem Parse_heading_witness :
    htmlOf (Parse Runtime.exact NewMarkdownParser "# Title".toList) = .ok "<h1>Title</h1>\n".toList
    ∧ htmlOf (Parse Runtime.exact NewMarkdownParser "###### Tiny".toList)
      = .ok "<h6>Tiny</h6>\n".toList :=
  ⟨Parse_heading Runtime.exact NewMarkdownParser 1 "Title".toList (by decide) (by decide)
      (by decide) (by decide) (by decide),
    Parse_heading Runtime.exact NewMarkdownParser 6 "Tiny".toList (by decide) (by decide)
      (by decide) (by decide) (by decide)⟩

/-- C2: a fenced block with language tag `g` and body lines `ls` is rendered as
`<pre><code class="language-g">`, every body line as it is followed by a newline, and
`</code></pre>` with a newline; body lines are not reformatted and not classified. -/
theorem Parse_fenced_block (rt : Runtime) (mp : MarkdownParser) (g : Str) (ls : List Str)
    (hg : g ≠ []) (hgn : '\n' ∉ g) (hgb : ¬ EndsInBlank g)
    (hls : ∀ l ∈ ls, '\n' ∉ l ∧ ¬ EndsInBlank l ∧ ¬ "```".toList <+: l) :
    htmlOf (Parse rt mp ("```".toList ++ g ++ "\n".toList
        ++ (ls.map (· ++ "\n".toList)).flatten ++ "```".toList))
      = .ok ("<pre><code class=\"language-".toList ++ g ++ "\">".toList
          ++ (ls.map (· ++ "\n".toList)).flatten ++ "</code></pre>\n".toList) := by
  have e : "```".toList ++ g ++ "\n".toList ++ (ls.map (· ++ "\n".toList)).flatten
      ++ "```".toList
      = (((sFence ++ g) :: ls).map (· ++ "\n".toList)).flatten ++ sFence := by
    simp [sFence]
  have ha : '\n' ∉ sFence ++ g := by
    simp only [List.mem_append, not_or]; exact ⟨by decide, hgn⟩
  rw [Parse_html, e, Split_lines sFence (by decide) _ (by
    intro l hl
    rcases List.mem_cons.1 hl with h | h
    · rw [h]; exact ha
    · exact (hls l h).1)]
  have hT : TrimRight (sFence ++ g) " \t".toList = sFence ++ g := TrimRight_append hg hgb
  have ho := lineOutput_fence_open (sFence ++ g) (by rw [hT]; exact HasPrefix_append _ _)
  rw [hT, TrimPrefix_append, if_neg hg] at ho
  have hc := lineOutput_fence_close sFence (by decide)
  rw [List.cons_append, linesOutput, ho,
    linesOutput_code_lines [sFence] ls (fun l hl => (hls l hl).2), linesOutput_single, hc]
  simp

theorem Parse_fenced_block_witness :
    htmlOf (Parse Runtime.exact NewMarkdownParser "```go\ncode\n```".toList)
      = .ok "<pre><code class=\"language-go\">code\n</code></pre>\n".toList :=
  Parse_fenced_block Runtime.exact NewMarkdownParser "go".toList ["code".toList]
    (by decide) (by decide) (by decide) (by decide)

/-- C3: a bold span followed by an italic span on one line are both substituted:
for texts `p x m y s` without `*`, backtick, `[`, `]`, `(`, `)`, with `x` and `y`
non-empty, `processInlineFormatting (p ++ "**" ++ x ++ "**" ++ m ++ "*" ++ y ++ "*" ++ s)`
returns `p ++ "<strong>" ++ x ++ "</strong>" ++ m ++ "<em>" ++ y ++ "</em>" ++ s`; and
`"**bold**"` alone gives `"<strong>bold</strong>"`, `"*it*"` alone gives `"<em>it</em>"`. -/
theorem processInlineFormatting_bold_then_italic (p x m y s : Str)
    (hp : Plain p) (hx : Plain x) (hm : Plain m) (hy : Plain y) (hs : Plain s)
    (_hx0 : x ≠ []) (hy0 : y ≠ []) :
    processInlineFormatting
        (p ++ "**".toList ++ x ++ "**".toList ++ m ++ "*".toList ++ y ++ "*".toList ++ s)
      = .ok (p ++ "<strong>".toList ++ x ++ "</strong>".toList ++ m ++ "<em>".toList ++ y
          ++ "</em>".toList ++ s)
    ∧ processInlineFormatting "**bold**".toList = .ok "<strong>bold</strong>".toList
    ∧ processInlineFormatting "*it*".toList = .ok "<em>it</em>".toList := by
  refine ⟨?_, by rfl, by rfl⟩
  -- the text after the bold loop, and after the italic loop
  let a : Str := p ++ ("<strong>".toList ++ x ++ "</strong>".toList) ++ m
  let t1 : Str := a ++ sStar ++ y ++ sStar ++ s
  let t2 : Str := a ++ ("<em>".toList ++ y ++ "</em>".toList) ++ s
  have ha : Char.ofNat 42 ∉ a := by
    simp only [a, List.mem_append, not_or]
    exact ⟨⟨hp.star, ⟨by decide, hx.star⟩, by decide⟩, hm.star⟩
  have e0 : p ++ "**".toList ++ x ++ "**".toList ++ m ++ "*".toList ++ y ++ "*".toList ++ s
      = p ++ sBold ++ x ++ sBold ++ (m ++ sStar ++ y ++ sStar ++ s) := by
    simp only [sBold, sStar, List.append_assoc]
  have e1 : p ++ ("<strong>".toList ++ x ++ "</strong>".toList) ++ (m ++ sStar ++ y ++ sStar ++ s)
      = t1 := by
    simp only [t1, a, List.append_assoc]
  -- bold loop: one substitution, then no `**` is left
  have b1 : boldStep (p ++ sBold ++ x ++ sBold ++ (m ++ sStar ++ y ++ sStar ++ s))
      = .ok (some t1) := by
    have hc : Contains (p ++ sBold ++ x ++ sBold ++ (m ++ sStar ++ y ++ sStar ++ s)) sBold
        = true := by
      rw [Contains_iff]
      exact ⟨p, x ++ sBold ++ (m ++ sStar ++ y ++ sStar ++ s), by simp only [List.append_assoc]⟩
    have hb : sBold = Char.ofNat 42 :: [Char.ofNat 42] := by decide
    rw [boldStep, if_pos hc, ← e1, hb]
    exact spanStep_wrap _ _ _ _ p x _ hp.star hx.star
  have nb1 : ¬ sBold <:+: t1 := by
    have hys : ¬ sBold <:+: y ++ Char.ofNat 42 :: s := by
      apply not_bold_single y s hy.star
      · cases s with
        | nil => simp
        | cons d s =>
          have : d ≠ Char.ofNat 42 := fun e => hs.star (by simp [e])
          simpa using this
      · exact not_infix_of_not_mem (c := Char.ofNat 42) (by decide) hs.star
    have : t1 = a ++ Char.ofNat 42 :: (y ++ Char.ofNat 42 :: s) := by
      simp only [t1, sStar, List.append_assoc]; rfl
    rw [this]
    apply not_bold_single a _ ha _ hys
    cases y with
    | nil => exact absurd rfl hy0
    | cons d y =>
      have : d ≠ Char.ofNat 42 := fun e => hy.star (by simp [e])
      simpa using this
  have b2 : boldStep t1 = .ok none :=
    boldStep_of_not_contains ((Contains_false_iff _ _).2 nb1)
  have B : iterate boldStep 2 (p ++ sBold ++ x ++ sBold ++ (m ++ sStar ++ y ++ sStar ++ s))
      = .ok t1 := by
    rw [iterate_next _ _ _ _ b1, iterate_done _ _ _ b2]
  -- italic loop
  have i1 : italicStep t1 = .ok (some t2) := by
    have hc : Contains t1 sStar = true := by
      rw [Contains_iff]
      exact ⟨a, y ++ sStar ++ s, by simp only [t1, List.append_assoc]⟩
    have hc2 : Contains t1 sBold = false := (Contains_false_iff _ _).2 nb1
    have hb : sStar = Char.ofNat 42 :: [] := by decide
    simp only [italicStep, hc, hc2, Bool.not_false, Bool.and_self, if_true]
    simp only [t1, t2, hb]
    exact spanStep_wrap _ _ _ _ a y s ha hy.star
  have ht2 : ∀ c : Char, c ∉ p → c ∉ x → c ∉ m → c ∉ y → c ∉ s →
      c ∉ "<strong>".toList → c ∉ "</strong>".toList → c ∉ "<em>".toList →
      c ∉ "</em>".toList → c ∉ t2 := by
    intro c h1 h2 h3 h4 h5 h6 h7 h8 h9
    simp only [t2, a, List.mem_append, not_or]
    exact ⟨⟨⟨⟨h1, ⟨h6, h2⟩, h7⟩, h3⟩, ⟨h8, h4⟩, h9⟩, h5⟩
  have i2 : italicStep t2 = .ok none :=
    italicStep_of_no_star (Contains_false_of_not_mem (c := Char.ofNat 42) (by decide)
      (ht2 _ hp.star hx.star hm.star hy.star hs.star (by decide) (by decide) (by decide)
        (by decide)))
  have I : iterate italicStep 2 t1 = .ok t2 := by
    rw [iterate_next _ _ _ _ i1, iterate_done _ _ _ i2]
  -- link and code loops find nothing
  have L : iterate linkStep 1 t2 = .ok t2 :=
    iterate_done _ _ _ (linkStep_not_contains _
      (Contains_false_of_not_mem (c := Char.ofNat 93) (by decide)
        (ht2 _ hp.rbracket hx.rbracket hm.rbracket hy.rbracket hs.rbracket (by decide)
          (by decide) (by decide) (by decide))))
  have K : iterate codeStep 1 t2 = .ok t2 :=
    iterate_done _ _ _ (codeStep_of_not_contains
      (Contains_false_of_not_mem (c := Char.ofNat 96) (by decide)
        (ht2 _ hp.tick hx.tick hm.tick hy.tick hs.tick (by decide) (by decide) (by decide)
          (by decide))))
  rw [e0, processInlineFormatting_eq _ _ _ _ _ _ _ _ _ B I L K]
  simp only [t2, a, List.append_assoc]

theorem processInlineFormatting_bold_then_italic_witness :
    processInlineFormatting "**a** and *b*".toList
      = .ok "<strong>a</strong> and <em>b</em>".toList :=
  (processInlineFormatting_bold_then_italic [] "a".toList " and ".toList "b".toList []
    (by decide) (by decide) (by decide) (by decide) (by decide) (by decide) (by decide)).1

set_option maxRecDepth 100000 in
/-- C4: an unterminated bold marker is left as it is and is no error.  When `p` has no
`*`, `s` has no `**` (single `*` allowed), and neither has a backtick or `](`,
`processInlineFormatting (p ++ "**" ++ s)` returns `p ++ "**" ++ s`: no italic
substitution is made in `s`.  So `Parse "**oops"` is `<p>**oops</p>` and a newline. -/
theorem processInlineFormatting_unterminated (rt : Runtime) (mp : MarkdownParser) (p s : Str)
    (hp : '*' ∉ p) (hs : ¬ "**".toList <:+: s)
    (hpt : Char.ofNat 96 ∉ p) (hst : Char.ofNat 96 ∉ s)
    (hpl : ¬ "](".toList <:+: p) (hsl : ¬ "](".toList <:+: s) :
    processInlineFormatting (p ++ "**".toList ++ s) = .ok (p ++ "**".toList ++ s)
      ∧ htmlOf (Parse rt mp "**oops".toList) = .ok "<p>**oops</p>\n".toList := by
  refine ⟨?_, by rw [Parse_single_line rt mp _ (by decide)]; decide⟩
  have hb : sBold = Char.ofNat 42 :: [Char.ofNat 42] := by decide
  have hc : Contains (p ++ sBold ++ s) sBold = true := by
    rw [Contains_iff]; exact ⟨p, s, rfl⟩
  have h1 : Index (p ++ sBold ++ s) sBold = some p.length := by
    rw [List.append_assoc]
    conv_lhs => rw [hb, Index_skip _ _ p _ hp, ← hb, Index_append_self]
    simp
  have d1 : (p ++ sBold ++ s).drop (p.length + sBold.length) = s := by
    rw [List.append_assoc, drop_append_add]; simp
  have h2 : Index ((p ++ sBold ++ s).drop (p.length + sBold.length)) sBold = none := by
    rw [d1]; exact (Index_none_iff _ _).2 hs
  have b : boldStep (p ++ sBold ++ s) = .ok none := by
    rw [boldStep, if_pos hc]
    exact spanStep_unclosed _ _ _ _ _ h1 h2
  have i : italicStep (p ++ sBold ++ s) = .ok none := italicStep_of_bold hc
  have l : linkStep (p ++ sBold ++ s) = .ok none := by
    apply linkStep_not_contains
    rw [Contains_false_iff]
    intro h
    have e : p ++ sBold ++ s = p ++ Char.ofNat 42 :: ([] ++ Char.ofNat 42 :: s) := by
      rw [hb]; simp
    rw [e] at h
    rcases infix_append_cons_of_not_mem (by decide) _ p h with h3 | h3
    · exact hpl h3
    · rcases infix_append_cons_of_not_mem (by decide) _ [] h3 with h4 | h4
      · have := List.eq_nil_of_infix_nil h4
        exact absurd this (by decide)
      · exact hsl h4
  have k : codeStep (p ++ sBold ++ s) = .ok none := by
    apply codeStep_of_not_contains
    apply Contains_false_of_not_mem (c := Char.ofNat 96) (by decide)
    simp only [List.mem_append, not_or]
    exact ⟨⟨hpt, by decide⟩, hst⟩
  exact processInlineFormatting_eq _ _ _ _ _ 1 1 1 1 (iterate_done _ _ _ b) (iterate_done _ _ _ i)
    (iterate_done _ _ _ l) (iterate_done _ _ _ k)

theorem processInlineFormatting_unterminated_witness :
    processInlineFormatting "a **b *c".toList = .ok "a **b *c".toList
      ∧ htmlOf (Parse Runtime.exact NewMarkdownParser "**oops".toList)
        = .ok "<p>**oops</p>\n".toList :=
  processInlineFormatting_unterminated Runtime.exact NewMarkdownParser "a ".toList "b *c".toList
    (by decide) (by decide) (by decide) (by decide) (by decide) (by decide)

/-- C5: for texts `p t u s` without `[`, `]`, `(`, `)`, `*` or backtick,
`processInlineFormatting (p ++ "[" ++ t ++ "](" ++ u ++ ")" ++ s)` returns
`p ++ "<a href=\"" ++ u ++ "\">" ++ t ++ "</a>" ++ s`: the link text and the URL are
inserted as they are, without escaping. -/
theorem processInlineFormatting_link (p t u s : Str)
    (hp : Plain p) (ht : Plain t) (hu : Plain u) (hs : Plain s) :
    processInlineFormatting (p ++ "[".toList ++ t ++ "](".toList ++ u ++ ")".toList ++ s)
      = .ok (p ++ "<a href=\"".toList ++ u ++ "\">".toList ++ t ++ "</a>".toList ++ s) := by
  let t0 : Str := p ++ sLinkOpen ++ t ++ sLinkMid ++ u ++ sLinkClose ++ s
  let t1 : Str := p ++ ("<a href=\"".toList ++ u ++ "\">".toList ++ t ++ "</a>".toList) ++ s
  have m0 : ∀ c : Char, c ∉ p → c ∉ t → c ∉ u → c ∉ s → c ∉ sLinkOpen → c ∉ sLinkMid →
      c ∉ sLinkClose → c ∉ t0 := by
    intro c h1 h2 h3 h4 h5 h6 h7
    simp only [t0, List.mem_append, not_or]
    exact ⟨⟨⟨⟨⟨⟨h1, h5⟩, h2⟩, h6⟩, h3⟩, h7⟩, h4⟩
  have m1 : ∀ c : Char, c ∉ p → c ∉ t → c ∉ u → c ∉ s → c ∉ "<a href=\"".toList →
      c ∉ "\">".toList → c ∉ "</a>".toList → c ∉ t1 := by
    intro c h1 h2 h3 h4 h5 h6 h7
    simp only [t1, List.mem_append, not_or]
    exact ⟨⟨h1, ⟨⟨⟨h5, h3⟩, h6⟩, h2⟩, h7⟩, h4⟩
  have hstar0 : Char.ofNat 42 ∉ t0 :=
    m0 _ hp.star ht.star hu.star hs.star (by decide) (by decide) (by decide)
  have B : iterate boldStep 1 t0 = .ok t0 :=
    iterate_done _ _ _ (boldStep_of_not_contains
      (Contains_false_of_not_mem (c := Char.ofNat 42) (by decide) hstar0))
  have I : iterate italicStep 1 t0 = .ok t0 :=
    iterate_done _ _ _ (italicStep_of_no_star
      (Contains_false_of_not_mem (c := Char.ofNat 42) (by decide) hstar0))
  have l1 : linkStep t0 = .ok (some t1) := linkStep_wrap p t u s hp.lbracket ht.rbracket hu.rparen
  have l2 : linkStep t1 = .ok none :=
    linkStep_not_contains _ (Contains_false_of_not_mem (c := Char.ofNat 93) (by decide)
      (m1 _ hp.rbracket ht.rbracket hu.rbracket hs.rbracket (by decide) (by decide) (by decide)))
  have L : iterate linkStep 2 t0 = .ok t1 := by
    rw [iterate_next _ _ _ _ l1, iterate_done _ _ _ l2]
  have K : iterate codeStep 1 t1 = .ok t1 :=
    iterate_done _ _ _ (codeStep_of_not_contains
      (Contains_false_of_not_mem (c := Char.ofNat 96) (by decide)
        (m1 _ hp.tick ht.tick hu.tick hs.tick (by decide) (by decide) (by decide))))
  have e := processInlineFormatting_eq _ _ _ _ _ _ _ _ _ B I L K
  simp only [t0, t1, sLinkOpen, sLinkMid, sLinkClose, List.append_assoc] at e
  simpa only [List.append_assoc] using e

theorem processInlineFormatting_link_witness :
    processInlineFormatting "see [docs](http://x.y/z) now".toList
      = .ok "see <a href=\"http://x.y/z\">docs</a> now".toList :=
  processInlineFormatting_link "see ".toList "docs".toList "http://x.y/z".toList " now".toList
    (by decide) (by decide) (by decide) (by decide)

/-- C6: for a non-empty text `t` without newline that does not end in a space or tab,
`Parse ("- " ++ t)` and `Parse ("* " ++ t)` both return `<li>`, the inline-reformatted `t`,
`</li>` and a newline: a bare list item without `<ul>` or `<ol>` around it. -/
theorem Parse_list_item (rt : Runtime) (mp : MarkdownParser) (t : Str)
    (ht : t ≠ []) (hnl : '\n' ∉ t) (hb : ¬ EndsInBlank t) :
    ∃ r, processInlineFormatting t = .ok r
      ∧ htmlOf (Parse rt mp ("- ".toList ++ t)) = .ok ("<li>".toList ++ r ++ "</li>\n".toList)
      ∧ htmlOf (Parse rt mp ("* ".toList ++ t)) = .ok ("<li>".toList ++ r ++ "</li>\n".toList) := by
  obtain ⟨r, hr⟩ := processInlineFormatting_total t
  refine ⟨r, hr, ?_, ?_⟩
  · have hline : '\n' ∉ "- ".toList ++ t := by
      simp only [List.mem_append, not_or]; exact ⟨by decide, hnl⟩
    have hT : TrimRight ("- ".toList ++ t) " \t".toList = "- ".toList ++ t := TrimRight_append ht hb
    rw [Parse_single_line rt mp _ hline,
      lineOutput_item _ r (by rw [hT]; exact ⟨rfl, rfl, rfl, rfl, rfl, rfl, rfl⟩)
        (by rw [hT, HasPrefix_append]; rfl) (by rw [hT]; exact hr)]
  · have hline : '\n' ∉ "* ".toList ++ t := by
      simp only [List.mem_append, not_or]; exact ⟨by decide, hnl⟩
    have hT : TrimRight ("* ".toList ++ t) " \t".toList = "* ".toList ++ t := TrimRight_append ht hb
    rw [Parse_single_line rt mp _ hline,
      lineOutput_item _ r (by rw [hT]; exact ⟨rfl, rfl, rfl, rfl, rfl, rfl, rfl⟩)
        (by rw [hT, HasPrefix_append]; simp) (by rw [hT]; exact hr)]

theorem Parse_list_item_witness :
    ∃ r, processInlineFormatting "a **b**".toList = .ok r
      ∧ htmlOf (Parse Runtime.exact NewMarkdownParser "- a **b**".toList)
        = .ok ("<li>".toList ++ r ++ "</li>\n".toList)
      ∧ htmlOf (Parse Runtime.exact NewMarkdownParser "* a **b**".toList)
        = .ok ("<li>".toList ++ r ++ "</li>\n".toList) :=
  Parse_list_item Runtime.exact NewMarkdownParser "a **b**".toList (by decide) (by decide)
    (by decide)

/-- C7: `countWords` is the number of maximal runs of non-whitespace characters of the
raw text, that is the number of positions `i` whose character is not whitespace and that
are `0` or follow a whitespace character; `"a  b\tc\n"` has 3, and a text of whitespace
only (the empty text too) has 0. -/
theorem countWords_eq_wordStartCount (text : Str) :
    countWords text = wordStartCount text
      ∧ countWords "a  b\tc\n".toList = 3
      ∧ ((∀ c ∈ text, isSpace c = true) → countWords text = 0) := by
  have key : ∀ s : Str, countWords s = startsFrom isSpace true s := by
    intro s
    simp [countWords, Fields, FieldsFunc, fieldsLoop_length]
  refine ⟨?_, by decide, ?_⟩
  · rw [key, wordStartCount, isWordStart_eq, countP_isWordStartFrom]
  · intro h
    rw [key]
    have : ∀ (s : Str) (prev : Bool), (∀ c ∈ s, isSpace c = true) →
        startsFrom isSpace prev s = 0 := by
      intro s
      induction s with
      | nil => intro _ _; rfl
      | cons c cs ih =>
        intro prev hs
        have hc : isSpace c = true := hs c (by simp)
        simp [startsFrom, hc, ih true (fun x hx => hs x (by simp [hx]))]
    exact this text true h

/-- C8 (amended): for a non-empty batch of at most `2^28` inputs, `ParseMarkdownBatch`
returns as many entries as inputs.  At an absent input the entry is an error entry with
the index and no html; at a text it has the index, the html of a conversion of that text
alone by a fresh parser, and the word count of the text.  So no entry depends on another
input.  A batch of more than `2^28` inputs returns nothing: slicing the input array
panics.  `[null, "# A"]` gives an error at index 0 and, at index 1, html `<h1>A</h1>` with
word count 2: the words are those of the raw text, `#` and `A`. -/
theorem ParseMarkdownBatch_entries (rt : Runtime) (inputs : List (Option Str))
    (hne : inputs ≠ []) :
    (inputs.length ≤ 2 ^ 28 →
      ∃ rs, ParseMarkdownBatch rt (some inputs) = .ok (.results rs)
        ∧ rs.length = inputs.length
        ∧ ∀ i, (inputs[i]? = some none → ∃ msg, rs[i]? = some (BatchEntry.failure msg i))
          ∧ (∀ md, inputs[i]? = some (some md) →
              ∃ html, htmlOf (Parse rt NewMarkdownParser md) = .ok html
                ∧ rs[i]? = some (BatchEntry.success html (countWords md) i)))
    ∧ (2 ^ 28 < inputs.length → ParseMarkdownBatch rt (some inputs) = .error .sliceBounds)
    ∧ ParseMarkdownBatch rt (some [none, some "# A".toList])
        = .ok (.results [BatchEntry.failure "null input at index 0".toList 0,
            BatchEntry.success "<h1>A</h1>\n".toList 2 1]) := by
  have hl : ¬ inputs.length ≤ 0 := by
    cases inputs with
    | nil => exact absurd rfl hne
    | cons x xs => simp
  refine ⟨?_, ?_, ?_⟩
  · intro hsz
    obtain ⟨rs, h1, h2, h3⟩ := batchLoop_spec rt inputs 0 NewMarkdownParser
    refine ⟨rs, ?_, h2, ?_⟩
    · simp only [ParseMarkdownBatch, hl, if_false, arrayView_length, hsz, if_true, h1]
    intro i
    have := h3 i
    simp only [Nat.zero_add] at this
    exact ⟨fun e => ⟨_, this.1 e⟩, fun md e => ⟨_, Parse_html rt _ md, this.2 md e⟩⟩
  · intro hsz
    have hsz1 : ¬ inputs.length ≤ 2 ^ 28 := by omega
    simp only [ParseMarkdownBatch, hl, if_false, arrayView_length, hsz1]
  · obtain ⟨rs, h1, h2, h3⟩ := batchLoop_spec rt [none, some "# A".toList] 0 NewMarkdownParser
    have e0 := (h3 0).1 rfl
    have e1 := (h3 1).2 "# A".toList rfl
    have hrs : rs = [BatchEntry.failure "null input at index 0".toList 0,
        BatchEntry.success "<h1>A</h1>\n".toList 2 1] := by
      match rs, h2, e0, e1 with
      | [x, y], _, e0, e1 =>
        simp only [List.getElem?_cons_zero, List.getElem?_cons_succ, Option.some.injEq] at e0 e1
        rw [e0, e1]
        decide
    have hv : arrayView [none, some "# A".toList] 2 = .ok [none, some "# A".toList] := rfl
    simp only [ParseMarkdownBatch, List.length_cons, List.length_nil, Nat.zero_add,
      Nat.reduceAdd, Nat.reduceLeDiff, if_false, hv, h1, hrs]

theorem ParseMarkdownBatch_entries_witness :
    ∃ rs, ParseMarkdownBatch Runtime.exact (some [none, some "```go".toList, some "a b".toList])
        = .ok (.results rs)
      ∧ rs.length = 3
      ∧ ∀ i, (([none, some "```go".toList, some "a b".toList] : List (Option Str))[i]? = some none
            → ∃ msg, rs[i]? = some (BatchEntry.failure msg i))
        ∧ (∀ md, ([none, some "```go".toList, some "a b".toList] : List (Option Str))[i]?
              = some (some md) →
            ∃ html, htmlOf (Parse Runtime.exact NewMarkdownParser md) = .ok html
              ∧ rs[i]? = some (BatchEntry.success html (countWords md) i)) :=
  (ParseMarkdownBatch_entries Runtime.exact [none, some "```go".toList, some "a b".toList]
    (by decide)).1 (by decide)

set_option maxRecDepth 100000 in
/-- C8 as stated fails: for the batch `[null, "# A"]` the entry at index 1 has word
count 2, not 1; and a batch of `2^28 + 1` absent inputs returns no sequence, because
slicing the input array panics. -/
theorem ParseMarkdownBatch_word_count_counterexample :
    ParseMarkdownBatch Runtime.exact (some [none, some "# A".toList])
        = .ok (.results [BatchEntry.failure "null input at index 0".toList 0,
            BatchEntry.success "<h1>A</h1>\n".toList 2 1])
      ∧ ParseMarkdownBatch Runtime.exact (some [none, some "# A".toList])
        ≠ .ok (.results [BatchEntry.failure "null input at index 0".toList 0,
            BatchEntry.success "<h1>A</h1>\n".toList 1 1])
      ∧ countWords "# A".toList = 2
      ∧ ParseMarkdownBatch Runtime.exact (some (List.replicate (2 ^ 28 + 1) none))
        = .error .sliceBounds := by
  refine ⟨by decide, by decide, by decide, ?_⟩
  simp only [ParseMarkdownBatch, arrayView_length, List.length_replicate]
  rfl

/-- C9: for `k ≥ 7` and a non-empty text `t` without newline that does not end in a space
or tab, the line of `k` hashes, a space and `t` matches no heading rule: `Parse` returns
`<p>`, the inline-reformatted line with its hashes, `</p>` and a newline. -/
theorem Parse_seven_hashes (rt : Runtime) (mp : MarkdownParser) (k : Nat) (t : Str)
    (hk : 7 ≤ k) (ht : t ≠ []) (hnl : '\n' ∉ t) (hb : ¬ EndsInBlank t) :
    ∃ r, processInlineFormatting (List.replicate k '#' ++ " ".toList ++ t) = .ok r
      ∧ htmlOf (Parse rt mp (List.replicate k '#' ++ " ".toList ++ t))
        = .ok ("<p>".toList ++ r ++ "</p>\n".toList) := by
  obtain ⟨r, hr⟩ := processInlineFormatting_total (List.replicate k '#' ++ " ".toList ++ t)
  refine ⟨r, hr, ?_⟩
  have hline : '\n' ∉ List.replicate k '#' ++ " ".toList ++ t := by
    simp only [List.mem_append, not_or]
    refine ⟨⟨?_, by decide⟩, hnl⟩
    intro h
    exact absurd (List.eq_of_mem_replicate h) (by decide)
  have hT : TrimRight (List.replicate k '#' ++ " ".toList ++ t) " \t".toList
      = List.replicate k '#' ++ " ".toList ++ t := TrimRight_append ht hb
  obtain ⟨j, rfl⟩ : ∃ j, k = j + 7 := ⟨k - 7, by omega⟩
  have hblank : ¬ EndsInBlank (List.replicate (j + 7) '#' ++ " ".toList ++ t) :=
    fun e => hb ((EndsInBlank_append ht).1 e)
  have hts : TrimSpace (TrimRight (List.replicate (j + 7) '#' ++ " ".toList ++ t) " \t".toList)
      ≠ [] := TrimSpace_ne_nil_of_head (c := '#') (by decide) hblank
  rw [Parse_single_line rt mp _ hline,
    lineOutput_paragraph _ r (by rw [hT]; exact ⟨rfl, rfl, rfl, rfl, rfl, rfl, rfl⟩)
      (by rw [hT]; rfl) (by rw [hT]; rfl) hts (by rw [hT]; exact hr)]

theorem Parse_seven_hashes_witness :
    ∃ r, processInlineFormatting "####### Tiny".toList = .ok r
      ∧ htmlOf (Parse Runtime.exact NewMarkdownParser "####### Tiny".toList)
        = .ok ("<p>".toList ++ r ++ "</p>\n".toList) :=
  Parse_seven_hashes Runtime.exact NewMarkdownParser 7 "Tiny".toList (by decide) (by decide)
    (by decide) (by decide)

/-- C10: the fenced-code flag is the only state carried from line to line.  When an even
number of lines of `a` begin with the fence marker, `Parse (a ++ "\n" ++ b)` is
`Parse a` followed by `Parse b`.  After any list of lines, read from the normal state,
the loop is inside a code block exactly when an odd number of them begin with the fence
marker; and a conversion is the line loop started in the normal state. -/
theorem Parse_append (rt : Runtime) (mp mpa mpb : MarkdownParser) (a b : Str)
    (h : Even ((Split a sNewline).countP (fun l => decide (sFence <+: l)))) :
    (∃ ha hb, htmlOf (Parse rt mpa a) = .ok ha ∧ htmlOf (Parse rt mpb b) = .ok hb
        ∧ htmlOf (Parse rt mp (a ++ "\n".toList ++ b)) = .ok (ha ++ hb))
    ∧ (∀ (pre : List Str) (bld : Builder), ∃ st, parseLines rt pre ⟨bld, false⟩ = .ok st
        ∧ (st.inCodeBlock = true ↔ Odd (pre.countP (fun l => decide (sFence <+: l)))))
    ∧ (∃ bld st, parseLines rt (Split a sNewline) ⟨bld, false⟩ = .ok st
        ∧ htmlOf (Parse rt mp a) = .ok st.builder.String) := by
  refine ⟨⟨(linesOutput (Split a sNewline) false).1, (linesOutput (Split b sNewline) false).1,
    Parse_html rt mpa a, Parse_html rt mpb b, ?_⟩, ?_, ?_⟩
  · have hs : a ++ "\n".toList ++ b = a ++ sNewline ++ b := rfl
    have hf : (linesOutput (Split a sNewline) false).2 = false := by
      rw [linesOutput_flag]
      have : ¬ Odd ((Split a sNewline).countP (fun l => decide (sFence <+: l))) :=
        Nat.not_odd_iff_even.2 h
      simp [this]
    rw [Parse_html, hs, Split_append, linesOutput_append, hf]
  · intro pre bld
    obtain ⟨c, hc⟩ := parseLines_eq rt pre bld false
    refine ⟨_, hc, ?_⟩
    simp only [linesOutput_flag, Bool.false_xor, decide_eq_true_eq]
  · obtain ⟨c, mp1, hg⟩ := getBuilder_ok rt mp a (utf8Len a : Int)
    obtain ⟨c2, hp⟩ := parseLines_eq rt (Split a sNewline) ⟨[], c⟩ false
    exact ⟨⟨[], c⟩, _, hp, by rw [Parse_html]; simp [Builder.String]⟩

theorem Parse_append_witness :
    ∃ ha hb, htmlOf (Parse Runtime.exact NewMarkdownParser "```\nx\n```".toList) = .ok ha
      ∧ htmlOf (Parse Runtime.exact NewMarkdownParser "# A".toList) = .ok hb
      ∧ htmlOf (Parse Runtime.exact NewMarkdownParser
          ("```\nx\n```".toList ++ "\n".toList ++ "# A".toList)) = .ok (ha ++ hb) :=
  (Parse_append Runtime.exact NewMarkdownParser NewMarkdownParser NewMarkdownParser
    "```\nx\n```".toList "# A".toList (by decide)).1

/-- C11: `Parse` never fails.  On every text and every line, each turn of the four loops
of the reformatter, the reformatter, the loop body of `Parse` and `Parse` itself return
a result: no slice is taken out of range (that would be the result `sliceBounds`), and
an HTML string comes back. -/
theorem Parse_never_fails (rt : Runtime) (mp : MarkdownParser) (markdown : Str) :
    (∃ html mp1, Parse rt mp markdown = .ok (html, mp1))
      ∧ (∀ text, ∃ r, processInlineFormatting text = .ok r)
      ∧ (∀ text, ∃ o, boldStep text = .ok o)
      ∧ (∀ text, ∃ o, italicStep text = .ok o)
      ∧ (∀ text, ∃ o, linkStep text = .ok o)
      ∧ (∀ text, ∃ o, codeStep text = .ok o)
      ∧ (∀ st line, ∃ st1, processLine rt st line = .ok st1) := by
  refine ⟨?_, processInlineFormatting_total, ?_, ?_, ?_, ?_, ?_⟩
  · obtain ⟨mp1, h⟩ := Parse_ok rt mp markdown
    exact ⟨_, mp1, h⟩
  · intro text
    rcases boldStep_decreases text with h | ⟨t1, h, _⟩
    · exact ⟨none, h⟩
    · exact ⟨some t1, h⟩
  · intro text
    rcases italicStep_decreases text with h | ⟨t1, h, _⟩
    · exact ⟨none, h⟩
    · exact ⟨some t1, h⟩
  · intro text
    rcases linkStep_decreases text with h | ⟨t1, h, _⟩
    · exact ⟨none, h⟩
    · exact ⟨some t1, h⟩
  · intro text
    rcases codeStep_decreases text with h | ⟨t1, h, _⟩
    · exact ⟨none, h⟩
    · exact ⟨some t1, h⟩
  · intro st line
    obtain ⟨c, h⟩ := processLine_eq rt st.builder st.inCodeBlock line
    exact ⟨_, h⟩

/-- C12: `processInlineFormatting` terminates.  A turn of a loop either leaves the loop
or lowers a measure of the text: the number of `*` for the bold and the italic loop, the
number of `)` for the link loop, the number of backticks for the inline-code loop.  So
each loop, started on any text, leaves within one turn per character plus one, and the
reformatter returns a result. -/
theorem processInlineFormatting_terminates (text : Str) :
    (boldStep text = .ok none
        ∨ ∃ t1, boldStep text = .ok (some t1) ∧ t1.count '*' < text.count '*')
      ∧ (italicStep text = .ok none
        ∨ ∃ t1, italicStep text = .ok (some t1) ∧ t1.count '*' < text.count '*')
      ∧ (linkStep text = .ok none
        ∨ ∃ t1, linkStep text = .ok (some t1) ∧ t1.count ')' < text.count ')')
      ∧ (codeStep text = .ok none
        ∨ ∃ t1, codeStep text = .ok (some t1)
            ∧ t1.count (Char.ofNat 96) < text.count (Char.ofNat 96))
      ∧ (∃ r, iterate boldStep (text.length + 1) text = .ok r ∧ boldStep r = .ok none)
      ∧ (∃ r, iterate italicStep (text.length + 1) text = .ok r ∧ italicStep r = .ok none)
      ∧ (∃ r, iterate linkStep (text.length + 1) text = .ok r ∧ linkStep r = .ok none)
      ∧ (∃ r, iterate codeStep (text.length + 1) text = .ok r ∧ codeStep r = .ok none)
      ∧ (∃ r, processInlineFormatting text = .ok r) :=
  ⟨boldStep_decreases text, italicStep_decreases text, linkStep_decreases text,
    codeStep_decreases text, loop_total boldStep _ boldStep_decreases text,
    loop_total italicStep _ italicStep_decreases text,
    loop_total linkStep _ linkStep_decreases text,
    loop_total codeStep _ codeStep_decreases text, processInlineFormatting_total text⟩

/-- C13: conversion is deterministic and independent of the builder pool.  For every text
there is one HTML string that `Parse` returns for every parser, whatever its pool holds
and whatever capacities the runtime allocates; so repeated calls, on a fresh parser or
on the parser that an earlier call left behind, return the same HTML. -/
theorem Parse_deterministic (markdown : Str) :
    ∃ html, (∀ rt mp, htmlOf (Parse rt mp markdown) = .ok html)
      ∧ (∀ rt mp h1 mp1, Parse rt mp markdown = .ok (h1, mp1) →
          h1 = html ∧ htmlOf (Parse rt mp1 markdown) = .ok html) := by
  refine ⟨(linesOutput (Split markdown sNewline) false).1, fun rt mp => Parse_html rt mp markdown,
    ?_⟩
  intro rt mp h1 mp1 h
  refine ⟨?_, Parse_html rt mp1 markdown⟩
  have := Parse_html rt mp markdown
  rw [h] at this
  simpa [htmlOf] using this

/-- C14 as stated fails at a capacity of exactly 65536 bytes: with room in the pool the
buffer is dropped, not added. -/
theorem returnBuilder_ceiling_counterexample :
    returnBuilder ⟨⟨10, []⟩⟩ ⟨[], 65536⟩ = ⟨⟨10, []⟩⟩
      ∧ (returnBuilder ⟨⟨10, []⟩⟩ ⟨[], 65536⟩).builderPool.items.length ≠ 0 + 1 := by
  decide

/-- C14 (amended): for a pool of capacity 10 that holds `k ≤ 10` builders and a builder of
capacity `c`, `returnBuilder` leaves the pool as it is if `c ≥ 65536` or `k = 10`, and
otherwise (`c < 65536` and `k < 10`) adds that builder at the end, so that the pool
holds `k + 1` builders. -/
theorem returnBuilder_cases (mp : MarkdownParser) (builder : Builder) (k : Nat)
    (hcap : mp.builderPool.capacity = 10) (hk : mp.builderPool.items.length = k)
    (_hk10 : k ≤ 10) :
    ((65536 ≤ builder.cap ∨ k = 10) → returnBuilder mp builder = mp)
      ∧ ((builder.cap < 65536 ∧ k < 10) →
          returnBuilder mp builder = ⟨⟨10, mp.builderPool.items ++ [builder]⟩⟩
            ∧ (returnBuilder mp builder).builderPool.items.length = k + 1) := by
  constructor
  · intro h
    unfold returnBuilder
    rcases h with h | h
    · have : ¬ builder.Cap < 64 * 1024 := by simp only [Builder.Cap]; omega
      rw [if_neg this]
    · have : ¬ mp.builderPool.items.length < mp.builderPool.capacity := by omega
      rw [if_neg this]
      split <;> rfl
  · intro h
    have h1 : builder.Cap < 64 * 1024 := by simp only [Builder.Cap]; omega
    have h2 : mp.builderPool.items.length < mp.builderPool.capacity := by omega
    have e : returnBuilder mp builder = ⟨⟨10, mp.builderPool.items ++ [builder]⟩⟩ := by
      unfold returnBuilder
      rw [if_pos h1, if_pos h2, hcap]
    rw [e]
    exact ⟨rfl, by simp [hk]⟩

theorem returnBuilder_cases_witness :
    ((65536 ≤ (⟨[], 100⟩ : Builder).cap ∨ 9 = 10) →
        returnBuilder ⟨⟨10, List.replicate 9 ⟨[], 0⟩⟩⟩ ⟨[], 100⟩
          = ⟨⟨10, List.replicate 9 ⟨[], 0⟩⟩⟩)
      ∧ (((⟨[], 100⟩ : Builder).cap < 65536 ∧ 9 < 10) →
          returnBuilder ⟨⟨10, List.replicate 9 ⟨[], 0⟩⟩⟩ ⟨[], 100⟩
            = ⟨⟨10, List.replicate 9 ⟨[], 0⟩ ++ [⟨[], 100⟩]⟩⟩
          ∧ (returnBuilder ⟨⟨10, List.replicate 9 ⟨[], 0⟩⟩⟩ ⟨[], 100⟩).builderPool.items.length
              = 9 + 1) :=
  returnBuilder_cases ⟨⟨10, List.replicate 9 ⟨[], 0⟩⟩⟩ ⟨[], 100⟩ 9 rfl (by decide) (by decide)

/-- C15: `estimateHTMLSize` returns a hint between 512 and 1048576, so never a negative
one, for every text, every `inputSize` and every value of the floating-point product. -/
theorem estimateHTMLSize_range (rt : Runtime) (markdown : Str) (inputSize : Int) :
    512 ≤ estimateHTMLSize rt markdown inputSize
      ∧ estimateHTMLSize rt markdown inputSize ≤ 1048576
      ∧ 0 ≤ estimateHTMLSize rt markdown inputSize := by
  have h := estimateHTMLSize_bounds rt markdown inputSize
  exact ⟨h.1, h.2, by omega⟩

/-- C16: for a non-empty text `t` without newline that does not end in a space or tab,
`Parse ("> " ++ t)` is `<blockquote>`, `t` as it is, `</blockquote>` and a newline;
`Parse "> **a**"` is `<blockquote>**a**</blockquote>` and a newline. -/
theorem Parse_blockquote (rt : Runtime) (mp : MarkdownParser) (t : Str)
    (ht : t ≠ []) (hnl : '\n' ∉ t) (hb : ¬ EndsInBlank t) :
    htmlOf (Parse rt mp ("> ".toList ++ t))
        = .ok ("<blockquote>".toList ++ t ++ "</blockquote>\n".toList)
      ∧ htmlOf (Parse rt mp "> **a**".toList) = .ok "<blockquote>**a**</blockquote>\n".toList := by
  have key : ∀ s : Str, s ≠ [] → '\n' ∉ s → ¬ EndsInBlank s →
      htmlOf (Parse rt mp ("> ".toList ++ s))
        = .ok ("<blockquote>".toList ++ s ++ "</blockquote>\n".toList) := by
    intro s hs hn hbl
    have hline : '\n' ∉ "> ".toList ++ s := by
      simp only [List.mem_append, not_or]; exact ⟨by decide, hn⟩
    have hT : TrimRight ("> ".toList ++ s) " \t".toList = "> ".toList ++ s :=
      TrimRight_append hs hbl
    rw [Parse_single_line rt mp _ hline,
      lineOutput_quote _ (by rw [hT]; exact ⟨rfl, rfl, rfl, rfl, rfl, rfl, rfl⟩)
        (by rw [hT]; rfl) (by rw [hT]; exact HasPrefix_append _ _), hT, TrimPrefix_append]
  exact ⟨key t ht hnl hb, key "**a**".toList (by decide) (by decide) (by decide)⟩

theorem Parse_blockquote_witness :
    htmlOf (Parse Runtime.exact NewMarkdownParser "> quoted *text*".toList)
        = .ok "<blockquote>quoted *text*</blockquote>\n".toList
      ∧ htmlOf (Parse Runtime.exact NewMarkdownParser "> **a**".toList)
        = .ok "<blockquote>**a**</blockquote>\n".toList :=
  Parse_blockquote Runtime.exact NewMarkdownParser "quoted *text*".toList (by decide)
    (by decide) (by decide)

set_option maxRecDepth 100000 in
/-- C17: trailing spaces and tabs of a line never affect the output.  For lines `l` without
newline, each followed by a text `w` of spaces and tabs, `Parse` of the lines `l ++ w`
joined by newlines is `Parse` of the trimmed lines joined by newlines.  So the end of a
line inside a fenced code block is trimmed too, and the lines `"# "`, `"- "`, `"> "` are
read as `"#"`, `"-"`, `">"` and rendered as paragraphs. -/
theorem Parse_trailing_blanks (rt : Runtime) (mp : MarkdownParser) (lws : List (Str × Str))
    (h : ∀ p ∈ lws, '\n' ∉ p.1 ∧ ∀ c ∈ p.2, c = ' ' ∨ c = '\t') :
    (∃ html, htmlOf (Parse rt mp (sNewline.intercalate (lws.map (fun p => p.1 ++ p.2))))
          = .ok html
        ∧ htmlOf (Parse rt mp
            (sNewline.intercalate (lws.map (fun p => TrimRight p.1 " \t".toList)))) = .ok html)
      ∧ htmlOf (Parse rt mp "```\nx \t\n```".toList) = .ok "<pre><code>x\n</code></pre>\n".toList
      ∧ htmlOf (Parse rt mp "# ".toList) = .ok "<p>#</p>\n".toList
      ∧ htmlOf (Parse rt mp "- ".toList) = .ok "<p>-</p>\n".toList
      ∧ htmlOf (Parse rt mp "> ".toList) = .ok "<p>></p>\n".toList := by
  refine ⟨?_, by rw [Parse_html]; decide, by rw [Parse_html]; decide,
    by rw [Parse_html]; decide, by rw [Parse_html]; decide⟩
  refine ⟨_, Parse_html rt mp _, ?_⟩
  rw [Parse_html]
  cases lws with
  | nil => rfl
  | cons p lws =>
    have h1 : ∀ l ∈ (p :: lws).map (fun p => p.1 ++ p.2), '\n' ∉ l := by
      intro l hl
      obtain ⟨q, hq, rfl⟩ := List.mem_map.1 hl
      obtain ⟨hq1, hq2⟩ := h q hq
      simp only [List.mem_append, not_or]
      refine ⟨hq1, fun hm => ?_⟩
      rcases hq2 _ hm with e | e <;> exact absurd e (by decide)
    have h2 : ∀ l ∈ (p :: lws).map (fun p => TrimRight p.1 " \t".toList), '\n' ∉ l := by
      intro l hl
      obtain ⟨q, hq, rfl⟩ := List.mem_map.1 hl
      intro hm
      exact (h q hq).1 ((List.rdropWhile_prefix _ _).subset hm)
    rw [Split_intercalate _ h1 (by simp), Split_intercalate _ h2 (by simp),
      linesOutput_trailing_blanks _ _ (fun q hq => (h q hq).2)]

theorem Parse_trailing_blanks_witness :
    ∃ html, htmlOf (Parse Runtime.exact NewMarkdownParser
          (sNewline.intercalate ([("# A ".toList, " \t".toList), ("b".toList, [])].map
            (fun p => p.1 ++ p.2)))) = .ok html
        ∧ htmlOf (Parse Runtime.exact NewMarkdownParser
            (sNewline.intercalate ([("# A ".toList, " \t".toList), ("b".toList, [])].map
              (fun p => TrimRight p.1 " \t".toList)))) = .ok html :=
  (Parse_trailing_blanks Runtime.exact NewMarkdownParser
    [("# A ".toList, " \t".toList), ("b".toList, [])] (by decide)).1

set_option maxRecDepth 100000 in
/-- C18 as stated fails in three ways.  A negative hint: once ten builders are taken from
the pool of `NewMarkdownParser`, `getBuilder(-1)` on the empty pool panics in `Grow`.  A
hint above the allocator limit: `getBuilder(1<<62)` panics in `Grow`.  A builder returned
twice: after two `getBuilder(0)`, returning the first builder twice and eight more
`getBuilder(0)`, the pool holds the pointer to that builder twice; `getBuilder(70000)`
takes one and grows the builder, and the pool is left with a builder of capacity 70000. -/
theorem pool_invariant_counterexample :
    ByRef.applyOps Runtime.exact
        (List.replicate 10 (ByRef.PoolOp.get 0) ++ [ByRef.PoolOp.get (-1)])
        ByRef.NewMarkdownParser = .error Fault.growNegative
      ∧ ByRef.getBuilder Runtime.exact ByRef.NewMarkdownParser (2 ^ 62)
          = .error Fault.allocLimit
      ∧ ByRef.applyOps Runtime.exact
            ([ByRef.PoolOp.get 0, ByRef.PoolOp.get 0, ByRef.PoolOp.ret 0, ByRef.PoolOp.ret 0]
              ++ List.replicate 8 (ByRef.PoolOp.get 0) ++ [ByRef.PoolOp.get 70000])
            ByRef.NewMarkdownParser
          = .ok ⟨⟨[], 70000⟩ :: List.replicate 9 ⟨[], 0⟩, ⟨10, [0]⟩⟩ := by
  decide

/-- C18 (amended): pool invariant.  Starting from `NewMarkdownParser`, after any sequence
of `getBuilder` and `returnBuilder` operations, and of builders made or used by the
caller, that runs to its end, the pool holds at most 10 builders.  If every hint is at
most the allocator limit, and not negative when the pool is empty, and every builder
returned or used is, at that moment, one that the pool does not hold, then the sequence
runs to its end and every builder in the pool has capacity strictly below 65536.  In the
state it leaves, `getBuilder` with a hint up to the allocator limit, and not negative if
the pool is empty, returns an empty builder that the pool does not hold, of capacity at
least the hint when the runtime allocates at least what is asked; on the empty pool the
builder is a new one and the pool is left as it is.  `getBuilder` panics for a negative
hint on the empty pool, and for a hint above the allocator limit. -/
theorem pool_invariant (rt : Runtime) (ops : List ByRef.PoolOp) :
    (∀ st, ByRef.applyOps rt ops ByRef.NewMarkdownParser = .ok st →
        st.builderPool.items.length ≤ 10)
      ∧ (ByRef.Disciplined rt ops ByRef.NewMarkdownParser = true →
          ∃ st, ByRef.applyOps rt ops ByRef.NewMarkdownParser = .ok st
            ∧ st.builderPool.items.length ≤ 10
            ∧ (∀ p ∈ st.builderPool.items, ∃ b, st.heap[p]? = some b ∧ b.Cap < 65536)
            ∧ ∀ hint : Int,
                ((st.builderPool.items = [] → 0 ≤ hint) → hint ≤ (rt.maxAlloc : Int) →
                  ∃ p st1 b, ByRef.getBuilder rt st hint = .ok (p, st1)
                    ∧ st1.heap[p]? = some b ∧ b.buf = [] ∧ p ∉ st1.builderPool.items
                    ∧ (st.builderPool.items = [] →
                        p = st.heap.length ∧ st1.heap = st.heap ++ [b]
                          ∧ st1.builderPool = st.builderPool)
                    ∧ ((∀ n, n ≤ rt.allocCap n) → hint ≤ (b.Cap : Int)))
                ∧ (st.builderPool.items = [] → hint < 0 →
                    ByRef.getBuilder rt st hint = .error .growNegative)
                ∧ ((rt.maxAlloc : Int) < hint →
                    ByRef.getBuilder rt st hint = .error .allocLimit)) := by
  refine ⟨fun st e => (poolBound_applyOps rt ops _ st ⟨rfl, by decide⟩ e).2, ?_⟩
  intro hd
  obtain ⟨st, hst, hinv⟩ := poolInv_applyOps rt ops _ poolInv_new hd
  refine ⟨st, hst, hinv.2.1, hinv.2.2.2, ?_⟩
  intro hint
  refine ⟨?_, ?_, ?_⟩
  · intro h0 hm
    have hm1 : ¬ (rt.maxAlloc : Int) < hint := by omega
    cases hi : st.builderPool.items with
    | nil =>
      have h0 : ¬ hint < 0 := by have := h0 hi; omega
      have hg := getBuilder_empty rt st hint hi
      simp only [h0, hm1, if_false] at hg
      refine ⟨_, _, handedOut rt hint, hg, by simp, handedOut_buf rt hint, ?_,
        fun _ => ⟨rfl, rfl, rfl⟩, handedOut_cap rt hint⟩
      simp only [hi]
      exact List.not_mem_nil _
    | cons q rest =>
      obtain ⟨b, hb, _⟩ := hinv.2.2.2 q (by rw [hi]; exact List.mem_cons_self _ _)
      have hg := getBuilder_queued rt st hint q rest b hi hb
      simp only [hm1, if_false] at hg
      obtain ⟨_, hq, hh⟩ := poolInv_getBuilder hinv hg
      exact ⟨_, _, handedOut rt hint, hg, hh, handedOut_buf rt hint, hq,
        fun e => absurd e (List.cons_ne_nil _ _), handedOut_cap rt hint⟩
  · intro hi hneg
    rw [getBuilder_empty rt st hint hi]
    simp only [hneg, if_true]
  · intro hm
    cases hi : st.builderPool.items with
    | nil =>
      have h0 : ¬ hint < 0 := by omega
      rw [getBuilder_empty rt st hint hi]
      simp only [h0, hm, if_true, if_false]
    | cons q rest =>
      obtain ⟨b, hb, _⟩ := hinv.2.2.2 q (by rw [hi]; exact List.mem_cons_self _ _)
      rw [getBuilder_queued rt st hint q rest b hi hb]
      simp only [hm, if_true]

theorem pool_invariant_witness :
    ByRef.Disciplined Runtime.exact
        [ByRef.PoolOp.get 600, ByRef.PoolOp.ret 0, ByRef.PoolOp.make ⟨[], 70000⟩,
          ByRef.PoolOp.ret 10] ByRef.NewMarkdownParser = true
      ∧ ∃ st, ByRef.applyOps Runtime.exact
            [ByRef.PoolOp.get 600, ByRef.PoolOp.ret 0, ByRef.PoolOp.make ⟨[], 70000⟩,
              ByRef.PoolOp.ret 10] ByRef.NewMarkdownParser = .ok st
          ∧ st.builderPool.items.length ≤ 10
          ∧ ∀ p ∈ st.builderPool.items, ∃ b, st.heap[p]? = some b ∧ b.Cap < 65536 :=
  ⟨by decide,
    let ⟨st, h1, h2, h3, _⟩ := (pool_invariant Runtime.exact
      [ByRef.PoolOp.get 600, ByRef.PoolOp.ret 0, ByRef.PoolOp.make ⟨[], 70000⟩,
        ByRef.PoolOp.ret 10]).2 (by decide)
    ⟨st, h1, h2, h3⟩⟩

set_option maxRecDepth 100000 in
/-- C19 as stated fails when nothing stands between the italic and the bold span: in
`*a***b**` the first `**` is the closing `*` of the italic span and the first `*` of the
bold marker, and the result is `<em>a<strong></em>b</strong>`. -/
theorem processInlineFormatting_italic_bold_counterexample :
    processInlineFormatting ("*".toList ++ "a".toList ++ "*".toList ++ [] ++ "**".toList
        ++ "b".toList ++ "**".toList) = .ok "<em>a<strong></em>b</strong>".toList
      ∧ processInlineFormatting ("*".toList ++ "a".toList ++ "*".toList ++ [] ++ "**".toList
        ++ "b".toList ++ "**".toList)
        ≠ .ok ("<em>".toList ++ "a".toList ++ "</em>".toList ++ [] ++ "<strong>".toList
          ++ "b".toList ++ "</strong>".toList) := by
  decide

/-- C19 (amended): an italic span followed, after a non-empty text, by a bold span are
both substituted.  For texts `y m x` without `*`, backtick, `[`, `]`, `(`, `)`, all three
non-empty, `processInlineFormatting ("*" ++ y ++ "*" ++ m ++ "**" ++ x ++ "**")` returns
`"<em>" ++ y ++ "</em>" ++ m ++ "<strong>" ++ x ++ "</strong>"`. -/
theorem processInlineFormatting_italic_then_bold (y m x : Str)
    (hy : Plain y) (hm : Plain m) (hx : Plain x)
    (hy0 : y ≠ []) (hm0 : m ≠ []) (_hx0 : x ≠ []) :
    processInlineFormatting
        ("*".toList ++ y ++ "*".toList ++ m ++ "**".toList ++ x ++ "**".toList)
      = .ok ("<em>".toList ++ y ++ "</em>".toList ++ m ++ "<strong>".toList ++ x
          ++ "</strong>".toList) := by
  have head_ne : ∀ (t r : Str), Plain t → t ≠ [] → (t ++ r).head? ≠ some '*' := by
    intro t r ht h0
    cases t with
    | nil => exact absurd rfl h0
    | cons d t =>
      have : d ≠ '*' := fun e => ht.star (by simp [e])
      simpa using this
  -- the text before the bold marker, and the texts after each loop
  let a : Str := sStar ++ y ++ sStar ++ m
  let s : Str := "<strong>".toList ++ x ++ "</strong>".toList
  let t0 : Str := a ++ sBold ++ x ++ sBold ++ []
  let t1 : Str := a ++ s ++ []
  let t2 : Str := "<em>".toList ++ y ++ "</em>".toList ++ (m ++ s)
  have e0 : "*".toList ++ y ++ "*".toList ++ m ++ "**".toList ++ x ++ "**".toList = t0 := by
    simp only [t0, a, sBold, sStar, List.append_assoc, List.append_nil]
  have hms : '*' ∉ m ++ s := by
    simp only [s, List.mem_append, not_or]
    exact ⟨hm.star, ⟨by decide, hx.star⟩, by decide⟩
  have hxb : Index (x ++ sBold ++ []) sBold = some x.length := by
    have hb : sBold = '*' :: ['*'] := by decide
    rw [List.append_assoc]
    conv_lhs => rw [hb, Index_skip _ _ x _ hx.star, ← hb, Index_append_self]
    simp
  -- bold loop
  have i0 : Index t0 sBold = some a.length := by
    have sh : t0 = [] ++ '*' :: (y ++ '*' :: (m ++ (sBold ++ (x ++ sBold)))) := by
      simp only [t0, a, sStar, List.append_assoc, List.append_nil]; rfl
    have hb : sBold = '*' :: ['*'] := by decide
    rw [sh, Index_bold_single [] _ (by simp) (head_ne y _ hy hy0),
      Index_bold_single y _ hy.star (head_ne m _ hm hm0)]
    conv_lhs => rw [hb, Index_skip _ _ m _ hm.star, ← hb, Index_append_self]
    simp [a, sStar]
    omega
  have b1 : boldStep t0 = .ok (some t1) := by
    have hc : Contains t0 sBold = true := by
      rw [Contains_iff]
      exact ⟨a, x ++ sBold ++ [], by simp only [t0, List.append_assoc]⟩
    rw [boldStep, if_pos hc]
    exact spanStep_at sBold _ _ a x [] i0 hxb
  have nb1 : ¬ sBold <:+: t1 := by
    have sh : t1 = [] ++ '*' :: (y ++ '*' :: (m ++ s)) := by
      simp only [t1, a, sStar, List.append_assoc, List.append_nil]; rfl
    rw [sh]
    apply not_bold_single [] _ (by simp) (head_ne y _ hy hy0)
    apply not_bold_single y _ hy.star (head_ne m _ hm hm0)
    exact not_infix_of_not_mem (c := '*') (by decide) hms
  have b2 : boldStep t1 = .ok none :=
    boldStep_of_not_contains ((Contains_false_iff _ _).2 nb1)
  have B : iterate boldStep 2 t0 = .ok t1 := by
    rw [iterate_next _ _ _ _ b1, iterate_done _ _ _ b2]
  -- italic loop
  have i1 : italicStep t1 = .ok (some t2) := by
    have sh : t1 = [] ++ sStar ++ y ++ sStar ++ (m ++ s) := by
      simp only [t1, a, List.append_assoc, List.append_nil, List.nil_append]
    have hc : Contains t1 sStar = true := by
      rw [Contains_iff]
      exact ⟨[], y ++ sStar ++ (m ++ s), by rw [sh]; simp only [List.append_assoc]⟩
    have hc2 : Contains t1 sBold = false := (Contains_false_iff _ _).2 nb1
    have hb : sStar = '*' :: [] := by decide
    simp only [italicStep, hc, hc2, Bool.not_false, Bool.and_self, if_true]
    rw [sh, hb]
    have := spanStep_wrap '*' [] "<em>".toList "</em>".toList [] y (m ++ s) (by simp) hy.star
    simpa only [t2, List.nil_append, List.append_assoc] using this
  have ht2 : ∀ c : Char, c ∉ y → c ∉ m → c ∉ x →
      c ∉ "<strong>".toList → c ∉ "</strong>".toList → c ∉ "<em>".toList →
      c ∉ "</em>".toList → c ∉ t2 := by
    intro c h1 h2 h3 h4 h5 h6 h7
    simp only [t2, s, List.mem_append, not_or]
    exact ⟨⟨⟨h6, h1⟩, h7⟩, h2, ⟨h4, h3⟩, h5⟩
  have i2 : italicStep t2 = .ok none :=
    italicStep_of_no_star (Contains_false_of_not_mem (c := '*') (by decide)
      (ht2 _ hy.star hm.star hx.star (by decide) (by decide) (by decide) (by decide)))
  have I : iterate italicStep 2 t1 = .ok t2 := by
    rw [iterate_next _ _ _ _ i1, iterate_done _ _ _ i2]
  have L : iterate linkStep 1 t2 = .ok t2 :=
    iterate_done _ _ _ (linkStep_not_contains _
      (Contains_false_of_not_mem (c := ']') (by decide)
        (ht2 _ hy.rbracket hm.rbracket hx.rbracket (by decide) (by decide) (by decide)
          (by decide))))
  have K : iterate codeStep 1 t2 = .ok t2 :=
    iterate_done _ _ _ (codeStep_of_not_contains
      (Contains_false_of_not_mem (c := Char.ofNat 96) (by decide)
        (ht2 _ hy.tick hm.tick hx.tick (by decide) (by decide) (by decide) (by decide))))
  rw [e0, processInlineFormatting_eq _ _ _ _ _ _ _ _ _ B I L K]
  simp only [t2, s, List.append_assoc]

theorem processInlineFormatting_italic_then_bold_witness :
    processInlineFormatting "*b* and **a**".toList
      = .ok "<em>b</em> and <strong>a</strong>".toList :=
  processInlineFormatting_italic_then_bold "b".toList " and ".toList "a".toList
    (by decide) (by decide) (by decide) (by decide) (by decide) (by decide)

/-- C20: `processInlineFormatting` is idempotent.  The text `r` that it returns is
returned as it is by a second pass: with `r` each of the four loops leaves at once, so no
bold, italic, link or inline-code pattern that the reformatter would rewrite remains,
the inserted tags included. -/
theorem processInlineFormatting_idempotent (text : Str) :
    ∃ r, processInlineFormatting text = .ok r ∧ processInlineFormatting r = .ok r
      ∧ boldStep r = .ok none ∧ italicStep r = .ok none ∧ linkStep r = .ok none
      ∧ codeStep r = .ok none := by
  obtain ⟨t1, h1, b1⟩ := loop_total boldStep _ boldStep_decreases text
  obtain ⟨t2, h2, i2⟩ := loop_total italicStep _ italicStep_decreases t1
  obtain ⟨t3, h3, l3⟩ := loop_total linkStep _ linkStep_decreases t2
  obtain ⟨r, h4, k4⟩ := loop_total codeStep _ codeStep_decreases t3
  -- the bold loop is still done after the italic loop
  have b2 : boldStep t2 = .ok none :=
    iterate_invariant italicStep (fun t => boldStep t = .ok none)
      (fun t t' _ hs => by
        show boldStep t' = .ok none
        rw [boldStep_none_iff, boldCount_italicStep hs]; omega) _ t1 t2 b1 h2
  -- the bold and italic loops are still done after the link loop
  have bi3 : boldStep t3 = .ok none ∧ italicStep t3 = .ok none :=
    iterate_invariant linkStep (fun t => boldStep t = .ok none ∧ italicStep t = .ok none)
      (fun t t' hi hs => by
        obtain ⟨e1, e2⟩ := stars_linkStep hs
        have hb : boldStep t = .ok none := hi.1
        have hit : italicStep t = .ok none := hi.2
        show boldStep t' = .ok none ∧ italicStep t' = .ok none
        rw [boldStep_none_iff] at hb ⊢
        rw [italicStep_none_iff] at hit ⊢
        rw [e1, e2]
        exact ⟨hb, hit⟩) _ t2 t3 ⟨b2, i2⟩ h3
  -- the bold, italic and link loops are still done after the inline-code loop
  have bil4 : boldStep r = .ok none ∧ italicStep r = .ok none ∧ linkStep r = .ok none :=
    iterate_invariant codeStep
      (fun t => boldStep t = .ok none ∧ italicStep t = .ok none ∧ linkStep t = .ok none)
      (fun t t' hi hs => by
        obtain ⟨e1, e2, e3⟩ := stars_codeStep hs
        have hb : boldStep t = .ok none := hi.1
        have hit : italicStep t = .ok none := hi.2.1
        have hl : linkStep t = .ok none := hi.2.2
        show boldStep t' = .ok none ∧ italicStep t' = .ok none ∧ linkStep t' = .ok none
        rw [boldStep_none_iff] at hb ⊢
        rw [italicStep_none_iff] at hit ⊢
        rw [linkStep_none_iff] at hl ⊢
        rw [e1, e2, e3]
        exact ⟨hb, hit, hl⟩) _ t3 r ⟨bi3.1, bi3.2, l3⟩ h4
  refine ⟨r, processInlineFormatting_eq _ _ _ _ _ _ _ _ _ h1 h2 h3 h4,
    processInlineFormatting_eq r r r r r 1 1 1 1 (iterate_done _ _ _ bil4.1)
      (iterate_done _ _ _ bil4.2.1) (iterate_done _ _ _ bil4.2.2) (iterate_done _ _ _ k4),
    bil4.1, bil4.2.1, bil4.2.2, k4⟩

end Inkdown
